import Mathlib

/-!
# Sonic: audio fingerprint store, matcher, decoder, peak extractor, landmark hasher, FFT

A shallow embedding of `matcher/matcher.go`, of the WAV decoder and the
peak/hash part of `fingerprint/fingerprint.go`, and of `fft/fft.go`.

Conventions of the embedding

* Go `string` is `String`; Go `uint64`/`uint32` values are `Nat` with explicit
  reduction modulo `2 ^ 64` where the Go arithmetic wraps.
* A finite Go `float64` value is the rational number it stands for (`ℚ`).  The
  matcher only divides two integer counts and compares the quotients with one
  another and with `0.6`; for counts below `2 ^ 50` those comparisons agree
  with the exact ones.  The sample normalisation of the decoder is exact in
  float64.  In `extractPeaks` the constants `0.001` and `0.95` are the float64
  values `peakFloor` and `dominance`, the product `mag*0.95` is rounded as
  float64 arithmetic rounds it (`float64Mul`), and comparisons of float64
  values are exact.  The cosine window and the FFT magnitude are parameters
  of the fingerprint generators.
* Go `int` values are `Int`, with `Int.tdiv` for the truncating `/`; loop
  counters that only count upwards from zero are `Nat`.
* A run-time panic is `none`.
* A byte stream is the list of its bytes (`Nat` below 256).  The decoder loop
  and the data-dependent loops of the FFT take a fuel, and `none` means that
  the fuel ran out before the loop ended.
* In `fft/fft.go` a `complex128` is an element of a commutative ring (exact
  arithmetic), and the twiddle factor of each stage is a parameter; the
  theorems instantiate it with the complex numbers and `cos`/`sin`.
* A Go `map[uint64]struct{}` is the list of its keys in iteration order; the
  theorems that depend on it being a map assume the list duplicate-free with
  entries below `2 ^ 64`.
* The Redis server is a finite map from keys to sets of strings.  A set is the
  list of its members in the order `SMEMBERS` enumerates them; an absent key is
  the empty list.  Every command on a key may fail (`down`), which is how the
  `err != nil` branches of the Go code are reached.
-/

namespace Sonic

/-! # Definitions -/

/-! ## strconv -/

/-- The ASCII digit for a value below ten. -/
def digitChar (d : Nat) : Char := Char.ofNat (48 + d)

/-- Digit loop of `strconv.FormatUint(u, 10)`: emits the decimal digits of `u`
in front of `acc`, least significant digit first. -/
def formatDigits : Nat → Nat → List Char → List Char
  | 0, _, acc => acc
  | fuel + 1, u, acc =>
    if u < 10 then digitChar u :: acc
    else formatDigits fuel (u / 10) (digitChar (u % 10) :: acc)

/-- `strconv.FormatUint(h, 10)` for a 64-bit value (at most twenty digits). -/
def FormatUint (h : Nat) : String := String.mk (formatDigits 20 h [])

/-- Digit loop of `strconv.ParseUint(s, 10, 64)`: a non-digit is a syntax error,
a value that leaves the 64-bit range is a range error. -/
def parseDigits : List Char → Nat → Option Nat
  | [], n => some n
  | c :: cs, n =>
    if 48 ≤ c.toNat ∧ c.toNat ≤ 57 then
      if n * 10 + (c.toNat - 48) < 2 ^ 64 then parseDigits cs (n * 10 + (c.toNat - 48))
      else none
    else none

/-- `strconv.ParseUint(s, 10, 64)`; `none` is a non-nil error. -/
def ParseUint (s : String) : Option Nat :=
  if s.data = [] then none else parseDigits s.data 0

/-! ## Redis client -/

/-- Error of a Redis command. -/
inductive RedisError where
  | failed
  deriving DecidableEq, Repr

deriving instance DecidableEq for Except

/-- State of the Redis server seen through the client `rdb`. -/
@[ext]
structure Rdb where
  /-- Members of the set stored at a key, in enumeration order. -/
  sets : String → List String
  /-- Keys on which a command returns an error. -/
  down : String → Bool
  /-- A set holds each member once. -/
  nodup : ∀ k, (sets k).Nodup

/-- The server state with the set at `key` replaced by `members`. -/
def Rdb.put (r : Rdb) (key : String) (members : List String) (h : members.Nodup) : Rdb :=
  { sets := fun k => if k = key then members else r.sets k
    down := r.down
    nodup := fun k => by
      dsimp only
      split_ifs
      · exact h
      · exact r.nodup k }

/-- `SADD key member`. -/
def SAdd (r : Rdb) (key member : String) : Except RedisError Rdb :=
  if r.down key then .error .failed
  else if hm : member ∈ r.sets key then .ok r
  else .ok (r.put key (r.sets key ++ [member]) (by
    rw [List.nodup_append]
    refine ⟨r.nodup key, List.nodup_singleton member, ?_⟩
    intro a ha hb
    rw [List.mem_singleton] at hb
    rw [hb] at ha
    exact hm ha))

/-- `SMEMBERS key`. -/
def SMembers (r : Rdb) (key : String) : Except RedisError (List String) :=
  if r.down key then .error .failed else .ok (r.sets key)

/-- `DEL key`. -/
def Del (r : Rdb) (key : String) : Except RedisError Rdb :=
  if r.down key then .error .failed
  else .ok (r.put key [] List.nodup_nil)

/-- `SREM key member`. -/
def SRem (r : Rdb) (key member : String) : Except RedisError Rdb :=
  if r.down key then .error .failed
  else .ok (r.put key ((r.sets key).erase member) ((r.nodup key).erase member))

/-! ## matcher/matcher.go -/

/-- `SimilarityThreshold`. -/
def SimilarityThreshold : ℚ := 6 / 10

/-- The key of a song's hash set: `"song:" + songName + ":hashes"`. -/
def hashKey (songName : String) : String := "song:" ++ songName ++ ":hashes"

/-- The `for h := range hashes` loop of `StoreFingerprint`: the state reached
and the error that stopped the loop, if any. -/
def storeLoop (key : String) : List Nat → Rdb → Rdb × Option RedisError
  | [], r => (r, none)
  | h :: hs, r =>
    match SAdd r key (FormatUint h) with
    | .error e => (r, some e)
    | .ok r1 => storeLoop key hs r1

/-- `Matcher.StoreFingerprint`: the store afterwards and the returned error
(`none` is `nil`). -/
def StoreFingerprint (r : Rdb) (songName : String) (hashes : List Nat) :
    Rdb × Option RedisError :=
  match storeLoop (hashKey songName) hashes r with
  | (r1, some e) => (r1, some e)
  | (r1, none) =>
    match SAdd r1 "songs" songName with
    | .error e => (r1, some e)
    | .ok r2 => (r2, none)

/-- The inner loop of `FindMatch`: the number of stored members that parse to
a hash of the query. -/
def matchingCount (queryHashes : List Nat) : List String → Nat
  | [] => 0
  | hStr :: rest =>
    match ParseUint hStr with
    | none => matchingCount queryHashes rest
    | some h =>
      if h ∈ queryHashes then matchingCount queryHashes rest + 1
      else matchingCount queryHashes rest

/-- The `for _, song := range songs` loop of `FindMatch`, from the current
`(bestMatch, bestSimilarity)`. -/
def findLoop (r : Rdb) (queryHashes : List Nat) (queryCount : ℚ) :
    List String → String × ℚ → String × ℚ
  | [], best => best
  | song :: rest, best =>
    match SMembers r (hashKey song) with
    | .error _ => findLoop r queryHashes queryCount rest best
    | .ok storedHashes =>
      let similarity : ℚ := (matchingCount queryHashes storedHashes : ℚ) / queryCount
      if similarity ≥ SimilarityThreshold ∧ similarity > best.2 then
        findLoop r queryHashes queryCount rest (song, similarity)
      else findLoop r queryHashes queryCount rest best

/-- `Matcher.FindMatch`. -/
def FindMatch (r : Rdb) (queryHashes : List Nat) : Except RedisError (String × ℚ) :=
  match SMembers r "songs" with
  | .error e => .error e
  | .ok songs =>
    if songs.length = 0 then .ok ("", 0)
    else
      let queryCount : ℚ := (queryHashes.length : ℚ)
      if queryCount = 0 then .ok ("", 0)
      else .ok (findLoop r queryHashes queryCount songs ("", 0))

/-- `Matcher.DeleteSong`: the store afterwards and the returned error. -/
def DeleteSong (r : Rdb) (songName : String) : Rdb × Option RedisError :=
  match Del r (hashKey songName) with
  | .error e => (r, some e)
  | .ok r1 =>
    match SRem r1 "songs" songName with
    | .error e => (r1, some e)
    | .ok r2 => (r2, none)

/-- `Matcher.ListSongs`. -/
def ListSongs (r : Rdb) : Except RedisError (List String) := SMembers r "songs"

/-- A store with the given sets on which every command succeeds. -/
def mkRdb (sets : String → List String) (h : ∀ k, (sets k).Nodup) : Rdb :=
  { sets := sets, down := fun _ => false, nodup := h }

/-- The store without any key. -/
def emptyRdb : Rdb := mkRdb (fun _ => []) (fun _ => List.nodup_nil)

/-- The store without any key on which every command fails. -/
def downRdb : Rdb := { sets := fun _ => [], down := fun _ => true, nodup := fun _ => List.nodup_nil }

/-! ## Corpus, similarity and example stores -/

/-- Similarity of a stored hash set against a query: `|query ∩ stored| / Q`. -/
def similarityOf (query stored : List Nat) : ℚ :=
  ((query.toFinset ∩ stored.toFinset).card : ℚ) / (query.toFinset.card : ℚ)

/-- The store holds the corpus: `songs` enumerates the names in the order of the
list, and the set of each song holds the decimal strings of its hashes. -/
def HoldsCorpus (r : Rdb) (corpus : List (String × List Nat)) : Prop :=
  r.sets "songs" = corpus.map Prod.fst ∧
    ∀ e ∈ corpus, e.2.Nodup ∧ (∀ h ∈ e.2, h < 2 ^ 64) ∧
      r.sets (hashKey e.1) = e.2.map FormatUint

/-- Three songs, enumerated as A, B, C. -/
def setsABC (k : String) : List String :=
  if k = "songs" then ["A", "B", "C"]
  else if k = "song:A:hashes" then ["1", "2", "3"]
  else if k = "song:B:hashes" then ["1", "2", "3", "4"]
  else if k = "song:C:hashes" then ["4", "3", "2", "1"]
  else []

/-- A store with three songs, enumerated as A, B, C. -/
def storeABC : Rdb := mkRdb setsABC (by
    intro k
    unfold setsABC
    split_ifs <;> decide)

/-- The corpus held by `storeABC`. -/
def corpusABC : List (String × List Nat) :=
  [("A", [1, 2, 3]), ("B", [1, 2, 3, 4]), ("C", [4, 3, 2, 1])]

/-- One song A holding the single hash 1. -/
def setsA1 (k : String) : List String :=
  if k = "songs" then ["A"] else if k = "song:A:hashes" then ["1"] else []

/-- A store with one song A holding the single hash 1. -/
def storeA1 : Rdb := mkRdb setsA1 (by
    intro k
    unfold setsA1
    split_ifs <;> decide)

/-- Every member of every song's hash set is the decimal string of a 64-bit
value, which is what `StoreFingerprint` writes. -/
def Canonical (r : Rdb) : Prop :=
  ∀ name, ∀ s ∈ r.sets (hashKey name), (ParseUint s).map FormatUint = some s

/-- The hash values stored for a song. -/
def storedHashes (r : Rdb) (name : String) : List Nat :=
  (r.sets (hashKey name)).filterMap ParseUint

/-- The corpus a store holds: the enumerated names with their stored hashes. -/
def corpusOf (r : Rdb) : List (String × List Nat) :=
  (r.sets "songs").map fun n => (n, storedHashes r n)

/-- Song B holds the hashes 1 and 2, song A holds the hash 1; B is enumerated
first. -/
def setsBA (k : String) : List String :=
  if k = "songs" then ["B", "A"]
  else if k = "song:B:hashes" then ["1", "2"]
  else if k = "song:A:hashes" then ["1"]
  else []

/-- A store with the songs B and A, B enumerated first. -/
def storeBA : Rdb := mkRdb setsBA (by
    intro k
    unfold setsBA
    split_ifs <;> decide)

/-! ## fingerprint/fingerprint.go: peaks and landmark hashes -/

/-- `SampleRate`. -/
def SampleRate : Nat := 44100
/-- `WindowSize`. -/
def WindowSize : Nat := 2048
/-- `HopSize`. -/
def HopSize : Nat := 512
/-- `TopFrequencies`. -/
def TopFrequencies : Nat := 8
/-- `MaxDurationSec`. -/
def MaxDurationSec : Nat := 10
/-- `MinFreq`. -/
def MinFreq : Nat := 300
/-- `MaxFreq`. -/
def MaxFreq : Nat := 12000

/-- The local `peak` struct of `extractPeaks`. -/
structure Peak where
  freq : Nat
  magnitude : ℚ
  deriving DecidableEq

/-- Rounding of the quotient `n / d` to the nearest natural number, a tie to
the even one. -/
def roundHalfEven (n d : Nat) : Nat :=
  let q := n / d
  let r := n % d
  if 2 * r < d then q else if d < 2 * r then q + 1 else if q % 2 = 0 then q else q + 1

/-- The position of the highest set bit of `n`, found by halving at most `fuel`
times; `log2Floor n n` is the `k` with `2 ^ k ≤ n < 2 ^ (k + 1)` for `n ≥ 1`. -/
def log2Floor : Nat → Nat → Nat
  | 0, _ => 0
  | fuel + 1, n => if 2 ≤ n then log2Floor fuel (n / 2) + 1 else 0

/-- The rounding of float64 arithmetic (IEEE 754 binary64, round to nearest,
ties to even) on an exact value `x`: with `2 ^ e ≤ |x| < 2 ^ (e + 1)`, the
multiple of `2 ^ (e - 52)` nearest to `x`, i.e. the nearest number with a
53-bit significand.  The exponent is not bounded: overflow and the subnormal
range are outside the model (the one product that is rounded, `mag*0.95`, is
computed for `mag > 0.001` only). -/
def float64Round (x : ℚ) : ℚ :=
  if x.num = 0 then 0
  else
    let n := x.num.natAbs
    let d := x.den
    let k := log2Floor n n
    let l := log2Floor d d
    let e : Int := (k : Int) - (l : Int) - (if n * 2 ^ l < d * 2 ^ k then 1 else 0)
    let r : ℚ :=
      if e ≤ 52 then
        (roundHalfEven (n * 2 ^ (52 - e).toNat) d : ℚ) / ((2 ^ (52 - e).toNat : Nat) : ℚ)
      else ((roundHalfEven n (d * 2 ^ (e - 52).toNat) * 2 ^ (e - 52).toNat : Nat) : ℚ)
    if x < 0 then -r else r

/-- The float64 product `a * b` of two float64 values. -/
def float64Mul (a b : ℚ) : ℚ := float64Round (a * b)

/-- The constant `0.001` of `extractPeaks` as a float64: the float64 nearest to
1/1000, `1152921504606847 / 2 ^ 60`, a little above 1/1000. -/
def peakFloor : ℚ := 1152921504606847 / 1152921504606846976

/-- The constant `0.95` of `extractPeaks` as a float64: the float64 nearest to
95/100, `4278419646001971 / 2 ^ 52`, a little below 95/100. -/
def dominance : ℚ := 4278419646001971 / 4503599627370496

/-- The neighbour loop of `extractPeaks`: some `j` in `bin-3 .. bin+3`, inside
the spectrum and other than `bin`, has `fftResult[j] >= mag*0.95`, where
`mag*0.95` is the float64 product. -/
def dominated (fftResult : List ℚ) (bin : Int) (mag : ℚ) : Bool :=
  (List.range 7).any fun k =>
    let j : Int := bin - 3 + (k : Int)
    decide (j ≥ 0 ∧ j < (fftResult.length : Int) ∧ j ≠ bin) &&
      decide (fftResult.getD j.toNat 0 ≥ float64Mul mag dominance)

/-- The bin loop of `extractPeaks`, `for bin := minBin; bin < maxBin && bin <
len(fftResult); bin++`: the peaks appended, in bin order.  (A negative `bin` is
never reached: `minBin < 0` needs `binSize < 0`, and then `maxBin ≤ minBin`.) -/
def scanBins (fftResult : List ℚ) (binSize minBin maxBin : Int) : List Peak :=
  (List.range (min maxBin (fftResult.length : Int) - minBin).toNat).filterMap fun k =>
    let bin : Int := minBin + (k : Int)
    let mag : ℚ := fftResult.getD bin.toNat 0
    if mag > peakFloor ∧ dominated fftResult bin mag = false then
      some { freq := (bin * binSize % 2 ^ 32).toNat, magnitude := mag }
    else none

/-- The inner sort loop for one `i`, `for j := i + 1; j < len(peaks); j++ { if
peaks[j].magnitude > peaks[i].magnitude { swap } }`, read on the slice
`peaks[i:]`: `pivot` is the current `peaks[i]` and the list is `peaks[j:]`; the
result is the final `peaks[i]` and the final `peaks[j:]`. -/
def sortInner (pivot : Peak) : List Peak → Peak × List Peak
  | [] => (pivot, [])
  | x :: xs =>
    if x.magnitude > pivot.magnitude then
      match sortInner x xs with
      | (m, rest) => (m, pivot :: rest)
    else
      match sortInner pivot xs with
      | (m, rest) => (m, x :: rest)

/-- The outer sort loop `for i := 0; i < len(peaks); i++` with `n` iterations
left, on the slice `peaks[i:]`. -/
def sortFrom : Nat → List Peak → List Peak
  | 0, peaks => peaks
  | _ + 1, [] => []
  | n + 1, p :: rest =>
    match sortInner p rest with
    | (m, rest1) => m :: sortFrom n rest1

/-- The exchange sort of `extractPeaks`. -/
def sortPeaks (peaks : List Peak) : List Peak := sortFrom peaks.length peaks

/-- The body of `extractPeaks` once `binSize` is known to be non-zero: scan the
band, sort by magnitude, keep the first `TopFrequencies`, return the
frequencies. -/
def peaksOfBinSize (fftResult : List ℚ) (binSize : Int) : List Nat :=
  let minBin : Int := Int.tdiv (MinFreq : Int) binSize
  let maxBin : Int := Int.tdiv (MaxFreq : Int) binSize
  let peaks := sortPeaks (scanBins fftResult binSize minBin maxBin)
  let peaks := if peaks.length > TopFrequencies then peaks.take TopFrequencies else peaks
  peaks.map Peak.freq

/-- `extractPeaks`; `none` is the run-time panic of an integer division by zero
(`len(fftResult) = 0`, or `binSize = 0`). -/
def extractPeaks (fftResult : List ℚ) (sampleRate : Int) : Option (List Nat) :=
  if fftResult.length = 0 then none
  else
    let binSize : Int := Int.tdiv sampleRate (fftResult.length : Int)
    if binSize = 0 then none
    else some (peaksOfBinSize fftResult binSize)

/-- `hashPeaks` on 32-bit peak values; the `uint64` shifts wrap at `2 ^ 64`, and
`delta&0xFFFF` of a signed frame index is its residue modulo `2 ^ 16`. -/
def hashPeaks (peaks prevPeaks : List Nat) (frame : Int) : Nat :=
  if peaks.length < 2 then 0
  else
    let hash : Nat := (peaks.getD 0 0 <<< 48) % 2 ^ 64
    let hash : Nat := hash ||| (peaks.getD 1 0 <<< 32) % 2 ^ 64
    if prevPeaks.length ≥ 2 then
      let hash : Nat := hash ||| ((frame % 65536).toNat <<< 16) % 2 ^ 64
      hash ||| ((prevPeaks.getD 0 0 ^^^ peaks.getD 0 0) &&& 0xFFFF)
    else if peaks.length ≥ 3 then hash ||| (peaks.getD 2 0 <<< 16) % 2 ^ 64
    else hash

/-- `hashes[hash] = struct{}{}` on the key list of a map. -/
def mapInsert (hashes : List Nat) (hash : Nat) : List Nat :=
  if hash ∈ hashes then hashes else hashes ++ [hash]

/-- The variables the frame loop carries from frame to frame. -/
structure FrameState where
  hashes : List Nat
  prevFreqs : List Nat
  deriving DecidableEq

/-- The tail of the frame loop body, after `peaks := extractPeaks(...)`. -/
def frameStep (st : FrameState) (peaks : List Nat) (frame : Nat) : FrameState :=
  if peaks.length > 0 then
    let hash := hashPeaks peaks st.prevFreqs (frame : Int)
    { hashes := if hash ≠ 0 then mapInsert st.hashes hash else st.hashes, prevFreqs := peaks }
  else st

/-- The frame loop of `generateFingerprintGofft` over the remaining frame
indices.  `hannWindow` and `performFFTGofft` (cosine, external FFT and complex
modulus) are taken as given. -/
def gofftFrames (hannWindow : Nat → Nat → ℚ) (performFFTGofft : List ℚ → List ℚ)
    (samples : List ℚ) : List Nat → FrameState → Option FrameState
  | [], st => some st
  | frame :: rest, st =>
    let start := frame * HopSize
    let stop := start + WindowSize
    if stop > samples.length then some st
    else
      let window : List ℚ :=
        (List.range WindowSize).map fun i => samples.getD (start + i) 0 * hannWindow i WindowSize
      match extractPeaks (performFFTGofft window) (SampleRate : Int) with
      | none => none
      | some peaks =>
        gofftFrames hannWindow performFFTGofft samples rest (frameStep st peaks frame)

/-- The frame count both generators compute.  (For fewer than `WindowSize`
samples the Go quotient is not positive and the truncated one is zero; both give
one frame.) -/
def numFramesOf (samples : List ℚ) : Nat :=
  if (samples.length - WindowSize) / HopSize < 1 then 1
  else (samples.length - WindowSize) / HopSize

/-- `generateFingerprintGofft`: the keys of `Hashes`; `none` is a panic. -/
def generateFingerprintGofft (hannWindow : Nat → Nat → ℚ) (performFFTGofft : List ℚ → List ℚ)
    (samples : List ℚ) : Option (List Nat) :=
  (gofftFrames hannWindow performFFTGofft samples (List.range (numFramesOf samples))
    { hashes := [], prevFreqs := [] }).map FrameState.hashes

/-- The frame loop of `generateFingerprintCustomFFT`.  `window` is a slice of
`samples`, so `window[i] *= hannWindow(i, WindowSize)` writes into the caller's
samples, which the loop therefore carries along. -/
def customFrames (hannWindow : Nat → Nat → ℚ) (performFFT : List ℚ → List ℚ) :
    List Nat → List ℚ × FrameState → Option (List ℚ × FrameState)
  | [], st => some st
  | frame :: rest, (samples, st) =>
    let start := frame * HopSize
    let stop := start + WindowSize
    if stop > samples.length then some (samples, st)
    else
      let window : List ℚ :=
        (List.range WindowSize).map fun i => samples.getD (start + i) 0 * hannWindow i WindowSize
      let samples1 : List ℚ := samples.take start ++ window ++ samples.drop stop
      match extractPeaks (performFFT window) (SampleRate : Int) with
      | none => none
      | some peaks =>
        customFrames hannWindow performFFT rest (samples1, frameStep st peaks frame)

/-- `generateFingerprintCustomFFT`: the keys of `Hashes` and the caller's sample
slice as the call leaves it; `none` is a panic. -/
def generateFingerprintCustomFFT (hannWindow : Nat → Nat → ℚ) (performFFT : List ℚ → List ℚ)
    (samples : List ℚ) : Option (List Nat × List ℚ) :=
  (customFrames hannWindow performFFT (List.range (numFramesOf samples))
    (samples, { hashes := [], prevFreqs := [] })).map fun p => (p.2.hashes, p.1)

/-- A 1024-bin spectrum that is zero except for magnitude 1 in bin 6. -/
def spectrumBin6 : List ℚ := List.replicate 6 0 ++ [1] ++ List.replicate 1017 0

/-- A 2048-bin spectrum that is zero except for magnitude 1 in bin 14. -/
def spectrumBin14 : List ℚ := List.replicate 14 0 ++ [1] ++ List.replicate 2033 0

/-! ## fingerprint/fingerprint.go: decoding -/

/-- The errors the decoder returns: the package errors `ErrAudioTooShort` and
`ErrInvalidWAV`, the errors `io.EOF` and `io.ErrUnexpectedEOF` of `Read`,
`io.ReadFull` and `binary.Read`, and an error of the MP3 decoder. -/
inductive DecodeError where
  | ErrAudioTooShort
  | ErrInvalidWAV
  | EOF
  | ErrUnexpectedEOF
  | mp3
  deriving DecidableEq

/-- The bytes of `"RIFF"`. -/
def riffTag : List Nat := [82, 73, 70, 70]

/-- The bytes of `"WAVE"`. -/
def waveTag : List Nat := [87, 65, 86, 69]

/-- `binary.LittleEndian.Uint16(header[i:i+2])`. -/
def uint16At (header : List Nat) (i : Nat) : Nat :=
  header.getD i 0 + 256 * header.getD (i + 1) 0

/-- The `int16` that `binary.Read` decodes from two little-endian bytes. -/
def int16LE (b0 b1 : Nat) : Int :=
  if b0 + 256 * b1 < 32768 then ((b0 + 256 * b1 : Nat) : Int)
  else ((b0 + 256 * b1 : Nat) : Int) - 65536

/-- `float64(sample)/32768.0` for the 16-bit sample in two bytes. -/
def sample16 (b0 b1 : Nat) : ℚ := ((int16LE b0 b1 : Int) : ℚ) / 32768

/-- `(float64(sample)-128)/128.0` for an 8-bit sample. -/
def sample8 (b : Nat) : ℚ := ((b : ℚ) - 128) / 128

/-- The sample budget of the decoding loops, `SampleRate*MaxDurationSec*2`. -/
def sampleBudget : Nat := SampleRate * MaxDurationSec * 2

/-- The end of `decodeWAV`, after the loop. -/
def finishWAV (samples : List ℚ) : Except DecodeError (List ℚ) :=
  if samples.length < WindowSize then .error .ErrAudioTooShort else .ok samples

/-- The loop `for len(samples) < SampleRate*MaxDurationSec*2` of `decodeWAV` on
the bytes that are left of the stream, with `fuel` iterations allowed; `none`
means that the loop is still running when the fuel is used up. -/
def wavLoop (audioFormat numChannels bitsPerSample : Nat) :
    Nat → List Nat → List ℚ → Option (Except DecodeError (List ℚ))
  | 0, _, _ => none
  | fuel + 1, data, samples =>
    if samples.length < sampleBudget then
      if audioFormat = 1 then
        if bitsPerSample = 16 then
          match data with
          | [] => some (finishWAV samples)
          | [_] => some (.error .ErrUnexpectedEOF)
          | b0 :: b1 :: rest =>
            if numChannels = 2 then
              match rest with
              | _ :: _ :: rest2 =>
                wavLoop audioFormat numChannels bitsPerSample fuel rest2
                  (samples ++ [sample16 b0 b1])
              | _ => some (finishWAV (samples ++ [sample16 b0 b1]))
            else
              wavLoop audioFormat numChannels bitsPerSample fuel rest
                (samples ++ [sample16 b0 b1])
        else if bitsPerSample = 8 then
          match data with
          | [] => some (finishWAV samples)
          | b :: rest =>
            if numChannels = 2 then
              match rest with
              | _ :: rest2 =>
                wavLoop audioFormat numChannels bitsPerSample fuel rest2 (samples ++ [sample8 b])
              | [] => some (finishWAV (samples ++ [sample8 b]))
            else
              wavLoop audioFormat numChannels bitsPerSample fuel rest (samples ++ [sample8 b])
        else wavLoop audioFormat numChannels bitsPerSample fuel data samples
      else some (finishWAV samples)
    else some (finishWAV samples)

/-- `decodeWAV` on the bytes of the stream, with `fuel` loop iterations
allowed; `none` means that the loop is still running when the fuel is used up.
`io.ReadFull` of the 44 header bytes fails with `io.EOF` on an empty stream and
with `io.ErrUnexpectedEOF` on a shorter one. -/
def decodeWAV (fuel : Nat) (data : List Nat) : Option (Except DecodeError (List ℚ)) :=
  if data.length < 44 then
    some (.error (if data = [] then .EOF else .ErrUnexpectedEOF))
  else if data.take 4 ≠ riffTag ∨ (data.drop 8).take 4 ≠ waveTag then
    some (.error .ErrInvalidWAV)
  else
    wavLoop (uint16At data 20) (uint16At data 22) (uint16At data 34) fuel (data.drop 44) []

/-- `decodeAudio` on the bytes of a stream whose `Read` fills the buffer as far
as the stream reaches (a file or an in-memory upload).  The first `Read` fails
with `io.EOF` on an empty stream; `buf` keeps zeros behind the `n` bytes read;
the `io.MultiReader` gives the stream from its start again.  The MP3 decoder is
a parameter. -/
def decodeAudio (decodeMP3 : List Nat → Except DecodeError (List ℚ)) (fuel : Nat)
    (data : List Nat) : Option (Except DecodeError (List ℚ)) :=
  if data = [] then some (.error .EOF)
  else if (data.take 12 ++ List.replicate (12 - (data.take 12).length) 0).take 4 = riffTag then
    decodeWAV fuel data
  else some (decodeMP3 data)

/-- A 44-byte RIFF/WAVE header with the given format, channel count and bit
depth, and zeros in the fields that `decodeWAV` does not use. -/
def wavHeader (audioFormat numChannels bitsPerSample : Nat) : List Nat :=
  riffTag ++ [0, 0, 0, 0] ++ waveTag ++ [0, 0, 0, 0, 0, 0, 0, 0] ++
    [audioFormat % 256, audioFormat / 256, numChannels % 256, numChannels / 256] ++
    [0, 0, 0, 0, 0, 0, 0, 0, 0, 0] ++ [bitsPerSample % 256, bitsPerSample / 256] ++
    [0, 0, 0, 0, 0, 0, 0, 0]

/-- The number of samples that `decodeWAV` takes from a payload of `n` bytes
when the budget does not stop it: one per frame of `bitsPerSample / 8` bytes,
or of twice as many when `numChannels = 2` (the second sample of a frame is
dropped), and one more for a last frame that holds the first sample whole. -/
def payloadSamples (numChannels bitsPerSample n : Nat) : Nat :=
  let bps := bitsPerSample / 8
  let step := if numChannels = 2 then 2 * bps else bps
  n / step + (if n % step ≥ bps then 1 else 0)

/-- The payload of `n` bytes ends inside the first sample of a frame. -/
def payloadDangling (numChannels bitsPerSample n : Nat) : Prop :=
  0 < n % (if numChannels = 2 then 2 * (bitsPerSample / 8) else bitsPerSample / 8) ∧
    n % (if numChannels = 2 then 2 * (bitsPerSample / 8) else bitsPerSample / 8)
      < bitsPerSample / 8

instance (numChannels bitsPerSample n : Nat) :
    Decidable (payloadDangling numChannels bitsPerSample n) := by
  unfold payloadDangling
  exact inferInstance

/-! ## fingerprint/fingerprint.go: peak selection, read from the result -/

/-- A bin qualifies as a peak, as the code tests it: it lies in the bin range of
the band, its magnitude exceeds the float64 constant `0.001`, and no other bin
within three positions, inside the spectrum, has a magnitude of at least the
float64 product of its magnitude with the float64 constant `0.95`. -/
def Qualifies (fftResult : List ℚ) (binSize : Int) (bin : Nat) : Prop :=
  Int.tdiv (MinFreq : Int) binSize ≤ (bin : Int) ∧
    (bin : Int) < Int.tdiv (MaxFreq : Int) binSize ∧
    bin < fftResult.length ∧ fftResult.getD bin 0 > peakFloor ∧
    ∀ j, j < fftResult.length → j ≠ bin → bin ≤ j + 3 → j ≤ bin + 3 →
      fftResult.getD j 0 < float64Mul (fftResult.getD bin 0) dominance

instance (fftResult : List ℚ) (binSize : Int) (bin : Nat) :
    Decidable (Qualifies fftResult binSize bin) := by
  unfold Qualifies
  exact inferInstance

/-- A bin qualifies as a peak in exact arithmetic, the reading of the
specification: it lies in the bin range of the band, its magnitude exceeds
1/1000, and no other bin within three positions, inside the spectrum, has a
magnitude of at least 95% of it. -/
def QualifiesExact (fftResult : List ℚ) (binSize : Int) (bin : Nat) : Prop :=
  Int.tdiv (MinFreq : Int) binSize ≤ (bin : Int) ∧
    (bin : Int) < Int.tdiv (MaxFreq : Int) binSize ∧
    bin < fftResult.length ∧ fftResult.getD bin 0 > 1 / 1000 ∧
    ∀ j, j < fftResult.length → j ≠ bin → bin ≤ j + 3 → j ≤ bin + 3 →
      fftResult.getD j 0 < fftResult.getD bin 0 * (95 / 100)

instance (fftResult : List ℚ) (binSize : Int) (bin : Nat) :
    Decidable (QualifiesExact fftResult binSize bin) := by
  unfold QualifiesExact
  exact inferInstance

/-- The qualifying bins of a spectrum, in increasing order. -/
def qualifyingBins (fftResult : List ℚ) (binSize : Int) : List Nat :=
  (List.range fftResult.length).filter fun bin => Qualifies fftResult binSize bin

/-- The peak that the bin loop of `extractPeaks` appends for a bin. -/
def peakOfBin (fftResult : List ℚ) (binSize : Int) (bin : Nat) : Peak :=
  { freq := ((bin : Int) * binSize % 2 ^ 32).toNat, magnitude := fftResult.getD bin 0 }

/-- A 1024-bin spectrum that is zero except for magnitude 1 in bin 24. -/
def spectrumBin24 : List ℚ := List.replicate 24 0 ++ [1] ++ List.replicate 999 0

/-- A 1024-bin spectrum that is zero except for magnitude 3.0 in bin 24 and the
float64 value 2.8499999999999996, `1604407367250739 / 2 ^ 49`, in bin 25. -/
def spectrumNearTie : List ℚ :=
  List.replicate 24 0 ++ [3, 1604407367250739 / 562949953421312] ++ List.replicate 998 0

/-! ## fingerprint/fingerprint.go: the windows handed to the transforms -/

/-- The windows that the frame loop of `generateFingerprintCustomFFT` hands to
`performFFT`, in frame order: the loop of `customFrames`, keeping each `window`
as it is after `window[i] *= hannWindow(i, WindowSize)`. -/
def customWindows (hannWindow : Nat → Nat → ℚ) : List Nat → List ℚ → List (List ℚ)
  | [], _ => []
  | frame :: rest, samples =>
    let start := frame * HopSize
    let stop := start + WindowSize
    if stop > samples.length then []
    else
      let window : List ℚ :=
        (List.range WindowSize).map fun i : Nat =>
          samples.getD (start + i) 0 * hannWindow i WindowSize
      let samples1 : List ℚ := samples.take start ++ window ++ samples.drop stop
      window :: customWindows hannWindow rest samples1

/-- The windows that the frame loop of `generateFingerprintGofft` hands to
`performFFTGofft`, in frame order; each is a fresh slice filled from
`samples`. -/
def gofftWindows (hannWindow : Nat → Nat → ℚ) (samples : List ℚ) : List Nat → List (List ℚ)
  | [] => []
  | frame :: rest =>
    let start := frame * HopSize
    let stop := start + WindowSize
    if stop > samples.length then []
    else
      let window : List ℚ :=
        (List.range WindowSize).map fun i : Nat =>
          samples.getD (start + i) 0 * hannWindow i WindowSize
      window :: gofftWindows hannWindow samples rest

/-! ## fft/fft.go

Complex numbers are the elements of a commutative ring `R` (exact arithmetic);
`wLenOf size` is the twiddle factor `wLen` that the stage of block size `size`
computes, `complex(math.Cos(angle), math.Sin(angle))` with
`angle = -2 * math.Pi / float64(size)`.  Loops whose bound is not a counter
take a fuel; `none` means that the fuel ran out before the loop ended. -/

/-- The loop of `reverseBits` with `count` iterations left:
`result = (result << 1) | (n & 1); n >>= 1`. -/
def reverseBitsLoop : Nat → Nat → Nat → Nat
  | 0, _, result => result
  | count + 1, n, result => reverseBitsLoop count (n >>> 1) ((result <<< 1) ||| (n &&& 1))

/-- `reverseBits(n, bits)`. -/
def reverseBits (n bits : Nat) : Nat := reverseBitsLoop bits n 0

/-- `bitReverse(data)`: `bits` is `int(math.Log2(float64(n)))`, which for the
lengths `n = 2 ^ L` of the one caller is exactly `L`, the position of the
highest set bit of `n`; the loop runs over `i = 1 .. n - 1` (`i = k + 1`),
exchanging `data[i]` and `data[j]` when `j > i`.  As `j < 2 ^ bits ≤ n`, no
index is out of range. -/
def bitReverse {R : Type} [Zero R] (data : List R) : List R :=
  let n := data.length
  let bits := Nat.log2 n
  (List.range (n - 1)).foldl (fun (data : List R) (k : Nat) =>
    let i := k + 1
    let j := reverseBits i bits
    if j > i then (data.set i (data.getD j 0)).set j (data.getD i 0) else data) data

/-- The innermost loop of `CooleyTukeyFFT`, `for j := 0; j < halfSize; j++`, on
the block that starts at `i`; the state is `padded` and `w`. -/
def butterflies {R : Type} [CommRing R] (wLen : R) (i halfSize : Nat) (padded : List R) :
    List R :=
  ((List.range halfSize).foldl (fun (st : List R × R) (j : Nat) =>
    let u := st.1.getD (i + j) 0
    let t := st.2 * st.1.getD (i + j + halfSize) 0
    ((st.1.set (i + j) (u + t)).set (i + j + halfSize) (u - t), st.2 * wLen)) (padded, 1)).1

/-- The block loop of `CooleyTukeyFFT`, `for i := 0; i < nextPow2; i += size`,
from the current `i`. -/
def blocks {R : Type} [CommRing R] (wLen : R) (nextPow2 size : Nat) :
    Nat → Nat → List R → Option (List R)
  | 0, _, _ => none
  | fuel + 1, i, padded =>
    if i < nextPow2 then
      blocks wLen nextPow2 size fuel (i + size) (butterflies wLen i (size / 2) padded)
    else some padded

/-- The stage loop of `CooleyTukeyFFT`, `for size := 2; size <= nextPow2;
size *= 2`, from the current `size`. -/
def stages {R : Type} [CommRing R] (wLenOf : Nat → R) (nextPow2 blockFuel : Nat) :
    Nat → Nat → List R → Option (List R)
  | 0, _, _ => none
  | fuel + 1, size, padded =>
    if size ≤ nextPow2 then
      match blocks (wLenOf size) nextPow2 size blockFuel 0 padded with
      | none => none
      | some padded1 => stages wLenOf nextPow2 blockFuel fuel (size * 2) padded1
    else some padded

/-- The loop `for nextPow2 < n { nextPow2 *= 2 }` from the current value. -/
def nextPow2Loop (n : Nat) : Nat → Nat → Option Nat
  | 0, _ => none
  | fuel + 1, nextPow2 =>
    if nextPow2 < n then nextPow2Loop n fuel (nextPow2 * 2) else some nextPow2

/-- `CooleyTukeyFFT(input)`; every loop gets the fuel `fuel`. -/
def CooleyTukeyFFT {R : Type} [CommRing R] (wLenOf : Nat → R) (fuel : Nat) (input : List R) :
    Option (List R) :=
  let n := input.length
  if n ≤ 1 then some input
  else
    match nextPow2Loop n fuel 1 with
    | none => none
    | some nextPow2 =>
      let padded : List R := input ++ List.replicate (nextPow2 - n) 0
      stages wLenOf nextPow2 fuel fuel 2 (bitReverse padded)

/-- The bit reversal of `n` on `bits` bits, by arithmetic: the lowest bit of `n`
becomes the highest of the result. -/
def revBits : Nat → Nat → Nat
  | 0, _ => 0
  | bits + 1, n => n % 2 * 2 ^ bits + revBits bits (n / 2)

/-- One stage of half block size `h` read entry by entry: the entry `idx` of
the slice after the stage, from the slice `f` before it. -/
def stageFn {R : Type} [CommRing R] (wLen : R) (h : Nat) (f : Nat → R) (idx : Nat) : R :=
  if idx % (2 * h) < h then f idx + wLen ^ (idx % (2 * h)) * f (idx + h)
  else f (idx - h) - wLen ^ (idx % (2 * h) - h) * f idx

/-! ## A spectrum for examples -/

/-- A 1024-bin spectrum that is zero except for magnitude `v` in bin 24 and
`v / 2` in bin 40. -/
def toneSpectrum (v : ℚ) : List ℚ :=
  List.replicate 24 0 ++ [v] ++ List.replicate 15 0 ++ [v / 2] ++ List.replicate 983 0

/-! # Theorems -/

/-! ## strconv: formatting and parsing are inverse -/

theorem digitChar_toNat (d : Nat) (h : d < 10) : (digitChar d).toNat = 48 + d := by
  interval_cases d <;> rfl

theorem parseDigits_append (l1 l2 : List Char) (n : Nat) :
    parseDigits (l1 ++ l2) n = (parseDigits l1 n).bind (parseDigits l2) := by
  induction l1 generalizing n with
  | nil => simp [parseDigits]
  | cons c cs ih =>
    simp only [List.cons_append, parseDigits]
    split_ifs <;> simp [ih]

theorem formatDigits_acc (fuel u : Nat) (acc : List Char) :
    formatDigits fuel u acc = formatDigits fuel u [] ++ acc := by
  induction fuel generalizing u acc with
  | zero => simp [formatDigits]
  | succ k ih =>
    simp only [formatDigits]
    split_ifs
    · simp
    · rw [ih (u / 10) (digitChar (u % 10) :: acc), ih (u / 10) [digitChar (u % 10)]]
      simp

theorem parseDigits_digit (d n : Nat) (hd : d < 10) (hn : n * 10 + d < 2 ^ 64) :
    parseDigits [digitChar d] n = some (n * 10 + d) := by
  have h := digitChar_toNat d hd
  simp only [parseDigits, h]
  have e : 48 + d - 48 = d := by omega
  rw [e, if_pos (by omega), if_pos hn]

theorem parseDigits_formatDigits (fuel u : Nat) (hu : u < 10 ^ fuel) (hb : u < 2 ^ 64) :
    parseDigits (formatDigits fuel u []) 0 = some u := by
  induction fuel generalizing u with
  | zero =>
    have : u = 0 := by simpa using hu
    subst this
    simp [formatDigits, parseDigits]
  | succ k ih =>
    simp only [formatDigits]
    split_ifs with h10
    · have := parseDigits_digit u 0 h10 (by omega)
      simpa using this
    · rw [formatDigits_acc, parseDigits_append]
      have hk : u / 10 < 10 ^ k := by
        rw [Nat.div_lt_iff_lt_mul (by norm_num)]
        rw [pow_succ] at hu
        exact hu
      have hq : u / 10 < 2 ^ 64 := lt_of_le_of_lt (Nat.div_le_self u 10) hb
      rw [ih (u / 10) hk hq]
      have hm : u % 10 < 10 := Nat.mod_lt u (by norm_num)
      have hsum : u / 10 * 10 + u % 10 = u := by omega
      have := parseDigits_digit (u % 10) (u / 10) hm (by omega)
      simpa [hsum] using this

theorem formatDigits_ne_nil (fuel u : Nat) (acc : List Char) :
    formatDigits (fuel + 1) u acc ≠ [] := by
  induction fuel generalizing u acc with
  | zero =>
    simp only [formatDigits]
    split_ifs <;> simp
  | succ k ih =>
    rw [formatDigits]
    split_ifs
    · simp
    · exact ih _ _

/-- Parsing a formatted 64-bit value gives the value back. -/
theorem ParseUint_FormatUint (h : Nat) (hb : h < 2 ^ 64) : ParseUint (FormatUint h) = some h := by
  unfold ParseUint FormatUint
  rw [if_neg (formatDigits_ne_nil 19 h [])]
  exact parseDigits_formatDigits 20 h (lt_of_lt_of_le hb (by norm_num)) hb

theorem FormatUint_inj (a b : Nat) (ha : a < 2 ^ 64) (hb : b < 2 ^ 64)
    (h : FormatUint a = FormatUint b) : a = b := by
  have h1 := ParseUint_FormatUint a ha
  rw [h, ParseUint_FormatUint b hb] at h1
  exact (Option.some.inj h1).symm

/-! ## Keys -/

theorem hashKey_data (n : String) :
    (hashKey n).data = ['s', 'o', 'n', 'g', ':'] ++ n.data ++ [':', 'h', 'a', 's', 'h', 'e', 's'] := by
  simp [hashKey, String.data_append]

theorem hashKey_ne_songs (n : String) : hashKey n ≠ "songs" := by
  intro h
  have h1 := congrArg String.data h
  rw [hashKey_data] at h1
  simp at h1

theorem hashKey_inj (a b : String) (h : hashKey a = hashKey b) : a = b := by
  have h1 := congrArg String.data h
  rw [hashKey_data, hashKey_data] at h1
  have h2 := List.append_cancel_right h1
  have h3 := List.append_cancel_left h2
  exact String.ext h3

/-! ## FindMatch -/

theorem matchingCount_map (query stored : List Nat) (hb : ∀ h ∈ stored, h < 2 ^ 64) :
    matchingCount query (stored.map FormatUint) = (stored.filter (fun h => h ∈ query)).length := by
  induction stored with
  | nil => simp [matchingCount]
  | cons a t ih =>
    have ha : a < 2 ^ 64 := hb a (List.mem_cons_self a t)
    have ht : ∀ h ∈ t, h < 2 ^ 64 := fun h hh => hb h (List.mem_cons_of_mem a hh)
    simp only [List.map_cons, matchingCount, ParseUint_FormatUint a ha, ih ht, List.filter_cons]
    by_cases hq : a ∈ query <;> simp [hq]

theorem card_inter_eq (query stored : List Nat) (hs : stored.Nodup) :
    (query.toFinset ∩ stored.toFinset).card = (stored.filter (fun h => h ∈ query)).length := by
  have h1 : query.toFinset ∩ stored.toFinset = (stored.filter (fun h => h ∈ query)).toFinset := by
    ext x
    simp [and_comm]
  rw [h1, List.card_toFinset, List.Nodup.dedup (hs.filter _)]

theorem score_eq (r : Rdb) (query : List Nat) (e : String × List Nat) (hq : query.Nodup)
    (hn : e.2.Nodup) (hb : ∀ h ∈ e.2, h < 2 ^ 64)
    (hs : r.sets (hashKey e.1) = e.2.map FormatUint) :
    (matchingCount query (r.sets (hashKey e.1)) : ℚ) / (query.length : ℚ)
      = similarityOf query e.2 := by
  rw [hs, matchingCount_map query e.2 hb, similarityOf, card_inter_eq query e.2 hn,
    List.toFinset_card_of_nodup hq]

/-- What the song loop computes, for any scoring of the songs that the store realises. -/
theorem findLoop_spec (r : Rdb) (query : List Nat) (Q : ℚ) (score : List Nat → ℚ)
    (corpus : List (String × List Nat))
    (h : ∀ e ∈ corpus, r.down (hashKey e.1) = false ∧
      (matchingCount query (r.sets (hashKey e.1)) : ℚ) / Q = score e.2)
    (best : String × ℚ) :
    (findLoop r query Q (corpus.map Prod.fst) best = best ∧
        ∀ e ∈ corpus, score e.2 < SimilarityThreshold ∨ score e.2 ≤ best.2) ∨
      ∃ pre e post, corpus = pre ++ e :: post ∧
        findLoop r query Q (corpus.map Prod.fst) best = (e.1, score e.2) ∧
        SimilarityThreshold ≤ score e.2 ∧ best.2 < score e.2 ∧
        (∀ x ∈ pre, score x.2 < score e.2) ∧ (∀ x ∈ post, score x.2 ≤ score e.2) := by
  induction corpus generalizing best with
  | nil => left; simp [findLoop]
  | cons a t ih =>
    have ha := h a (List.mem_cons_self a t)
    have ht : ∀ e ∈ t, r.down (hashKey e.1) = false ∧
        (matchingCount query (r.sets (hashKey e.1)) : ℚ) / Q = score e.2 :=
      fun e he => h e (List.mem_cons_of_mem a he)
    simp only [List.map_cons, findLoop, SMembers, ha.1, Bool.false_eq_true, if_false, ha.2]
    by_cases hc : score a.2 ≥ SimilarityThreshold ∧ score a.2 > best.2
    · rw [if_pos hc]
      rcases ih ht (a.1, score a.2) with ⟨heq, hall⟩ | ⟨pre, e, post, hdec, heq, hT, hgt, hpre, hpost⟩
      · right
        refine ⟨[], a, t, rfl, heq, hc.1, hc.2, by simp, ?_⟩
        intro x hx
        rcases hall x hx with h1 | h1
        · exact le_of_lt (lt_of_lt_of_le h1 hc.1)
        · exact h1
      · right
        refine ⟨a :: pre, e, post, by simp [hdec], heq, hT, lt_trans hc.2 hgt, ?_, hpost⟩
        intro x hx
        rcases List.mem_cons.mp hx with h1 | h1
        · subst h1; exact hgt
        · exact hpre x h1
    · rw [if_neg hc]
      have hc2 : score a.2 < SimilarityThreshold ∨ score a.2 ≤ best.2 := by
        by_cases h1 : score a.2 < SimilarityThreshold
        · exact Or.inl h1
        · right
          push_neg at h1
          by_contra h2
          push_neg at h2
          exact hc ⟨h1, h2⟩
      rcases ih ht best with ⟨heq, hall⟩ | ⟨pre, e, post, hdec, heq, hT, hgt, hpre, hpost⟩
      · left
        refine ⟨heq, ?_⟩
        intro x hx
        rcases List.mem_cons.mp hx with h1 | h1
        · subst h1; exact hc2
        · exact hall x h1
      · right
        refine ⟨a :: pre, e, post, by simp [hdec], heq, hT, hgt, ?_, hpost⟩
        intro x hx
        rcases List.mem_cons.mp hx with h1 | h1
        · subst h1
          rcases hc2 with h2 | h2
          · exact lt_of_lt_of_le h2 hT
          · exact lt_of_le_of_lt h2 hgt
        · exact hpre x h1

theorem FindMatch_songs (r : Rdb) (query : List Nat) (songs : List String)
    (hup : r.down "songs" = false) (hs : r.sets "songs" = songs) :
    FindMatch r query =
      if songs.length = 0 then .ok ("", 0)
      else if (query.length : ℚ) = 0 then .ok ("", 0)
      else .ok (findLoop r query (query.length : ℚ) songs ("", 0)) := by
  simp [FindMatch, SMembers, hup, hs]

/-- The match case of `FindMatch` over a store that holds a corpus: when some
song reaches the threshold, the first song of maximal similarity is returned. -/
theorem FindMatch_corpus (r : Rdb) (corpus : List (String × List Nat)) (query : List Nat)
    (hq : query.Nodup) (hup : ∀ k, r.down k = false) (hc : HoldsCorpus r corpus)
    (hne : query ≠ []) (e0 : String × List Nat) (he0 : e0 ∈ corpus)
    (hsim : 6 / 10 ≤ similarityOf query e0.2) :
    ∃ pre e post, corpus = pre ++ e :: post ∧
      FindMatch r query = .ok (e.1, similarityOf query e.2) ∧
      (∀ x ∈ pre, similarityOf query x.2 < similarityOf query e.2) ∧
      (∀ x ∈ post, similarityOf query x.2 ≤ similarityOf query e.2) := by
  have hsc : ∀ e ∈ corpus, r.down (hashKey e.1) = false ∧
      (matchingCount query (r.sets (hashKey e.1)) : ℚ) / (query.length : ℚ)
        = similarityOf query e.2 := fun e he =>
    ⟨hup _, score_eq r query e hq (hc.2 e he).1 (hc.2 e he).2.1 (hc.2 e he).2.2⟩
  rw [FindMatch_songs r query (corpus.map Prod.fst) (hup "songs") hc.1]
  have h1 : ¬ (corpus.map Prod.fst).length = 0 := by
    rw [List.length_map]
    exact fun h => List.not_mem_nil e0 (List.length_eq_zero.mp h ▸ he0)
  have h2 : ¬ ((query.length : ℚ) = 0) := by
    have : query.length ≠ 0 := fun h => hne (List.length_eq_zero.mp h)
    exact_mod_cast this
  rw [if_neg h1, if_neg h2]
  rcases findLoop_spec r query (query.length : ℚ) (similarityOf query) corpus hsc ("", 0) with
    ⟨_, hall⟩ | ⟨pre, e, post, hdec, heq, _, _, hpre, hpost⟩
  · exfalso
    unfold SimilarityThreshold at hall
    rcases hall e0 he0 with h3 | h3
    · exact absurd (lt_of_le_of_lt hsim h3) (lt_irrefl _)
    · have : (6 : ℚ) / 10 ≤ 0 := le_trans hsim h3
      norm_num at this
  · exact ⟨pre, e, post, hdec, by rw [heq], hpre, hpost⟩

/-- C1: over a store whose reads succeed and that holds a corpus (names in
enumeration order, each with its hash set), `FindMatch` on a query hash set of
size Q returns the empty name with similarity 0 when Q = 0, or the corpus is
empty, or no song has similarity `|query ∩ stored| / Q ≥ 0.6`; otherwise it
returns the first song in enumeration order among the songs of maximal
similarity, together with that similarity. -/
theorem FindMatch_first_best (r : Rdb) (corpus : List (String × List Nat)) (query : List Nat)
    (hq : query.Nodup) (hup : ∀ k, r.down k = false) (hc : HoldsCorpus r corpus) :
    ((query.length = 0 ∨ corpus = [] ∨ ∀ e ∈ corpus, similarityOf query e.2 < 6 / 10) →
        FindMatch r query = .ok ("", 0)) ∧
      (¬ (query.length = 0 ∨ corpus = [] ∨ ∀ e ∈ corpus, similarityOf query e.2 < 6 / 10) →
        ∃ pre e post, corpus = pre ++ e :: post ∧
          FindMatch r query = .ok (e.1, similarityOf query e.2) ∧
          (∀ x ∈ pre, similarityOf query x.2 < similarityOf query e.2) ∧
          (∀ x ∈ post, similarityOf query x.2 ≤ similarityOf query e.2)) := by
  have hF := FindMatch_songs r query (corpus.map Prod.fst) (hup "songs") hc.1
  have hsc : ∀ e ∈ corpus, r.down (hashKey e.1) = false ∧
      (matchingCount query (r.sets (hashKey e.1)) : ℚ) / (query.length : ℚ)
        = similarityOf query e.2 := fun e he =>
    ⟨hup _, score_eq r query e hq (hc.2 e he).1 (hc.2 e he).2.1 (hc.2 e he).2.2⟩
  have hspec := findLoop_spec r query (query.length : ℚ) (similarityOf query) corpus hsc ("", 0)
  constructor
  · intro h
    rw [hF]
    split_ifs with h1 h2
    · rfl
    · rfl
    · rcases h with h | h | h
      · exact absurd (by exact_mod_cast h) h2
      · subst h
        simp at h1
      · rcases hspec with ⟨heq, _⟩ | ⟨pre, e, post, hdec, _, hT, _, _, _⟩
        · rw [heq]
        · have he : e ∈ corpus := by rw [hdec]; simp
          have := h e he
          unfold SimilarityThreshold at hT
          exact absurd (lt_of_le_of_lt hT this) (lt_irrefl _)
  · intro h
    push_neg at h
    obtain ⟨hQ, hne, e0, he0, hsim⟩ := h
    rw [hF]
    have h1 : ¬ (corpus.map Prod.fst).length = 0 := by
      simp [hne]
    have h2 : ¬ ((query.length : ℚ) = 0) := by exact_mod_cast hQ
    rw [if_neg h1, if_neg h2]
    rcases hspec with ⟨_, hall⟩ | ⟨pre, e, post, hdec, heq, _, _, hpre, hpost⟩
    · exfalso
      unfold SimilarityThreshold at hall
      rcases hall e0 he0 with h3 | h3
      · exact absurd (lt_of_le_of_lt hsim h3) (lt_irrefl _)
      · have : (6 : ℚ) / 10 ≤ 0 := le_trans hsim h3
        norm_num at this
    · exact ⟨pre, e, post, hdec, by rw [heq], hpre, hpost⟩

/-- C1 at `storeABC` with the query `{1, 2, 3, 4}`: A scores 3/4, B and C score 1. -/
theorem FindMatch_first_best_witness :
    [1, 2, 3, 4].Nodup ∧ (∀ k, storeABC.down k = false) ∧ HoldsCorpus storeABC corpusABC ∧
      ∃ pre e post, corpusABC = pre ++ e :: post ∧
        FindMatch storeABC [1, 2, 3, 4] = .ok (e.1, similarityOf [1, 2, 3, 4] e.2) ∧
        (∀ x ∈ pre, similarityOf [1, 2, 3, 4] x.2 < similarityOf [1, 2, 3, 4] e.2) ∧
        (∀ x ∈ post, similarityOf [1, 2, 3, 4] x.2 ≤ similarityOf [1, 2, 3, 4] e.2) :=
  have hq : [1, 2, 3, 4].Nodup := by decide
  have hup : ∀ k, storeABC.down k = false := fun _ => rfl
  have hc : HoldsCorpus storeABC corpusABC := by
    unfold HoldsCorpus
    decide
  ⟨hq, hup, hc, (FindMatch_first_best storeABC corpusABC [1, 2, 3, 4] hq hup hc).2 (by
    intro h
    rcases h with h | h | h
    · simp at h
    · simp [corpusABC] at h
    · have := h ("B", [1, 2, 3, 4]) (by simp [corpusABC])
      have e : similarityOf [1, 2, 3, 4] [1, 2, 3, 4] = 1 := by
        simp [similarityOf]
      simp only [e] at this
      norm_num at this)⟩

/-! ## Store commands -/

theorem SAdd_down (r : Rdb) (key m : String) (h : r.down key = true) :
    SAdd r key m = .error .failed := by
  simp [SAdd, h]

theorem SAdd_mem (r : Rdb) (key m : String) (h : r.down key = false) (hm : m ∈ r.sets key) :
    SAdd r key m = .ok r := by
  simp [SAdd, h, hm]

theorem SAdd_up (r : Rdb) (key m : String) (h : r.down key = false) :
    ∃ r1, SAdd r key m = .ok r1 ∧ r1.down = r.down ∧
      (∀ k, k ≠ key → r1.sets k = r.sets k) ∧
      (∀ x, x ∈ r1.sets key ↔ x ∈ r.sets key ∨ x = m) := by
  by_cases hm : m ∈ r.sets key
  · refine ⟨r, SAdd_mem r key m h hm, rfl, fun _ _ => rfl, ?_⟩
    intro x
    constructor
    · exact Or.inl
    · rintro (hx | hx)
      · exact hx
      · rw [hx]; exact hm
  · have e : ∃ r1, SAdd r key m = .ok r1 ∧ r1.sets = (fun k =>
        if k = key then r.sets key ++ [m] else r.sets k) ∧ r1.down = r.down := by
      simp only [SAdd, h, Bool.false_eq_true, if_false, dif_neg hm]
      exact ⟨_, rfl, rfl, rfl⟩
    obtain ⟨r1, e1, hs1, hd1⟩ := e
    refine ⟨r1, e1, hd1, ?_, ?_⟩
    · intro k hk
      simp [hs1, hk]
    · intro x
      simp [hs1]

theorem storeLoop_down (key : String) (hs : List Nat) (r : Rdb) (h : r.down key = true) :
    storeLoop key hs r = (r, if hs = [] then none else some .failed) := by
  cases hs with
  | nil => simp [storeLoop]
  | cons a t => simp [storeLoop, SAdd_down r key _ h]

theorem storeLoop_up (key : String) (hs : List Nat) (r : Rdb) (h : r.down key = false) :
    ∃ r1, storeLoop key hs r = (r1, none) ∧ r1.down = r.down ∧
      (∀ k, k ≠ key → r1.sets k = r.sets k) ∧
      (∀ x, x ∈ r1.sets key ↔ x ∈ r.sets key ∨ x ∈ hs.map FormatUint) := by
  induction hs generalizing r with
  | nil => exact ⟨r, by simp [storeLoop], rfl, fun _ _ => rfl, by simp⟩
  | cons a t ih =>
    obtain ⟨r1, h1, hd1, ho1, hm1⟩ := SAdd_up r key (FormatUint a) h
    obtain ⟨r2, h2, hd2, ho2, hm2⟩ := ih r1 (by rw [hd1]; exact h)
    refine ⟨r2, ?_, by rw [hd2, hd1], ?_, ?_⟩
    · simp only [storeLoop, h1]
      exact h2
    · intro k hk
      rw [ho2 k hk, ho1 k hk]
    · intro x
      rw [hm2 x, hm1 x, List.map_cons, List.mem_cons]
      tauto

theorem storeLoop_present (key : String) (hs : List Nat) (r : Rdb) (h : r.down key = false)
    (hall : ∀ a ∈ hs, FormatUint a ∈ r.sets key) : storeLoop key hs r = (r, none) := by
  induction hs with
  | nil => simp [storeLoop]
  | cons a t ih =>
    have ha := hall a (List.mem_cons_self a t)
    simp only [storeLoop, SAdd_mem r key _ h ha]
    exact ih (fun b hb => hall b (List.mem_cons_of_mem a hb))

/-- `StoreFingerprint` when the commands on both keys succeed. -/
theorem StoreFingerprint_up (r : Rdb) (name : String) (H : List Nat)
    (h1 : r.down (hashKey name) = false) (h2 : r.down "songs" = false) :
    ∃ r2, StoreFingerprint r name H = (r2, none) ∧ r2.down = r.down ∧
      (∀ x, x ∈ r2.sets (hashKey name) ↔ x ∈ r.sets (hashKey name) ∨ x ∈ H.map FormatUint) ∧
      (∀ x, x ∈ r2.sets "songs" ↔ x ∈ r.sets "songs" ∨ x = name) ∧
      (∀ k, k ≠ hashKey name → k ≠ "songs" → r2.sets k = r.sets k) ∧
      (name ∈ r.sets "songs" → r2.sets "songs" = r.sets "songs") := by
  obtain ⟨r1, e1, hd1, ho1, hm1⟩ := storeLoop_up (hashKey name) H r h1
  obtain ⟨r2, e2, hd2, ho2, hm2⟩ := SAdd_up r1 "songs" name (by rw [hd1]; exact h2)
  have hks : (hashKey name) ≠ "songs" := hashKey_ne_songs name
  refine ⟨r2, ?_, by rw [hd2, hd1], ?_, ?_, ?_, ?_⟩
  · simp only [StoreFingerprint, e1, e2]
  · intro x
    rw [ho2 _ hks, hm1 x]
  · intro x
    rw [hm2 x, ho1 _ (Ne.symm hks)]
  · intro k hk hs
    rw [ho2 k hs, ho1 k hk]
  · intro hmem
    have hmem1 : name ∈ r1.sets "songs" := by rw [ho1 _ (Ne.symm hks)]; exact hmem
    have e3 := SAdd_mem r1 "songs" name (by rw [hd1]; exact h2) hmem1
    rw [e3] at e2
    have : r1 = r2 := by injection e2
    rw [← this, ho1 _ (Ne.symm hks)]

/-- A `StoreFingerprint` that returns no error found both keys usable, unless the
fingerprint is empty (then the hash key is never used). -/
theorem StoreFingerprint_ok_up (r : Rdb) (name : String) (H : List Nat)
    (h : (StoreFingerprint r name H).2 = none) :
    r.down "songs" = false ∧ (H ≠ [] → r.down (hashKey name) = false) := by
  constructor
  · by_contra hs
    have hs1 : r.down "songs" = true := by simpa using hs
    cases hk : r.down (hashKey name) with
    | true =>
      rw [StoreFingerprint, storeLoop_down _ _ _ hk] at h
      by_cases hH : H = []
      · simp [hH, SAdd_down r "songs" name hs1] at h
      · simp [hH] at h
    | false =>
      obtain ⟨r1, e1, hd1, _, _⟩ := storeLoop_up (hashKey name) H r hk
      rw [StoreFingerprint, e1] at h
      simp [SAdd_down r1 "songs" name (by rw [hd1]; exact hs1)] at h
  · intro hH
    by_contra hk
    have hk1 : r.down (hashKey name) = true := by simpa using hk
    rw [StoreFingerprint, storeLoop_down _ _ _ hk1] at h
    simp [hH] at h

/-! ## StoreFingerprint: idempotent, and it extends the stored set -/

/-- C4: performing `StoreFingerprint(name, H)` a second time (whatever order the
map iteration takes then) leaves exactly the store state that the first call
left: the same hash set of the song, the same name set, every other key, and
the same returned error. -/
theorem StoreFingerprint_idempotent (r : Rdb) (name : String) (H H2 : List Nat)
    (hperm : H2.Perm H) :
    StoreFingerprint (StoreFingerprint r name H).1 name H2 = StoreFingerprint r name H := by
  have hks : (hashKey name) ≠ "songs" := hashKey_ne_songs name
  have hnil : H2 = [] ↔ H = [] := by
    constructor
    · intro h; rw [h] at hperm; exact List.Perm.eq_nil (hperm.symm)
    · intro h; rw [h] at hperm; exact List.Perm.eq_nil hperm
  cases hk : r.down (hashKey name) with
  | true =>
    by_cases hH : H = []
    · have hH2 : H2 = [] := hnil.mpr hH
      subst hH
      subst hH2
      cases hs : r.down "songs" with
      | true =>
        have e : StoreFingerprint r name [] = (r, some .failed) := by
          simp [StoreFingerprint, storeLoop, SAdd_down r "songs" name hs]
        rw [e, e]
      | false =>
        obtain ⟨r2, e2, hd2, _, hm2⟩ := SAdd_up r "songs" name hs
        have e : StoreFingerprint r name [] = (r2, none) := by
          simp [StoreFingerprint, storeLoop, e2]
        have e3 : StoreFingerprint r2 name [] = (r2, none) := by
          have := SAdd_mem r2 "songs" name (by rw [hd2]; exact hs) ((hm2 name).mpr (Or.inr rfl))
          simp [StoreFingerprint, storeLoop, this]
        rw [e, e3]
    · have hH2 : H2 ≠ [] := fun h => hH (hnil.mp h)
      have e : StoreFingerprint r name H = (r, some .failed) := by
        simp [StoreFingerprint, storeLoop_down _ _ _ hk, hH]
      have e3 : StoreFingerprint r name H2 = (r, some .failed) := by
        simp [StoreFingerprint, storeLoop_down _ _ _ hk, hH2]
      rw [e, e3]
  | false =>
    obtain ⟨r1, e1, hd1, ho1, hm1⟩ := storeLoop_up (hashKey name) H r hk
    have hk1 : r1.down (hashKey name) = false := by rw [hd1]; exact hk
    have hall1 : ∀ a ∈ H2, FormatUint a ∈ r1.sets (hashKey name) := by
      intro a ha
      rw [hm1]
      exact Or.inr (List.mem_map_of_mem _ (hperm.mem_iff.mp ha))
    cases hs : r.down "songs" with
    | true =>
      have hs1 : r1.down "songs" = true := by rw [hd1]; exact hs
      have e : StoreFingerprint r name H = (r1, some .failed) := by
        simp [StoreFingerprint, e1, SAdd_down r1 "songs" name hs1]
      have e3 : StoreFingerprint r1 name H2 = (r1, some .failed) := by
        simp [StoreFingerprint, storeLoop_present _ _ _ hk1 hall1,
          SAdd_down r1 "songs" name hs1]
      rw [e, e3]
    | false =>
      have hs1 : r1.down "songs" = false := by rw [hd1]; exact hs
      obtain ⟨r2, e2, hd2, ho2, hm2⟩ := SAdd_up r1 "songs" name hs1
      have e : StoreFingerprint r name H = (r2, none) := by
        simp [StoreFingerprint, e1, e2]
      have hk2 : r2.down (hashKey name) = false := by rw [hd2]; exact hk1
      have hs2 : r2.down "songs" = false := by rw [hd2]; exact hs1
      have hall2 : ∀ a ∈ H2, FormatUint a ∈ r2.sets (hashKey name) := by
        intro a ha
        rw [ho2 _ hks]
        exact hall1 a ha
      have e3 : StoreFingerprint r2 name H2 = (r2, none) := by
        simp [StoreFingerprint, storeLoop_present _ _ _ hk2 hall2,
          SAdd_mem r2 "songs" name hs2 ((hm2 name).mpr (Or.inr rfl))]
      rw [e, e3]

/-- C4 at `storeABC`: storing `{5, 1}` under B, then again in the other order. -/
theorem StoreFingerprint_idempotent_witness :
    [1, 5].Perm [5, 1] ∧
      StoreFingerprint (StoreFingerprint storeABC "B" [5, 1]).1 "B" [1, 5]
        = StoreFingerprint storeABC "B" [5, 1] :=
  ⟨by decide, StoreFingerprint_idempotent storeABC "B" [5, 1] [1, 5] (by decide)⟩

/-- C5 fails: storing `{2}` under A, which already holds `{1}`, succeeds and
leaves `{1, 2}`; the old hash 1 is still stored. -/
theorem StoreFingerprint_not_wholesale :
    (StoreFingerprint storeA1 "A" [2]).2 = none ∧
      (StoreFingerprint storeA1 "A" [2]).1.sets (hashKey "A") = ["1", "2"] ∧
      (StoreFingerprint storeA1 "A" [2]).1.sets (hashKey "A") ≠ [2].map FormatUint := by
  decide

/-- C5, amended: after a successful `StoreFingerprint(name, H)` the song's set
holds exactly the members it held before together with the hashes of `H`
(the union; nothing stored before is removed). -/
theorem StoreFingerprint_extends (r : Rdb) (name : String) (H : List Nat)
    (hok : (StoreFingerprint r name H).2 = none) (x : String) :
    x ∈ (StoreFingerprint r name H).1.sets (hashKey name)
      ↔ x ∈ r.sets (hashKey name) ∨ x ∈ H.map FormatUint := by
  have hup := StoreFingerprint_ok_up r name H hok
  have hks : (hashKey name) ≠ "songs" := hashKey_ne_songs name
  by_cases hH : H = []
  · subst hH
    obtain ⟨r2, e2, _, ho2, _⟩ := SAdd_up r "songs" name hup.1
    have e : StoreFingerprint r name [] = (r2, none) := by
      simp [StoreFingerprint, storeLoop, e2]
    rw [e]
    simp [ho2 _ hks]
  · obtain ⟨r2, e, _, hm, _⟩ := StoreFingerprint_up r name H (hup.2 hH) hup.1
    rw [e]
    exact hm x

/-- C5 amended, at `storeA1`: after storing `{2}` under A the member "1" is
still there. -/
theorem StoreFingerprint_extends_witness :
    (StoreFingerprint storeA1 "A" [2]).2 = none ∧
      ("1" ∈ (StoreFingerprint storeA1 "A" [2]).1.sets (hashKey "A")
        ↔ "1" ∈ storeA1.sets (hashKey "A") ∨ "1" ∈ [2].map FormatUint) :=
  ⟨by decide, StoreFingerprint_extends storeA1 "A" [2] (by decide) "1"⟩

/-! ## DeleteSong -/

theorem findLoop_name (r : Rdb) (query : List Nat) (Q : ℚ) (songs : List String)
    (best : String × ℚ) :
    findLoop r query Q songs best = best ∨ (findLoop r query Q songs best).1 ∈ songs := by
  induction songs generalizing best with
  | nil => left; simp [findLoop]
  | cons a t ih =>
    simp only [findLoop]
    split
    · rcases ih best with h | h
      · exact Or.inl h
      · exact Or.inr (List.mem_cons_of_mem a h)
    · split_ifs
      · rcases ih (a, _) with h | h
        · right; rw [h]; exact List.mem_cons_self a t
        · exact Or.inr (List.mem_cons_of_mem a h)
      · rcases ih best with h | h
        · exact Or.inl h
        · exact Or.inr (List.mem_cons_of_mem a h)

/-- When `songs` can be read, `FindMatch` returns no error, and its result is
the no-match result or carries a name that `songs` enumerates. -/
theorem FindMatch_name (r : Rdb) (query : List Nat) (h : r.down "songs" = false) :
    ∃ name sim, FindMatch r query = .ok (name, sim) ∧
      ((name, sim) = ("", 0) ∨ name ∈ r.sets "songs") := by
  rw [FindMatch_songs r query (r.sets "songs") h rfl]
  split_ifs
  · exact ⟨"", 0, rfl, Or.inl rfl⟩
  · exact ⟨"", 0, rfl, Or.inl rfl⟩
  · rcases findLoop_name r query (query.length : ℚ) (r.sets "songs") ("", 0) with h1 | h1
    · exact ⟨"", 0, by rw [h1], Or.inl rfl⟩
    · exact ⟨_, _, rfl, Or.inr h1⟩

theorem DeleteSong_up (r : Rdb) (A : String) (h1 : r.down (hashKey A) = false)
    (h2 : r.down "songs" = false) :
    (DeleteSong r A).2 = none ∧ (DeleteSong r A).1.down = r.down ∧
      (DeleteSong r A).1.sets (hashKey A) = [] ∧
      (DeleteSong r A).1.sets "songs" = (r.sets "songs").erase A ∧
      (∀ k, k ≠ hashKey A → k ≠ "songs" → (DeleteSong r A).1.sets k = r.sets k) := by
  have hks : (hashKey A) ≠ "songs" := hashKey_ne_songs A
  have e : DeleteSong r A =
      (((r.put (hashKey A) [] List.nodup_nil).put "songs"
          (((r.put (hashKey A) [] List.nodup_nil).sets "songs").erase A)
          (((r.put (hashKey A) [] List.nodup_nil).nodup "songs").erase A)), none) := by
    simp [DeleteSong, Del, SRem, h1, h2, Rdb.put]
  rw [e]
  refine ⟨rfl, rfl, ?_, ?_, ?_⟩
  · simp [Rdb.put, hks]
  · simp [Rdb.put, Ne.symm hks]
  · intro k hk hs
    simp [Rdb.put, hk, hs]

theorem DeleteSong_ok_up (r : Rdb) (A : String) (h : (DeleteSong r A).2 = none) :
    r.down (hashKey A) = false ∧ r.down "songs" = false := by
  cases hk : r.down (hashKey A) with
  | true => simp [DeleteSong, Del, hk] at h
  | false =>
    cases hs : r.down "songs" with
    | true => simp [DeleteSong, Del, SRem, hk, hs, Rdb.put] at h
    | false => exact ⟨rfl, rfl⟩

/-- Two cases outside C3.  The empty name, which the request handlers reject
before they call the matcher, is what `FindMatch` returns when nothing matches:
after `DeleteSong("")` on `storeABC`, `FindMatch` on the query `{7, 8, 9}`
returns the name `""`.  And on a store whose commands fail, deleting the
unknown name Z returns the store's error. -/
theorem DeleteSong_edge_cases :
    ((DeleteSong storeABC "").2 = none ∧
      FindMatch (DeleteSong storeABC "").1 [7, 8, 9] = .ok ("", 0)) ∧
    ("Z" ∉ downRdb.sets "songs" ∧ downRdb.sets (hashKey "Z") = [] ∧
      (DeleteSong downRdb "Z").2 = some .failed) := by
  with_unfolding_all decide

/-- C3: for every store and every name `A` (a song name, so not empty), after
`DeleteSong(A)` succeeds, `ListSongs` succeeds with a list that does not
contain `A`, the hash set of `A` is gone, and `FindMatch` on any query returns
a result whose name is not `A`; and deleting a name that the store does not
know (not in `songs`, no hash set), on a store that answers on the two keys,
succeeds and leaves the store unchanged. -/
theorem DeleteSong_removes (r : Rdb) (A : String) (hA : A ≠ "") :
    ((DeleteSong r A).2 = none →
      (∃ songs, ListSongs (DeleteSong r A).1 = .ok songs ∧ A ∉ songs) ∧
      (DeleteSong r A).1.sets (hashKey A) = [] ∧
      (∀ query, ∃ name sim, FindMatch (DeleteSong r A).1 query = .ok (name, sim) ∧
        name ≠ A)) ∧
    (A ∉ r.sets "songs" → r.sets (hashKey A) = [] → r.down (hashKey A) = false →
      r.down "songs" = false → DeleteSong r A = (r, none)) := by
  constructor
  · intro hok
    obtain ⟨hk, hs⟩ := DeleteSong_ok_up r A hok
    obtain ⟨_, hd, hkey, hsongs, _⟩ := DeleteSong_up r A hk hs
    have hs1 : (DeleteSong r A).1.down "songs" = false := by rw [hd]; exact hs
    have hnot : A ∉ (DeleteSong r A).1.sets "songs" := by
      rw [hsongs]
      exact fun hmem => (List.Nodup.mem_erase_iff (r.nodup "songs")).mp hmem |>.1 rfl
    refine ⟨⟨_, by simp [ListSongs, SMembers, hs1], hnot⟩, hkey, ?_⟩
    intro query
    obtain ⟨name, sim, e, hres⟩ := FindMatch_name (DeleteSong r A).1 query hs1
    refine ⟨name, sim, e, ?_⟩
    rcases hres with h | h
    · intro hname
      have h1 : name = "" := congrArg Prod.fst h
      exact hA (hname.symm.trans h1)
    · intro hname
      rw [hname] at h
      exact hnot h
  · intro hA2 hempty hk hs
    obtain ⟨hok, hd, hkey, hsongs, hother⟩ := DeleteSong_up r A hk hs
    have hst : (DeleteSong r A).1 = r := by
      apply Rdb.ext
      · funext k
        by_cases h1 : k = hashKey A
        · rw [h1, hkey, hempty]
        · by_cases h2 : k = "songs"
          · rw [h2, hsongs, List.erase_of_not_mem hA2]
          · exact hother k h1 h2
      · exact hd
    exact Prod.ext hst hok

/-- C3 at `storeABC`: deleting the stored song B, and deleting the unknown song
Z. -/
theorem DeleteSong_removes_witness :
    ("B" ≠ "" ∧ (DeleteSong storeABC "B").2 = none ∧
      (∃ songs, ListSongs (DeleteSong storeABC "B").1 = .ok songs ∧ "B" ∉ songs) ∧
      (DeleteSong storeABC "B").1.sets (hashKey "B") = [] ∧
      (∀ query, ∃ name sim, FindMatch (DeleteSong storeABC "B").1 query = .ok (name, sim) ∧
        name ≠ "B")) ∧
    ("Z" ≠ "" ∧ "Z" ∉ storeABC.sets "songs" ∧ storeABC.sets (hashKey "Z") = [] ∧
      storeABC.down (hashKey "Z") = false ∧ storeABC.down "songs" = false ∧
      DeleteSong storeABC "Z" = (storeABC, none)) :=
  have hok : (DeleteSong storeABC "B").2 = none := by decide
  have hZ1 : "Z" ∉ storeABC.sets "songs" := by decide
  have hZ2 : storeABC.sets (hashKey "Z") = [] := by decide
  ⟨⟨by decide, hok, (DeleteSong_removes storeABC "B" (by decide)).1 hok⟩,
    by decide, hZ1, hZ2, rfl, rfl,
    (DeleteSong_removes storeABC "Z" (by decide)).2 hZ1 hZ2 rfl rfl⟩

/-! ## Self-match -/

theorem parseDigits_lt (cs : List Char) (n h : Nat) (hn : n < 2 ^ 64)
    (hp : parseDigits cs n = some h) : h < 2 ^ 64 := by
  induction cs generalizing n with
  | nil =>
    simp only [parseDigits] at hp
    have := Option.some.inj hp
    omega
  | cons c t ih =>
    simp only [parseDigits] at hp
    split_ifs at hp with h1 h2
    exact ih _ h2 hp

theorem ParseUint_lt (s : String) (h : Nat) (hp : ParseUint s = some h) : h < 2 ^ 64 := by
  unfold ParseUint at hp
  split_ifs at hp
  exact parseDigits_lt s.data 0 h (by norm_num) hp

theorem canonical_cases (s : String) (hc : (ParseUint s).map FormatUint = some s) :
    ∃ h, ParseUint s = some h ∧ FormatUint h = s ∧ h < 2 ^ 64 := by
  cases hp : ParseUint s with
  | none => simp [hp] at hc
  | some h =>
    rw [hp] at hc
    exact ⟨h, rfl, Option.some.inj hc, ParseUint_lt s h hp⟩

theorem filterMap_canonical (l : List String)
    (hc : ∀ s ∈ l, (ParseUint s).map FormatUint = some s) :
    (l.filterMap ParseUint).map FormatUint = l := by
  induction l with
  | nil => rfl
  | cons a t ih =>
    obtain ⟨h, hp, hf, _⟩ := canonical_cases a (hc a (List.mem_cons_self a t))
    rw [List.filterMap_cons_some hp, List.map_cons, hf,
      ih (fun s hs => hc s (List.mem_cons_of_mem a hs))]

theorem storedHashes_spec (r : Rdb) (hc : Canonical r) (name : String) :
    (storedHashes r name).Nodup ∧ (∀ h ∈ storedHashes r name, h < 2 ^ 64) ∧
      r.sets (hashKey name) = (storedHashes r name).map FormatUint := by
  have hmap := filterMap_canonical (r.sets (hashKey name)) (hc name)
  refine ⟨?_, ?_, hmap.symm⟩
  · have hn := r.nodup (hashKey name)
    rw [← hmap] at hn
    exact List.Nodup.of_map _ hn
  · intro h hh
    obtain ⟨s, _, hp⟩ := List.mem_filterMap.mp hh
    exact ParseUint_lt s h hp

theorem holdsCorpus_corpusOf (r : Rdb) (hc : Canonical r) : HoldsCorpus r (corpusOf r) := by
  constructor
  · simp [corpusOf, Function.comp_def]
  · intro e he
    obtain ⟨n, _, rfl⟩ := List.mem_map.mp he
    exact storedHashes_spec r hc n

theorem mem_storedHashes (r : Rdb) (hc : Canonical r) (name : String) (h : Nat)
    (hb : h < 2 ^ 64) : h ∈ storedHashes r name ↔ FormatUint h ∈ r.sets (hashKey name) := by
  rw [(storedHashes_spec r hc name).2.2]
  constructor
  · exact fun hh => List.mem_map_of_mem _ hh
  · intro hh
    obtain ⟨a, ha, hf⟩ := List.mem_map.mp hh
    have hab := FormatUint_inj a h ((storedHashes_spec r hc name).2.1 a ha) hb hf
    rw [← hab]
    exact ha

theorem similarityOf_le_one (query stored : List Nat) : similarityOf query stored ≤ 1 := by
  unfold similarityOf
  by_cases h0 : ((query.toFinset.card : ℚ)) = 0
  · rw [h0, div_zero]
    norm_num
  · have hpos : (0 : ℚ) < (query.toFinset.card : ℚ) :=
      lt_of_le_of_ne (Nat.cast_nonneg _) (Ne.symm h0)
    rw [div_le_one hpos]
    exact_mod_cast Finset.card_le_card Finset.inter_subset_left

theorem similarityOf_eq_one (query stored : List Nat) (hne : query ≠ []) :
    similarityOf query stored = 1 ↔ ∀ h ∈ query, h ∈ stored := by
  unfold similarityOf
  have hcard : query.toFinset.card ≠ 0 := by
    rw [Ne, Finset.card_eq_zero, List.toFinset_eq_empty_iff]
    exact hne
  have h0 : ((query.toFinset.card : ℚ)) ≠ 0 := by exact_mod_cast hcard
  rw [div_eq_one_iff_eq h0]
  constructor
  · intro h x hx
    have hc : (query.toFinset ∩ stored.toFinset).card = query.toFinset.card := by
      exact_mod_cast h
    have hsub : query.toFinset ∩ stored.toFinset = query.toFinset :=
      Finset.eq_of_subset_of_card_le Finset.inter_subset_left (le_of_eq hc.symm)
    have hx1 : x ∈ query.toFinset ∩ stored.toFinset := by
      rw [hsub]; exact List.mem_toFinset.mpr hx
    exact List.mem_toFinset.mp (Finset.mem_inter.mp hx1).2
  · intro h
    have hsub : query.toFinset ∩ stored.toFinset = query.toFinset := by
      rw [Finset.inter_eq_left]
      intro x hx
      exact List.mem_toFinset.mpr (h x (List.mem_toFinset.mp hx))
    rw [hsub]

theorem canonical_storeBA : Canonical storeBA := by
  intro name s hs
  simp only [storeBA, mkRdb, setsBA, hashKey_ne_songs, if_false] at hs
  split_ifs at hs
  · revert s; decide
  · revert s; decide
  · exact absurd hs (List.not_mem_nil s)

/-- C2 fails in two ways.  Storing the empty fingerprint under A succeeds, and
recognising it returns the no-match result.  And when song B, enumerated before
A, already holds the hashes of `H = {1, 2}`, storing `H` under A succeeds and
recognising `H` returns B (similarity 1), not A. -/
theorem self_match_fails :
    ((StoreFingerprint emptyRdb "A" []).2 = none ∧
      FindMatch (StoreFingerprint emptyRdb "A" []).1 [] = .ok ("", 0)) ∧
    ((StoreFingerprint storeBA "A" [1, 2]).2 = none ∧
      FindMatch (StoreFingerprint storeBA "A" [1, 2]).1 [1, 2] = .ok ("B", 1)) := by
  with_unfolding_all decide

theorem canonical_StoreFingerprint (r r2 : Rdb) (A : String) (H : List Nat)
    (hb : ∀ h ∈ H, h < 2 ^ 64) (hcan : Canonical r)
    (hm : ∀ x, x ∈ r2.sets (hashKey A) ↔ x ∈ r.sets (hashKey A) ∨ x ∈ H.map FormatUint)
    (hother : ∀ k, k ≠ hashKey A → k ≠ "songs" → r2.sets k = r.sets k) : Canonical r2 := by
  intro name s hs
  by_cases hn : name = A
  · subst hn
    rcases (hm s).mp hs with h1 | h1
    · exact hcan name s h1
    · obtain ⟨a, ha, rfl⟩ := List.mem_map.mp h1
      rw [ParseUint_FormatUint a (hb a ha)]
      rfl
  · have hk : hashKey name ≠ hashKey A := fun h => hn (hashKey_inj _ _ h)
    rw [hother _ hk (hashKey_ne_songs name)] at hs
    exact hcan name s hs

/-- C2, amended: on a store whose commands succeed and whose song sets hold
decimal strings of 64-bit hashes, storing a non-empty fingerprint `H` under `A`
succeeds, and `FindMatch(H)` afterwards returns similarity 1 together with the
first song in enumeration order whose stored set contains every hash of `H`.
That song is `A` or a song enumerated before `A`; it is `A` when no other song
contains every hash of `H`. -/
theorem StoreFingerprint_self_match (r : Rdb) (A : String) (H : List Nat)
    (hH : H.Nodup) (hb : ∀ h ∈ H, h < 2 ^ 64) (hne : H ≠ [])
    (hcan : Canonical r) (hup : ∀ k, r.down k = false) :
    (StoreFingerprint r A H).2 = none ∧
      ∃ pre name post, (StoreFingerprint r A H).1.sets "songs" = pre ++ name :: post ∧
        FindMatch (StoreFingerprint r A H).1 H = .ok (name, 1) ∧
        (∀ h ∈ H, FormatUint h ∈ (StoreFingerprint r A H).1.sets (hashKey name)) ∧
        (∀ x ∈ pre, ¬ ∀ h ∈ H, FormatUint h ∈ (StoreFingerprint r A H).1.sets (hashKey x)) ∧
        (name = A ∨ A ∈ post) ∧
        ((∀ x ∈ (StoreFingerprint r A H).1.sets "songs", x ≠ A →
            ¬ ∀ h ∈ H, FormatUint h ∈ (StoreFingerprint r A H).1.sets (hashKey x)) →
          name = A) := by
  obtain ⟨r2, e, hd, hm, hsongs, hother, _⟩ := StoreFingerprint_up r A H (hup _) (hup _)
  rw [e]
  dsimp only
  have hcan2 : Canonical r2 := canonical_StoreFingerprint r r2 A H hb hcan hm hother
  have hup2 : ∀ k, r2.down k = false := by
    intro k; rw [hd]; exact hup k
  have hc := holdsCorpus_corpusOf r2 hcan2
  -- similarity 1 is containment
  have hsim : ∀ n, similarityOf H (storedHashes r2 n) = 1 ↔
      ∀ h ∈ H, FormatUint h ∈ r2.sets (hashKey n) := by
    intro n
    rw [similarityOf_eq_one H _ hne]
    constructor
    · intro h1 h hh
      exact (mem_storedHashes r2 hcan2 n h (hb h hh)).mp (h1 h hh)
    · intro h1 h hh
      exact (mem_storedHashes r2 hcan2 n h (hb h hh)).mpr (h1 h hh)
  have hA : ∀ h ∈ H, FormatUint h ∈ r2.sets (hashKey A) := fun h hh =>
    (hm _).mpr (Or.inr (List.mem_map_of_mem _ hh))
  have hAsongs : A ∈ r2.sets "songs" := (hsongs A).mpr (Or.inr rfl)
  have hAc : (A, storedHashes r2 A) ∈ corpusOf r2 :=
    List.mem_map.mpr ⟨A, hAsongs, rfl⟩
  have hAsim : similarityOf H (storedHashes r2 A) = 1 := (hsim A).mpr hA
  have hmatch := FindMatch_corpus r2 (corpusOf r2) H hH hup2 hc hne _ hAc (by
    rw [hAsim]
    norm_num)
  obtain ⟨pre, e1, post, hdec, hF, hpre, hpost⟩ := hmatch
  have hmem : ∀ x ∈ corpusOf r2, x.2 = storedHashes r2 x.1 := by
    intro x hx
    obtain ⟨n, _, rfl⟩ := List.mem_map.mp hx
    rfl
  have he1 : e1 ∈ corpusOf r2 := by rw [hdec]; simp
  -- the winner scores 1
  have hone : similarityOf H e1.2 = 1 := by
    apply le_antisymm (similarityOf_le_one _ _)
    rw [hdec] at hAc
    rcases List.mem_append.mp hAc with h1 | h1
    · have := hpre _ h1
      rw [hAsim] at this
      exact le_of_lt this
    · rcases List.mem_cons.mp h1 with h2 | h2
      · rw [← h2]
        exact le_of_eq hAsim.symm
      · have := hpost _ h2
        rw [hAsim] at this
        exact this
  have he1c : ∀ h ∈ H, FormatUint h ∈ r2.sets (hashKey e1.1) := by
    rw [← hsim e1.1, ← hmem e1 he1]
    exact hone
  have hprec : ∀ x ∈ pre.map Prod.fst, ¬ ∀ h ∈ H, FormatUint h ∈ r2.sets (hashKey x) := by
    intro x hx hall
    obtain ⟨y, hy, rfl⟩ := List.mem_map.mp hx
    have hyc : y ∈ corpusOf r2 := by rw [hdec]; simp [hy]
    have h1 := (hsim y.1).mpr hall
    rw [← hmem y hyc] at h1
    have := hpre y hy
    rw [h1, hone] at this
    exact lt_irrefl _ this
  have hsongs2 : r2.sets "songs" = pre.map Prod.fst ++ e1.1 :: post.map Prod.fst := by
    rw [hc.1, hdec]
    simp
  have hpos : e1.1 = A ∨ A ∈ post.map Prod.fst := by
    have h1 := hAsongs
    rw [hsongs2] at h1
    rcases List.mem_append.mp h1 with h2 | h2
    · exact absurd hA (hprec A h2)
    · rcases List.mem_cons.mp h2 with h3 | h3
      · exact Or.inl h3.symm
      · exact Or.inr h3
  refine ⟨rfl, pre.map Prod.fst, e1.1, post.map Prod.fst, hsongs2, ?_, he1c, hprec, hpos, ?_⟩
  · rw [hF, hone]
  · intro hno
    by_contra hneq
    have hin : e1.1 ∈ r2.sets "songs" := by rw [hsongs2]; simp
    exact hno e1.1 hin hneq he1c

/-- C2 amended, at `storeBA` with `H = {1, 2}` stored under A. -/
theorem StoreFingerprint_self_match_witness :
    [1, 2].Nodup ∧ (∀ h ∈ [1, 2], h < 2 ^ 64) ∧ [1, 2] ≠ [] ∧ Canonical storeBA ∧
      (∀ k, storeBA.down k = false) ∧
      (StoreFingerprint storeBA "A" [1, 2]).2 = none ∧
      ∃ pre name post, (StoreFingerprint storeBA "A" [1, 2]).1.sets "songs" = pre ++ name :: post ∧
        FindMatch (StoreFingerprint storeBA "A" [1, 2]).1 [1, 2] = .ok (name, 1) ∧
        (∀ h ∈ [1, 2],
          FormatUint h ∈ (StoreFingerprint storeBA "A" [1, 2]).1.sets (hashKey name)) ∧
        (∀ x ∈ pre, ¬ ∀ h ∈ [1, 2],
          FormatUint h ∈ (StoreFingerprint storeBA "A" [1, 2]).1.sets (hashKey x)) ∧
        (name = "A" ∨ "A" ∈ post) ∧
        ((∀ x ∈ (StoreFingerprint storeBA "A" [1, 2]).1.sets "songs", x ≠ "A" →
            ¬ ∀ h ∈ [1, 2],
              FormatUint h ∈ (StoreFingerprint storeBA "A" [1, 2]).1.sets (hashKey x)) →
          name = "A") :=
  ⟨by decide, by decide, by decide, canonical_storeBA, fun _ => rfl,
    StoreFingerprint_self_match storeBA "A" [1, 2] (by decide) (by decide) (by decide)
      canonical_storeBA (fun _ => rfl)⟩

/-! ## extractPeaks: band and count -/

theorem spectrumBin6_length : spectrumBin6.length = 1024 := by
  simp only [spectrumBin6, List.length_append, List.length_replicate, List.length_singleton]

theorem spectrumBin14_length : spectrumBin14.length = 2048 := by
  simp only [spectrumBin14, List.length_append, List.length_replicate, List.length_singleton]

/-- Reading a spectrum whose only non-zero bin is bin `a`. -/
theorem getD_single_bin (a b k : Nat) :
    (List.replicate a (0 : ℚ) ++ [1] ++ List.replicate b 0).getD k 0
      = if k = a then 1 else 0 := by
  rw [List.getD_eq_getElem?_getD, List.append_assoc, List.getElem?_append]
  split_ifs with h1 h2 h2
  · rw [List.length_replicate] at h1; omega
  · rw [List.length_replicate] at h1
    rw [List.getElem?_replicate]
    simp [h1]
  · subst h2
    simp
  · rw [List.length_replicate] at h1 ⊢
    have : k - a = (k - a - 1) + 1 := by omega
    rw [this, List.singleton_append, List.getElem?_cons_succ, List.getElem?_replicate]
    split_ifs <;> simp

theorem spectrumBin6_getD (k : Nat) : spectrumBin6.getD k 0 = if k = 6 then 1 else 0 :=
  getD_single_bin 6 1017 k

theorem spectrumBin14_getD (k : Nat) : spectrumBin14.getD k 0 = if k = 14 then 1 else 0 :=
  getD_single_bin 14 2033 k

set_option maxRecDepth 4000 in
/-- C6 fails on the code: with sample rate 44100 a 1024-bin spectrum whose only
energy is in bin 6 yields the frequency 258, and a 2048-bin spectrum whose only
energy is in bin 14 yields 294; both are below `MinFreq = 300`. -/
theorem extractPeaks_below_MinFreq :
    (spectrumBin6.length = 1024 ∧ extractPeaks spectrumBin6 44100 = some [258]) ∧
      (spectrumBin14.length = 2048 ∧ extractPeaks spectrumBin14 44100 = some [294]) := by
  refine ⟨⟨spectrumBin6_length, ?_⟩, ⟨spectrumBin14_length, ?_⟩⟩
  · unfold extractPeaks peaksOfBinSize scanBins dominated
    simp only [spectrumBin6_length, spectrumBin6_getD]
    with_unfolding_all decide
  · unfold extractPeaks peaksOfBinSize scanBins dominated
    simp only [spectrumBin14_length, spectrumBin14_getD]
    with_unfolding_all decide

theorem binSize_pos (n : Nat) (sampleRate : Int) (hn : n ≠ 0) (hs : (n : Int) ≤ sampleRate) :
    0 < Int.tdiv sampleRate (n : Int) := by
  have hn0 : (0 : Int) < (n : Int) := by exact_mod_cast Nat.pos_of_ne_zero hn
  rw [Int.tdiv_eq_ediv (by omega) (by omega)]
  have := Int.le_ediv_of_mul_le (a := 1) hn0 (by omega : (1 : Int) * (n : Int) ≤ sampleRate)
  omega

/-- On a non-empty spectrum with at most `sampleRate` bins neither division
panics. -/
theorem extractPeaks_eq (fftResult : List ℚ) (sampleRate : Int) (hne : fftResult ≠ [])
    (hs : (fftResult.length : Int) ≤ sampleRate) :
    extractPeaks fftResult sampleRate =
      some (peaksOfBinSize fftResult (Int.tdiv sampleRate (fftResult.length : Int))) := by
  have hlen : fftResult.length ≠ 0 := fun h => hne (List.length_eq_zero.mp h)
  have hb := binSize_pos fftResult.length sampleRate hlen hs
  unfold extractPeaks
  rw [if_neg hlen]
  simp only
  rw [if_neg (by omega)]

/-- C7: on every non-empty spectrum, with a sample rate of at least its length,
`extractPeaks` returns, and returns at most 8 frequencies. -/
theorem extractPeaks_top_k (fftResult : List ℚ) (sampleRate : Int) (hne : fftResult ≠ [])
    (hs : (fftResult.length : Int) ≤ sampleRate) :
    ∃ res, extractPeaks fftResult sampleRate = some res ∧ res.length ≤ 8 := by
  refine ⟨_, extractPeaks_eq fftResult sampleRate hne hs, ?_⟩
  unfold peaksOfBinSize
  simp only
  rw [List.length_map]
  split_ifs with h
  · rw [List.length_take]
    exact Nat.min_le_left _ _
  · unfold TopFrequencies at h
    omega

/-- C7 at the 1024-bin spectrum `spectrumBin6` and the sample rate 44100. -/
theorem extractPeaks_top_k_witness :
    spectrumBin6 ≠ [] ∧ (spectrumBin6.length : Int) ≤ 44100 ∧
      ∃ res, extractPeaks spectrumBin6 44100 = some res ∧ res.length ≤ 8 :=
  have hne : spectrumBin6 ≠ [] := by
    intro h
    have hl := spectrumBin6_length
    rw [h] at hl
    exact absurd hl (by decide)
  have hs : (spectrumBin6.length : Int) ≤ 44100 := by
    rw [spectrumBin6_length]
    decide
  ⟨hne, hs, extractPeaks_top_k spectrumBin6 44100 hne hs⟩

/-! ## The hash sentinel -/

theorem mapInsert_zero (hashes : List Nat) (h : Nat) (hz : 0 ∉ hashes) (hh : h ≠ 0) :
    0 ∉ mapInsert hashes h := by
  unfold mapInsert
  split_ifs
  · exact hz
  · intro hmem
    rcases List.mem_append.mp hmem with h1 | h1
    · exact hz h1
    · exact hh (List.mem_singleton.mp h1).symm

theorem frameStep_zero (st : FrameState) (peaks : List Nat) (frame : Nat)
    (hz : 0 ∉ st.hashes) : 0 ∉ (frameStep st peaks frame).hashes := by
  by_cases h1 : peaks.length > 0
  · simp only [frameStep, h1, if_true]
    split_ifs with h2
    · exact mapInsert_zero _ _ hz h2
    · exact hz
  · simp only [frameStep, h1, if_false]
    exact hz

theorem gofftFrames_zero (hannWindow : Nat → Nat → ℚ) (performFFTGofft : List ℚ → List ℚ)
    (samples : List ℚ)
    (hperf : ∀ w : List ℚ, w.length = WindowSize →
      performFFTGofft w ≠ [] ∧ (performFFTGofft w).length ≤ SampleRate)
    (frames : List Nat) (st : FrameState) (hz : 0 ∉ st.hashes) :
    ∃ st1, gofftFrames hannWindow performFFTGofft samples frames st = some st1 ∧
      0 ∉ st1.hashes := by
  induction frames generalizing st with
  | nil => exact ⟨st, rfl, hz⟩
  | cons frame rest ih =>
    simp only [gofftFrames]
    split_ifs with hstop
    · exact ⟨st, rfl, hz⟩
    · obtain ⟨hne, hlen⟩ := hperf
        ((List.range WindowSize).map fun i =>
          samples.getD (frame * HopSize + i) 0 * hannWindow i WindowSize) (by simp)
      rw [extractPeaks_eq _ _ hne (by exact_mod_cast hlen)]
      exact ih _ (frameStep_zero st _ frame hz)

theorem customFrames_zero (hannWindow : Nat → Nat → ℚ) (performFFT : List ℚ → List ℚ)
    (hperf : ∀ w : List ℚ, w.length = WindowSize →
      performFFT w ≠ [] ∧ (performFFT w).length ≤ SampleRate)
    (frames : List Nat) (samples : List ℚ) (st : FrameState) (hz : 0 ∉ st.hashes) :
    ∃ p, customFrames hannWindow performFFT frames (samples, st) = some p ∧
      0 ∉ p.2.hashes := by
  induction frames generalizing samples st with
  | nil => exact ⟨(samples, st), rfl, hz⟩
  | cons frame rest ih =>
    simp only [customFrames]
    split_ifs with hstop
    · exact ⟨(samples, st), rfl, hz⟩
    · obtain ⟨hne, hlen⟩ := hperf
        ((List.range WindowSize).map fun i =>
          samples.getD (frame * HopSize + i) 0 * hannWindow i WindowSize) (by simp)
      rw [extractPeaks_eq _ _ hne (by exact_mod_cast hlen)]
      exact ih _ _ (frameStep_zero st _ frame hz)

/-- C8: for a current peak list with fewer than 2 entries `hashPeaks` returns
the sentinel 0, whatever the previous peaks and the frame index; the frame loop
body adds nothing to the hash set for such a frame; and both generators, run
with transforms that give a non-empty spectrum of at most `SampleRate` bins for
a window of `WindowSize` samples, return a hash set that does not contain 0. -/
theorem hash_sentinel :
    (∀ (peaks prevPeaks : List Nat) (frame : Int), peaks.length < 2 →
      hashPeaks peaks prevPeaks frame = 0) ∧
    (∀ (st : FrameState) (peaks : List Nat) (frame : Nat), peaks.length < 2 →
      (frameStep st peaks frame).hashes = st.hashes) ∧
    (∀ (hannWindow : Nat → Nat → ℚ) (perform : List ℚ → List ℚ) (samples : List ℚ),
      (∀ w : List ℚ, w.length = WindowSize →
        perform w ≠ [] ∧ (perform w).length ≤ SampleRate) →
      (∃ hs, generateFingerprintGofft hannWindow perform samples = some hs ∧ 0 ∉ hs) ∧
      (∃ hs smp, generateFingerprintCustomFFT hannWindow perform samples = some (hs, smp) ∧
        0 ∉ hs)) := by
  refine ⟨?_, ?_, ?_⟩
  · intro peaks prevPeaks frame h
    unfold hashPeaks
    rw [if_pos h]
  · intro st peaks frame h
    have h0 : hashPeaks peaks st.prevFreqs (frame : Int) = 0 := by
      unfold hashPeaks
      rw [if_pos h]
    by_cases h1 : peaks.length > 0
    · simp only [frameStep, h1, if_true, h0]
      simp
    · simp only [frameStep, h1, if_false]
  · intro hannWindow perform samples hperf
    constructor
    · obtain ⟨st1, e, hz⟩ := gofftFrames_zero hannWindow perform samples hperf
        (List.range (numFramesOf samples)) { hashes := [], prevFreqs := [] }
        (List.not_mem_nil 0)
      exact ⟨st1.hashes, by simp [generateFingerprintGofft, e], hz⟩
    · obtain ⟨p, e, hz⟩ := customFrames_zero hannWindow perform hperf
        (List.range (numFramesOf samples)) samples { hashes := [], prevFreqs := [] }
        (List.not_mem_nil 0)
      exact ⟨p.2.hashes, p.1, by simp [generateFingerprintCustomFFT, e], hz⟩

/-- C8 at a frame with the single peak 440 Hz, and at the empty sample
sequence with a transform that returns a one-bin spectrum. -/
theorem hash_sentinel_witness :
    ([440].length < 2 ∧ hashPeaks [440] [300, 500] 7 = 0) ∧
    ([440].length < 2 ∧
      (frameStep { hashes := [5], prevFreqs := [300, 500] } [440] 7).hashes = [5]) ∧
    ((∀ w : List ℚ, w.length = WindowSize →
        (fun _ : List ℚ => [(0 : ℚ)]) w ≠ [] ∧
          ((fun _ : List ℚ => [(0 : ℚ)]) w).length ≤ SampleRate) ∧
      (∃ hs, generateFingerprintGofft (fun _ _ => 1) (fun _ => [0]) [] = some hs ∧ 0 ∉ hs) ∧
      (∃ hs smp, generateFingerprintCustomFFT (fun _ _ => 1) (fun _ => [0]) [] = some (hs, smp) ∧
        0 ∉ hs)) :=
  have hperf : ∀ w : List ℚ, w.length = WindowSize →
      (fun _ : List ℚ => [(0 : ℚ)]) w ≠ [] ∧
        ((fun _ : List ℚ => [(0 : ℚ)]) w).length ≤ SampleRate := by
    intro w _
    exact ⟨by simp, by simp [SampleRate]⟩
  ⟨⟨by decide, hash_sentinel.1 [440] [300, 500] 7 (by decide)⟩,
    ⟨by decide, hash_sentinel.2.1 { hashes := [5], prevFreqs := [300, 500] } [440] 7 (by decide)⟩,
    hperf, hash_sentinel.2.2 (fun _ _ => 1) (fun _ => [0]) [] hperf⟩

/-! ## hashPeaks: bit layout -/

/-- `hashPeaks` on a list with at least two peaks, branch by branch. -/
theorem hashPeaks_eq (peaks prevPeaks : List Nat) (frame : Int) (hlen : 2 ≤ peaks.length) :
    hashPeaks peaks prevPeaks frame =
      if prevPeaks.length ≥ 2 then
        (peaks.getD 0 0 <<< 48) % 2 ^ 64 ||| (peaks.getD 1 0 <<< 32) % 2 ^ 64 |||
          ((frame % 65536).toNat <<< 16) % 2 ^ 64 |||
          (prevPeaks.getD 0 0 ^^^ peaks.getD 0 0) % 2 ^ 16
      else if peaks.length ≥ 3 then
        (peaks.getD 0 0 <<< 48) % 2 ^ 64 ||| (peaks.getD 1 0 <<< 32) % 2 ^ 64 |||
          (peaks.getD 2 0 <<< 16) % 2 ^ 64 ||| 0 % 2 ^ 16
      else
        (peaks.getD 0 0 <<< 48) % 2 ^ 64 ||| (peaks.getD 1 0 <<< 32) % 2 ^ 64 |||
          (0 <<< 16) % 2 ^ 64 ||| 0 % 2 ^ 16 := by
  unfold hashPeaks
  rw [if_neg (by omega)]
  have hmask : ∀ x : Nat, x &&& 0xFFFF = x % 2 ^ 16 := fun x =>
    Nat.and_pow_two_sub_one_eq_mod x 16
  simp only [hmask]
  split_ifs <;> simp

/-- Bits 63..48 of a four-field word whose lower fields fit in 16 bits. -/
theorem word_bits_63_48 (a b c d : Nat) (hb : b < 2 ^ 16) (hc : c < 2 ^ 16) :
    (((a <<< 48) % 2 ^ 64 ||| (b <<< 32) % 2 ^ 64 ||| (c <<< 16) % 2 ^ 64 ||| d % 2 ^ 16)
      >>> 48) % 2 ^ 16 = a % 2 ^ 16 := by
  apply Nat.eq_of_testBit_eq
  intro i
  simp only [Nat.testBit_mod_two_pow, Nat.testBit_shiftRight, Nat.testBit_or,
    Nat.testBit_shiftLeft]
  by_cases hi : i < 16
  · have e1 : 48 + i - 48 = i := by omega
    have h2 : b.testBit (48 + i - 32) = false :=
      Nat.testBit_lt_two_pow (lt_of_lt_of_le hb (Nat.pow_le_pow_right (by norm_num) (by omega)))
    have h3 : c.testBit (48 + i - 16) = false :=
      Nat.testBit_lt_two_pow (lt_of_lt_of_le hc (Nat.pow_le_pow_right (by norm_num) (by omega)))
    have h4 : ¬ (48 + i < 16) := by omega
    simp [hi, e1, h2, h3, h4]
    omega
  · simp [hi]

/-- Bits 47..32 of a four-field word whose third field fits in 16 bits. -/
theorem word_bits_47_32 (a b c d : Nat) (hc : c < 2 ^ 16) :
    (((a <<< 48) % 2 ^ 64 ||| (b <<< 32) % 2 ^ 64 ||| (c <<< 16) % 2 ^ 64 ||| d % 2 ^ 16)
      >>> 32) % 2 ^ 16 = b % 2 ^ 16 := by
  apply Nat.eq_of_testBit_eq
  intro i
  simp only [Nat.testBit_mod_two_pow, Nat.testBit_shiftRight, Nat.testBit_or,
    Nat.testBit_shiftLeft]
  by_cases hi : i < 16
  · have e1 : 32 + i - 32 = i := by omega
    have h1 : ¬ (32 + i ≥ 48) := by omega
    have h3 : c.testBit (32 + i - 16) = false :=
      Nat.testBit_lt_two_pow (lt_of_lt_of_le hc (Nat.pow_le_pow_right (by norm_num) (by omega)))
    have h4 : ¬ (32 + i < 16) := by omega
    simp [hi, e1, h1, h3, h4]
    omega
  · simp [hi]

/-- Bits 31..16 of a four-field word. -/
theorem word_bits_31_16 (a b c d : Nat) :
    (((a <<< 48) % 2 ^ 64 ||| (b <<< 32) % 2 ^ 64 ||| (c <<< 16) % 2 ^ 64 ||| d % 2 ^ 16)
      >>> 16) % 2 ^ 16 = c % 2 ^ 16 := by
  apply Nat.eq_of_testBit_eq
  intro i
  simp only [Nat.testBit_mod_two_pow, Nat.testBit_shiftRight, Nat.testBit_or,
    Nat.testBit_shiftLeft]
  by_cases hi : i < 16
  · have e1 : 16 + i - 16 = i := by omega
    have h1 : ¬ (16 + i ≥ 48) := by omega
    have h2 : ¬ (16 + i ≥ 32) := by omega
    have h4 : ¬ (16 + i < 16) := by omega
    simp [hi, e1, h1, h2, h4]
    omega
  · simp [hi]

/-- Bits 15..0 of a four-field word. -/
theorem word_bits_15_0 (a b c d : Nat) :
    ((a <<< 48) % 2 ^ 64 ||| (b <<< 32) % 2 ^ 64 ||| (c <<< 16) % 2 ^ 64 ||| d % 2 ^ 16)
      % 2 ^ 16 = d % 2 ^ 16 := by
  apply Nat.eq_of_testBit_eq
  intro i
  simp only [Nat.testBit_mod_two_pow, Nat.testBit_or, Nat.testBit_shiftLeft]
  by_cases hi : i < 16
  · have h1 : ¬ (i ≥ 48) := by omega
    have h2 : ¬ (i ≥ 32) := by omega
    have h3 : ¬ (i ≥ 16) := by omega
    simp [hi, h1, h2, h3]
  · simp [hi]

theorem frame_mask_lt (frame : Int) : (frame % 65536).toNat < 2 ^ 16 := by
  have h1 : 0 ≤ frame % 65536 := Int.emod_nonneg frame (by norm_num)
  have h2 : frame % 65536 < 65536 := Int.emod_lt_of_pos frame (by norm_num)
  omega

/-- C9 fails for 32-bit values above 16 bits: with `peaks = [1, 131072]` the
second peak spills into bits 63..48, which hold 3 instead of 1; with
`peaks = [1, 1, 131072]` and no history the third peak spills into bits 47..32,
which hold 3 instead of 1. -/
theorem hashPeaks_spill :
    ((∀ p ∈ [1, 131072], p < 2 ^ 32) ∧
      (hashPeaks [1, 131072] [] 0 >>> 48) % 2 ^ 16 = 3 ∧ [1, 131072].getD 0 0 % 2 ^ 16 = 1) ∧
    ((∀ p ∈ [1, 1, 131072], p < 2 ^ 32) ∧
      (hashPeaks [1, 1, 131072] [] 0 >>> 32) % 2 ^ 16 = 3 ∧
        [1, 1, 131072].getD 1 0 % 2 ^ 16 = 1) := by
  decide

/-- C9, amended: for every peak list with at least 2 entries whose second
entry fits in 16 bits, and whose third entry fits in 16 bits when it is used
(no history of 2 peaks), bits 63..48 of `hashPeaks` are `peaks[0]` truncated
to 16 bits and bits 47..32 are `peaks[1]`; `peaks[0]`, the previous peaks and
the frame index are arbitrary. -/
theorem hashPeaks_frequency_pair (peaks prevPeaks : List Nat) (frame : Int)
    (hlen : 2 ≤ peaks.length) (h1 : peaks.getD 1 0 < 2 ^ 16)
    (h2 : prevPeaks.length < 2 → peaks.getD 2 0 < 2 ^ 16) :
    (hashPeaks peaks prevPeaks frame >>> 48) % 2 ^ 16 = peaks.getD 0 0 % 2 ^ 16 ∧
      (hashPeaks peaks prevPeaks frame >>> 32) % 2 ^ 16 = peaks.getD 1 0 % 2 ^ 16 := by
  rw [hashPeaks_eq peaks prevPeaks frame hlen]
  split_ifs with hp h3
  · exact ⟨word_bits_63_48 _ _ _ _ h1 (frame_mask_lt frame),
      word_bits_47_32 _ _ _ _ (frame_mask_lt frame)⟩
  · have hc := h2 (by omega)
    exact ⟨word_bits_63_48 _ _ _ _ h1 hc, word_bits_47_32 _ _ _ _ hc⟩
  · exact ⟨word_bits_63_48 _ _ _ _ h1 (by norm_num), word_bits_47_32 _ _ _ _ (by norm_num)⟩

/-- C9 amended, at the peaks 700, 100, 2100 Hz without history. -/
theorem hashPeaks_frequency_pair_witness :
    2 ≤ [700, 100, 2100].length ∧ [700, 100, 2100].getD 1 0 < 2 ^ 16 ∧
      (([] : List Nat).length < 2 → [700, 100, 2100].getD 2 0 < 2 ^ 16) ∧
      (hashPeaks [700, 100, 2100] [] 5 >>> 48) % 2 ^ 16 = [700, 100, 2100].getD 0 0 % 2 ^ 16 ∧
      (hashPeaks [700, 100, 2100] [] 5 >>> 32) % 2 ^ 16 = [700, 100, 2100].getD 1 0 % 2 ^ 16 :=
  ⟨by decide, by decide, by decide,
    hashPeaks_frequency_pair [700, 100, 2100] [] 5 (by decide) (by decide) (by decide)⟩

/-- C10: for every peak list with at least 2 entries: if the previous list has
at least 2 entries, bits 31..16 of `hashPeaks` are the frame index masked to 16
bits and bits 15..0 are `prevPeaks[0] XOR peaks[0]` masked to 16 bits;
otherwise, if there is a third peak, bits 31..16 are its low 16 bits and bits
15..0 are 0; otherwise bits 31..0 are 0. -/
theorem hashPeaks_history (peaks prevPeaks : List Nat) (frame : Int)
    (hlen : 2 ≤ peaks.length) :
    (2 ≤ prevPeaks.length →
      (hashPeaks peaks prevPeaks frame >>> 16) % 2 ^ 16 = (frame % 65536).toNat ∧
      hashPeaks peaks prevPeaks frame % 2 ^ 16
        = (prevPeaks.getD 0 0 ^^^ peaks.getD 0 0) % 2 ^ 16) ∧
    (prevPeaks.length < 2 → 3 ≤ peaks.length →
      (hashPeaks peaks prevPeaks frame >>> 16) % 2 ^ 16 = peaks.getD 2 0 % 2 ^ 16 ∧
      hashPeaks peaks prevPeaks frame % 2 ^ 16 = 0) ∧
    (prevPeaks.length < 2 → peaks.length < 3 →
      hashPeaks peaks prevPeaks frame % 2 ^ 32 = 0) := by
  rw [hashPeaks_eq peaks prevPeaks frame hlen]
  refine ⟨?_, ?_, ?_⟩
  · intro hp
    rw [if_pos hp]
    refine ⟨?_, ?_⟩
    · rw [word_bits_31_16, Nat.mod_eq_of_lt (frame_mask_lt frame)]
    · rw [word_bits_15_0]
  · intro hp h3
    rw [if_neg (by omega), if_pos h3]
    refine ⟨word_bits_31_16 _ _ _ _, ?_⟩
    rw [word_bits_15_0]
    rfl
  · intro hp h3
    rw [if_neg (by omega), if_neg (by omega)]
    apply Nat.eq_of_testBit_eq
    intro i
    simp only [Nat.testBit_mod_two_pow, Nat.testBit_or, Nat.testBit_shiftLeft]
    by_cases hi : i < 32
    · have h1 : ¬ (i ≥ 48) := by omega
      have h2 : ¬ (i ≥ 32) := by omega
      simp [hi, h1, h2]
    · simp [hi]

/-- C10 at the peaks 700, 100, 2100 Hz: with the history 300, 500 at frame 70000,
and without history. -/
theorem hashPeaks_history_witness :
    2 ≤ [700, 100, 2100].length ∧
      ((hashPeaks [700, 100, 2100] [300, 500] 70000 >>> 16) % 2 ^ 16 = (70000 % 65536 : Int).toNat ∧
        hashPeaks [700, 100, 2100] [300, 500] 70000 % 2 ^ 16
          = ([300, 500].getD 0 0 ^^^ [700, 100, 2100].getD 0 0) % 2 ^ 16) ∧
      ((hashPeaks [700, 100, 2100] [] 70000 >>> 16) % 2 ^ 16 = [700, 100, 2100].getD 2 0 % 2 ^ 16 ∧
        hashPeaks [700, 100, 2100] [] 70000 % 2 ^ 16 = 0) :=
  ⟨by decide,
    (hashPeaks_history [700, 100, 2100] [300, 500] 70000 (by decide)).1 (by decide),
    (hashPeaks_history [700, 100, 2100] [] 70000 (by decide)).2.1 (by decide) (by decide)⟩

/-! ## decodeAudio and decodeWAV -/

theorem finishWAV_short (samples : List ℚ) (h : samples.length < WindowSize) :
    finishWAV samples = .error .ErrAudioTooShort := by
  simp [finishWAV, h]

theorem finishWAV_long (samples : List ℚ) (h : WindowSize ≤ samples.length) :
    finishWAV samples = .ok samples := by
  have : ¬ samples.length < WindowSize := by omega
  simp [finishWAV, this]

theorem budget_of_short (n : Nat) (h : n < WindowSize) : n < sampleBudget := by
  unfold WindowSize at h
  unfold sampleBudget SampleRate MaxDurationSec
  omega

/-- One iteration of the loop. -/
theorem wavLoop_succ (audioFormat numChannels bitsPerSample fuel : Nat) (data : List Nat)
    (samples : List ℚ) :
    wavLoop audioFormat numChannels bitsPerSample (fuel + 1) data samples =
      if samples.length < sampleBudget then
        if audioFormat = 1 then
          if bitsPerSample = 16 then
            match data with
            | [] => some (finishWAV samples)
            | [_] => some (.error .ErrUnexpectedEOF)
            | b0 :: b1 :: rest =>
              if numChannels = 2 then
                match rest with
                | _ :: _ :: rest2 =>
                  wavLoop audioFormat numChannels bitsPerSample fuel rest2
                    (samples ++ [sample16 b0 b1])
                | _ => some (finishWAV (samples ++ [sample16 b0 b1]))
              else
                wavLoop audioFormat numChannels bitsPerSample fuel rest
                  (samples ++ [sample16 b0 b1])
          else if bitsPerSample = 8 then
            match data with
            | [] => some (finishWAV samples)
            | b :: rest =>
              if numChannels = 2 then
                match rest with
                | _ :: rest2 =>
                  wavLoop audioFormat numChannels bitsPerSample fuel rest2
                    (samples ++ [sample8 b])
                | [] => some (finishWAV (samples ++ [sample8 b]))
              else
                wavLoop audioFormat numChannels bitsPerSample fuel rest (samples ++ [sample8 b])
          else wavLoop audioFormat numChannels bitsPerSample fuel data samples
        else some (finishWAV samples)
      else some (finishWAV samples) := by
  rfl

theorem payload_8_mono (numChannels n : Nat) (h : numChannels ≠ 2) :
    payloadSamples numChannels 8 n = n ∧ ¬ payloadDangling numChannels 8 n := by
  simp [payloadSamples, payloadDangling, h, Nat.mod_one]

theorem payload_8_stereo (n : Nat) :
    payloadSamples 2 8 n = (n + 1) / 2 ∧ ¬ payloadDangling 2 8 n := by
  constructor
  · simp only [payloadSamples, if_true]
    split_ifs <;> omega
  · simp only [payloadDangling, if_true]
    omega

theorem payload_16_mono (numChannels n : Nat) (h : numChannels ≠ 2) :
    payloadSamples numChannels 16 n = n / 2 ∧
      (payloadDangling numChannels 16 n ↔ n % 2 = 1) := by
  constructor
  · simp only [payloadSamples, if_neg h]
    split_ifs <;> omega
  · simp only [payloadDangling, if_neg h]
    omega

theorem payload_16_stereo (n : Nat) :
    payloadSamples 2 16 n = (n + 2) / 4 ∧ (payloadDangling 2 16 n ↔ n % 4 = 1) := by
  constructor
  · simp only [payloadSamples, if_true]
    split_ifs <;> omega
  · simp only [payloadDangling, if_true]
    omega

/-- A payload that holds fewer samples than a window: the loop ends with
`ErrAudioTooShort`, or with `io.ErrUnexpectedEOF` when the payload ends inside
a first sample. -/
theorem wavLoop_short (numChannels bitsPerSample : Nat)
    (hbits : bitsPerSample = 8 ∨ bitsPerSample = 16) (fuel : Nat) (data : List Nat)
    (samples : List ℚ) (hfuel : data.length < fuel)
    (hcount : samples.length + payloadSamples numChannels bitsPerSample data.length
      < WindowSize) :
    wavLoop 1 numChannels bitsPerSample fuel data samples =
      some (.error (if payloadDangling numChannels bitsPerSample data.length
        then .ErrUnexpectedEOF else .ErrAudioTooShort)) := by
  induction fuel generalizing data samples with
  | zero => omega
  | succ fuel ih =>
    have hs : samples.length < WindowSize := by omega
    have hb : samples.length < sampleBudget := budget_of_short _ hs
    rw [wavLoop_succ, if_pos hb, if_pos rfl]
    rcases hbits with h8 | h16
    · subst h8
      rw [if_neg (by decide), if_pos rfl]
      by_cases hch : numChannels = 2
      · subst hch
        simp only [(payload_8_stereo _).1] at hcount ih
        simp only [if_neg (payload_8_stereo _).2] at ih ⊢
        match data, hfuel, hcount with
        | [], _, _ => simp [finishWAV_short samples hs]
        | [b], _, hcount =>
          have : (samples ++ [sample8 b]).length < WindowSize := by
            simp at hcount ⊢
            omega
          simp [finishWAV_short _ this]
        | b :: c :: rest, hfuel, hcount =>
          simp only [if_true]
          exact ih rest (samples ++ [sample8 b]) (by simp at hfuel; omega) (by
            simp at hcount ⊢
            omega)
      · simp only [(payload_8_mono _ _ hch).1] at hcount ih
        simp only [if_neg (payload_8_mono _ _ hch).2] at ih ⊢
        match data, hfuel, hcount with
        | [], _, _ => simp [finishWAV_short samples hs]
        | b :: rest, hfuel, hcount =>
          simp only [if_neg hch]
          exact ih rest (samples ++ [sample8 b]) (by simp at hfuel; omega) (by
            simp at hcount ⊢
            omega)
    · subst h16
      rw [if_pos rfl]
      by_cases hch : numChannels = 2
      · subst hch
        simp only [(payload_16_stereo _).1, (payload_16_stereo _).2] at hcount ih ⊢
        match data, hfuel, hcount with
        | [], _, _ => simp [finishWAV_short samples hs]
        | [b], _, _ => simp
        | [b0, b1], _, hcount =>
          have : (samples ++ [sample16 b0 b1]).length < WindowSize := by
            simp at hcount ⊢
            omega
          simp [finishWAV_short _ this]
        | [b0, b1, c], _, hcount =>
          have : (samples ++ [sample16 b0 b1]).length < WindowSize := by
            simp at hcount ⊢
            omega
          simp [finishWAV_short _ this]
        | b0 :: b1 :: c0 :: c1 :: rest, hfuel, hcount =>
          simp only [if_true]
          rw [ih rest (samples ++ [sample16 b0 b1]) (by simp at hfuel; omega) (by
            simp at hcount ⊢
            omega)]
          have e : (b0 :: b1 :: c0 :: c1 :: rest).length % 4 = rest.length % 4 := by
            simp only [List.length_cons]
            omega
          rw [e]
      · simp only [(payload_16_mono _ _ hch).1, (payload_16_mono _ _ hch).2] at hcount ih ⊢
        match data, hfuel, hcount with
        | [], _, _ => simp [finishWAV_short samples hs]
        | [b], _, _ => simp
        | b0 :: b1 :: rest, hfuel, hcount =>
          simp only [if_neg hch]
          rw [ih rest (samples ++ [sample16 b0 b1]) (by simp at hfuel; omega) (by
            simp at hcount ⊢
            omega)]
          have e : (b0 :: b1 :: rest).length % 2 = rest.length % 2 := by
            simp only [List.length_cons]
            omega
          rw [e]

/-- The header of a stream built by `wavHeader` is accepted and its three
fields are read back. -/
theorem decodeWAV_wavHeader (audioFormat numChannels bitsPerSample fuel : Nat)
    (payload : List Nat) :
    decodeWAV fuel (wavHeader audioFormat numChannels bitsPerSample ++ payload) =
      wavLoop audioFormat numChannels bitsPerSample fuel payload [] := by
  have e1 : audioFormat % 256 + 256 * (audioFormat / 256) = audioFormat := Nat.mod_add_div _ _
  have e2 : numChannels % 256 + 256 * (numChannels / 256) = numChannels := Nat.mod_add_div _ _
  have e3 : bitsPerSample % 256 + 256 * (bitsPerSample / 256) = bitsPerSample :=
    Nat.mod_add_div _ _
  simp [decodeWAV, wavHeader, riffTag, waveTag, uint16At, e1, e2, e3]

theorem finishWAV_ok (s res : List ℚ) (h : some (finishWAV s) = some (.ok res)) :
    s = res ∧ WindowSize ≤ res.length := by
  unfold finishWAV at h
  split_ifs at h with h1
  · simp at h
  · have e : s = res := by
      injection h with h
      injection h
    rw [← e]
    exact ⟨rfl, by omega⟩

/-- Whatever `decodeWAV`'s loop returns as samples is at least one window long. -/
theorem wavLoop_ok_length (audioFormat numChannels bitsPerSample fuel : Nat) (data : List Nat)
    (samples res : List ℚ)
    (h : wavLoop audioFormat numChannels bitsPerSample fuel data samples = some (.ok res)) :
    WindowSize ≤ res.length := by
  induction fuel generalizing data samples with
  | zero => simp [wavLoop] at h
  | succ fuel ih =>
    rw [wavLoop_succ] at h
    by_cases h1 : samples.length < sampleBudget
    · rw [if_pos h1] at h
      by_cases h2 : audioFormat = 1
      · rw [if_pos h2] at h
        by_cases h3 : bitsPerSample = 16
        · rw [if_pos h3] at h
          match data, h with
          | [], h => exact (finishWAV_ok _ _ h).2
          | [_], h => simp at h
          | b0 :: b1 :: rest, h =>
            by_cases h5 : numChannels = 2
            · simp only [if_pos h5] at h
              match rest, h with
              | [], h => exact (finishWAV_ok _ _ h).2
              | [_], h => exact (finishWAV_ok _ _ h).2
              | _ :: _ :: rest2, h => exact ih _ _ h
            · simp only [if_neg h5] at h
              exact ih _ _ h
        · rw [if_neg h3] at h
          by_cases h4 : bitsPerSample = 8
          · rw [if_pos h4] at h
            match data, h with
            | [], h => exact (finishWAV_ok _ _ h).2
            | b :: rest, h =>
              by_cases h5 : numChannels = 2
              · simp only [if_pos h5] at h
                match rest, h with
                | [], h => exact (finishWAV_ok _ _ h).2
                | _ :: rest2, h => exact ih _ _ h
              · simp only [if_neg h5] at h
                exact ih _ _ h
          · rw [if_neg h4] at h
            exact ih _ _ h
      · rw [if_neg h2] at h
        exact (finishWAV_ok _ _ h).2
    · rw [if_neg h1] at h
      exact (finishWAV_ok _ _ h).2

/-- A stream from which `decodeWAV` returns samples has a whole header with
both tags, and the samples are those of the loop on its payload. -/
theorem decodeWAV_ok (fuel : Nat) (data : List Nat) (res : List ℚ)
    (h : decodeWAV fuel data = some (.ok res)) :
    44 ≤ data.length ∧ data.take 4 = riffTag ∧ (data.drop 8).take 4 = waveTag ∧
      wavLoop (uint16At data 20) (uint16At data 22) (uint16At data 34) fuel (data.drop 44) []
        = some (.ok res) := by
  unfold decodeWAV at h
  by_cases h1 : data.length < 44
  · rw [if_pos h1] at h
    simp at h
  · rw [if_neg h1] at h
    by_cases h2 : data.take 4 ≠ riffTag ∨ (data.drop 8).take 4 ≠ waveTag
    · rw [if_pos h2] at h
      simp at h
    · rw [if_neg h2] at h
      push_neg at h2
      exact ⟨by omega, h2.1, h2.2, h⟩

/-- `decodeWAV` on a stream with a whole header and both tags is the loop on
the payload. -/
theorem decodeWAV_payload (fuel : Nat) (data : List Nat) (hlen : 44 ≤ data.length)
    (hriff : data.take 4 = riffTag) (hwave : (data.drop 8).take 4 = waveTag) :
    decodeWAV fuel data =
      wavLoop (uint16At data 20) (uint16At data 22) (uint16At data 34) fuel (data.drop 44) [] := by
  unfold decodeWAV
  rw [if_neg (by omega), if_neg (by simp [hriff, hwave])]

/-- The loop on 8-bit data with one sample per byte. -/
theorem wavLoop_mono8 (numChannels : Nat) (hch : numChannels ≠ 2) (fuel : Nat)
    (data : List Nat) (samples : List ℚ) (hfuel : data.length < fuel) :
    wavLoop 1 numChannels 8 fuel data samples =
      some (finishWAV (samples ++ (data.take (sampleBudget - samples.length)).map sample8)) := by
  induction fuel generalizing data samples with
  | zero => omega
  | succ fuel ih =>
    rw [wavLoop_succ]
    by_cases hb : samples.length < sampleBudget
    · rw [if_pos hb, if_pos rfl, if_neg (by decide), if_pos rfl]
      match data, hfuel with
      | [], _ => simp
      | b :: rest, hfuel =>
        simp only [if_neg hch]
        rw [ih rest (samples ++ [sample8 b]) (by simp at hfuel; omega)]
        have e : sampleBudget - samples.length = (sampleBudget - (samples ++ [sample8 b]).length) + 1 := by
          simp
          omega
        rw [e, List.take_succ_cons]
        simp
    · rw [if_neg hb]
      have e : sampleBudget - samples.length = 0 := by omega
      simp [e]

/-- The loop on 16-bit data with one sample per pair of bytes: what it returns
as samples is what it had, followed by the samples of the leading pairs. -/
theorem wavLoop_mono16 (numChannels : Nat) (hch : numChannels ≠ 2) (fuel : Nat)
    (data : List Nat) (samples res : List ℚ)
    (h : wavLoop 1 numChannels 16 fuel data samples = some (.ok res)) :
    ∃ m, res = samples ++ (List.range m).map fun k =>
      sample16 (data.getD (2 * k) 0) (data.getD (2 * k + 1) 0) := by
  induction fuel generalizing data samples with
  | zero => simp [wavLoop] at h
  | succ fuel ih =>
    rw [wavLoop_succ] at h
    by_cases h1 : samples.length < sampleBudget
    · rw [if_pos h1, if_pos rfl, if_pos rfl] at h
      match data, h with
      | [], h => exact ⟨0, by simp [(finishWAV_ok _ _ h).1]⟩
      | [_], h => simp at h
      | b0 :: b1 :: rest, h =>
        simp only [if_neg hch] at h
        obtain ⟨m, hm⟩ := ih _ _ h
        refine ⟨m + 1, ?_⟩
        rw [hm, List.range_succ_eq_map, List.map_cons, List.map_map, List.append_assoc]
        congr 1
    · rw [if_neg h1] at h
      exact ⟨0, by simp [(finishWAV_ok _ _ h).1]⟩

/-- The loop on 8-bit data with one sample per byte: what it returns as samples
is what it had, followed by the samples of the leading bytes. -/
theorem wavLoop_mono8_ok (numChannels : Nat) (hch : numChannels ≠ 2) (fuel : Nat)
    (data : List Nat) (samples res : List ℚ)
    (h : wavLoop 1 numChannels 8 fuel data samples = some (.ok res)) :
    ∃ m, res = samples ++ (List.range m).map fun k => sample8 (data.getD k 0) := by
  induction fuel generalizing data samples with
  | zero => simp [wavLoop] at h
  | succ fuel ih =>
    rw [wavLoop_succ] at h
    by_cases h1 : samples.length < sampleBudget
    · rw [if_pos h1, if_pos rfl, if_neg (by decide), if_pos rfl] at h
      match data, h with
      | [], h => exact ⟨0, by simp [(finishWAV_ok _ _ h).1]⟩
      | b :: rest, h =>
        simp only [if_neg hch] at h
        obtain ⟨m, hm⟩ := ih _ _ h
        refine ⟨m + 1, ?_⟩
        rw [hm, List.range_succ_eq_map, List.map_cons, List.map_map, List.append_assoc]
        congr 1
    · rw [if_neg h1] at h
      exact ⟨0, by simp [(finishWAV_ok _ _ h).1]⟩

/-- C11 fails for a short stream: twelve bytes that begin with "RIFF" and have
"XXXX" at bytes 8..11 make `decodeAudio` fail with `io.ErrUnexpectedEOF`
(the 44 header bytes cannot be read), not with `ErrInvalidWAV`. -/
theorem decodeAudio_short_riff :
    [82, 73, 70, 70, 0, 0, 0, 0, 88, 88, 88, 88].take 4 = riffTag ∧
      ([82, 73, 70, 70, 0, 0, 0, 0, 88, 88, 88, 88].drop 8).take 4 ≠ waveTag ∧
      decodeAudio (fun _ => .error .mp3) 1 [82, 73, 70, 70, 0, 0, 0, 0, 88, 88, 88, 88]
        = some (.error .ErrUnexpectedEOF) := by
  decide

/-- C11, amended: for every byte stream that begins with "RIFF" and does not
have "WAVE" at bytes 8..11, `decodeAudio` returns no samples; it fails with
`ErrInvalidWAV` when the stream has the 44 bytes of a header, and with
`io.ErrUnexpectedEOF` when it is shorter. -/
theorem decodeAudio_malformed_header (decodeMP3 : List Nat → Except DecodeError (List ℚ))
    (fuel : Nat) (data : List Nat) (hriff : data.take 4 = riffTag)
    (hwave : (data.drop 8).take 4 ≠ waveTag) :
    decodeAudio decodeMP3 fuel data =
      some (.error (if data.length < 44 then .ErrUnexpectedEOF else .ErrInvalidWAV)) := by
  have hlen : 4 ≤ data.length := by
    have h := congrArg List.length hriff
    rw [List.length_take] at h
    simp [riffTag] at h
    omega
  have hne : data ≠ [] := by
    intro h
    rw [h] at hlen
    simp at hlen
  have hbuf : (data.take 12 ++ List.replicate (12 - (data.take 12).length) 0).take 4
      = riffTag := by
    rw [List.take_append_of_le_length (by rw [List.length_take]; omega), List.take_take]
    exact hriff
  unfold decodeAudio
  rw [if_neg hne, if_pos hbuf]
  unfold decodeWAV
  by_cases h44 : data.length < 44
  · rw [if_pos h44, if_pos h44, if_neg hne]
  · rw [if_neg h44, if_neg h44, if_pos (Or.inr hwave)]

/-- C11 amended, at a 44-byte stream with "RIFF" and without "WAVE". -/
theorem decodeAudio_malformed_header_witness :
    (riffTag ++ List.replicate 40 0).take 4 = riffTag ∧
      ((riffTag ++ List.replicate 40 0).drop 8).take 4 ≠ waveTag ∧
      decodeAudio (fun _ => .error .mp3) 5 (riffTag ++ List.replicate 40 0) =
        some (.error (if (riffTag ++ List.replicate 40 0).length < 44
          then .ErrUnexpectedEOF else .ErrInvalidWAV)) :=
  ⟨by decide, by decide,
    decodeAudio_malformed_header (fun _ => .error .mp3) 5 (riffTag ++ List.replicate 40 0)
      (by decide) (by decide)⟩

/-- C12 fails when 16-bit data ends inside a sample: a valid mono 16-bit header
followed by one data byte (no whole sample) makes `decodeWAV` return
`io.ErrUnexpectedEOF`, not `ErrAudioTooShort`. -/
theorem decodeWAV_dangling_byte :
    uint16At (wavHeader 1 1 16 ++ [7]) 20 = 1 ∧ uint16At (wavHeader 1 1 16 ++ [7]) 22 = 1 ∧
      uint16At (wavHeader 1 1 16 ++ [7]) 34 = 16 ∧
      payloadSamples 1 16 ((wavHeader 1 1 16 ++ [7]).length - 44) = 0 ∧
      decodeWAV 2 (wavHeader 1 1 16 ++ [7]) = some (.error .ErrUnexpectedEOF) := by
  decide

/-- C12, amended: for every RIFF/WAVE stream with a 44-byte header of audio
format 1 and bit depth 8 or 16 whose payload holds fewer than `WindowSize`
samples, `decodeWAV` (given more iterations than payload bytes) returns no
samples: it fails with `ErrAudioTooShort`, or with `io.ErrUnexpectedEOF` when
the payload ends inside the first sample of a frame; and whenever `decodeWAV`
returns samples, there are at least `WindowSize` of them. -/
theorem decodeWAV_too_short (fuel : Nat) (data : List Nat) (hlen : 44 ≤ data.length)
    (hriff : data.take 4 = riffTag) (hwave : (data.drop 8).take 4 = waveTag)
    (hfmt : uint16At data 20 = 1)
    (hbits : uint16At data 34 = 8 ∨ uint16At data 34 = 16)
    (hfuel : data.length - 44 < fuel)
    (hcount : payloadSamples (uint16At data 22) (uint16At data 34) (data.length - 44)
      < WindowSize) :
    decodeWAV fuel data =
        some (.error (if payloadDangling (uint16At data 22) (uint16At data 34)
          (data.length - 44) then .ErrUnexpectedEOF else .ErrAudioTooShort)) ∧
      ∀ (fuel2 : Nat) (data2 : List Nat) (res : List ℚ),
        decodeWAV fuel2 data2 = some (.ok res) → WindowSize ≤ res.length := by
  constructor
  · rw [decodeWAV_payload fuel data hlen hriff hwave, hfmt]
    have hd : (data.drop 44).length = data.length - 44 := List.length_drop 44 data
    have h := wavLoop_short (uint16At data 22) (uint16At data 34) hbits fuel (data.drop 44) []
      (by rw [hd]; exact hfuel) (by rw [hd]; simpa using hcount)
    rw [hd] at h
    exact h
  · intro fuel2 data2 res h
    exact wavLoop_ok_length _ _ _ _ _ _ _ (decodeWAV_ok fuel2 data2 res h).2.2.2

/-- C12 amended, at a stereo 16-bit stream with seven payload bytes (two
samples). -/
theorem decodeWAV_too_short_witness :
    44 ≤ (wavHeader 1 2 16 ++ [1, 2, 3, 4, 5, 6, 7]).length ∧
      payloadSamples (uint16At (wavHeader 1 2 16 ++ [1, 2, 3, 4, 5, 6, 7]) 22)
        (uint16At (wavHeader 1 2 16 ++ [1, 2, 3, 4, 5, 6, 7]) 34)
        ((wavHeader 1 2 16 ++ [1, 2, 3, 4, 5, 6, 7]).length - 44) < WindowSize ∧
      decodeWAV 8 (wavHeader 1 2 16 ++ [1, 2, 3, 4, 5, 6, 7]) =
        some (.error (if payloadDangling (uint16At (wavHeader 1 2 16 ++ [1, 2, 3, 4, 5, 6, 7]) 22)
          (uint16At (wavHeader 1 2 16 ++ [1, 2, 3, 4, 5, 6, 7]) 34)
          ((wavHeader 1 2 16 ++ [1, 2, 3, 4, 5, 6, 7]).length - 44)
          then .ErrUnexpectedEOF else .ErrAudioTooShort)) :=
  ⟨by decide, by decide,
    (decodeWAV_too_short 8 (wavHeader 1 2 16 ++ [1, 2, 3, 4, 5, 6, 7]) (by decide) (by decide)
      (by decide) (by decide) (by decide) (by decide) (by decide)).1⟩

/-- C13 fails for an unsupported audio format: a RIFF/WAVE header with audio
format 3 makes `decodeWAV` fail with `ErrAudioTooShort`, not with
`ErrInvalidWAV`. -/
theorem decodeWAV_format_three :
    (wavHeader 3 1 16 ++ [0, 0, 0, 0]).take 4 = riffTag ∧
      ((wavHeader 3 1 16 ++ [0, 0, 0, 0]).drop 8).take 4 = waveTag ∧
      uint16At (wavHeader 3 1 16 ++ [0, 0, 0, 0]) 20 = 3 ∧
      decodeWAV 1 (wavHeader 3 1 16 ++ [0, 0, 0, 0]) = some (.error .ErrAudioTooShort) := by
  decide

/-- C13, amended: for every RIFF/WAVE stream with a 44-byte header whose
audio-format field is not 1, `decodeWAV` fails with `ErrAudioTooShort` and
returns no samples. -/
theorem decodeWAV_unsupported_format (fuel : Nat) (data : List Nat) (hlen : 44 ≤ data.length)
    (hriff : data.take 4 = riffTag) (hwave : (data.drop 8).take 4 = waveTag)
    (hfmt : uint16At data 20 ≠ 1) (hfuel : 0 < fuel) :
    decodeWAV fuel data = some (.error .ErrAudioTooShort) := by
  rw [decodeWAV_payload fuel data hlen hriff hwave]
  obtain ⟨n, rfl⟩ : ∃ n, fuel = n + 1 := ⟨fuel - 1, by omega⟩
  rw [wavLoop_succ]
  have hb : ([] : List ℚ).length < sampleBudget := by
    simp [sampleBudget, SampleRate, MaxDurationSec]
  rw [if_pos hb, if_neg hfmt]
  rfl

/-- C13 amended, at a header with audio format 3. -/
theorem decodeWAV_unsupported_format_witness :
    44 ≤ (wavHeader 3 1 16 ++ [0, 0, 0, 0]).length ∧
      uint16At (wavHeader 3 1 16 ++ [0, 0, 0, 0]) 20 ≠ 1 ∧
      decodeWAV 1 (wavHeader 3 1 16 ++ [0, 0, 0, 0]) = some (.error .ErrAudioTooShort) :=
  ⟨by decide, by decide,
    decodeWAV_unsupported_format 1 (wavHeader 3 1 16 ++ [0, 0, 0, 0]) (by decide) (by decide)
      (by decide) (by decide) (by decide)⟩

/-- With audio format 1 and a bit depth other than 8 and 16 an iteration of the
loop reads nothing and appends nothing: the loop does not end. -/
theorem wavLoop_stuck (numChannels bitsPerSample : Nat) (h8 : bitsPerSample ≠ 8)
    (h16 : bitsPerSample ≠ 16) (fuel : Nat) (data : List Nat) (samples : List ℚ)
    (hb : samples.length < sampleBudget) :
    wavLoop 1 numChannels bitsPerSample fuel data samples = none := by
  induction fuel with
  | zero => rfl
  | succ fuel ih =>
    rw [wavLoop_succ, if_pos hb, if_pos rfl, if_neg h16, if_neg h8]
    exact ih

theorem sample16_range (b0 b1 : Nat) (h0 : b0 < 256) (h1 : b1 < 256) :
    -1 ≤ sample16 b0 b1 ∧ sample16 b0 b1 ≤ 1 := by
  have hlo : (-32768 : Int) ≤ int16LE b0 b1 := by
    unfold int16LE
    split_ifs <;> omega
  have hhi : int16LE b0 b1 ≤ (32767 : Int) := by
    unfold int16LE
    split_ifs <;> omega
  have hlo2 : (-32768 : ℚ) ≤ ((int16LE b0 b1 : Int) : ℚ) := by exact_mod_cast hlo
  have hhi2 : ((int16LE b0 b1 : Int) : ℚ) ≤ 32767 := by exact_mod_cast hhi
  unfold sample16
  constructor
  · rw [le_div_iff₀ (by norm_num)]
    linarith
  · rw [div_le_iff₀ (by norm_num)]
    linarith

theorem sample8_range (b : Nat) (h : b < 256) : -1 ≤ sample8 b ∧ sample8 b ≤ 1 := by
  have h2 : (b : ℚ) ≤ 255 := by exact_mod_cast (by omega : b ≤ 255)
  have h3 : (0 : ℚ) ≤ (b : ℚ) := Nat.cast_nonneg b
  unfold sample8
  constructor
  · rw [le_div_iff₀ (by norm_num)]
    linarith
  · rw [div_le_iff₀ (by norm_num)]
    linarith

theorem getD_lt_256 (data : List Nat) (hbytes : ∀ b ∈ data, b < 256) (i : Nat) :
    data.getD i 0 < 256 := by
  rw [List.getD_eq_getElem?_getD]
  cases h : data[i]? with
  | none => simp
  | some b => exact hbytes b (List.getElem?_mem h)

theorem getD_drop (data : List Nat) (n i : Nat) :
    (data.drop n).getD i 0 = data.getD (n + i) 0 := by
  rw [List.getD_eq_getElem?_getD, List.getD_eq_getElem?_getD, List.getElem?_drop]

theorem getD_map_range (f : Nat → ℚ) (m k : Nat) (hk : k < m) :
    ((List.range m).map f).getD k 0 = f k := by
  rw [List.getD_eq_getElem?_getD, List.getElem?_map, List.getElem?_range hk]
  rfl

/-- The `int16` read from two little-endian bytes is the two's-complement
reading of the 16-bit word `b0 + 256 * b1`: the one integer in
`[-32768, 32767]` that differs from the word by a multiple of 65536. -/
theorem int16LE_spec (b0 b1 : Nat) (h0 : b0 < 256) (h1 : b1 < 256) :
    -32768 ≤ int16LE b0 b1 ∧ int16LE b0 b1 ≤ 32767 ∧
      (int16LE b0 b1 - ((b0 : Int) + 256 * (b1 : Int))) % 65536 = 0 := by
  unfold int16LE
  split_ifs with h
  · refine ⟨by omega, by omega, ?_⟩
    have e : ((b0 + 256 * b1 : Nat) : Int) - ((b0 : Int) + 256 * (b1 : Int)) = 0 := by
      push_cast
      ring
    rw [e]
    rfl
  · refine ⟨by omega, by omega, ?_⟩
    have e : ((b0 + 256 * b1 : Nat) : Int) - 65536 - ((b0 : Int) + 256 * (b1 : Int)) =
        -65536 := by
      push_cast
      ring
    rw [e]
    rfl

/-- C14: for every PCM stream that `decodeWAV` accepts and that is not marked
as two-channel (a mono stream), the `k`-th output sample is `raw_k / 32768`
for 16-bit data, where `raw_k` is the signed (two's-complement) reading of the
`k`-th little-endian byte pair `b0 + 256·b1` of the payload, the integer in
`[-32768, 32767]` congruent to it modulo 65536; it is `(raw_k - 128) / 128`
for 8-bit unsigned data, where `raw_k` is the `k`-th payload byte; and every
output sample lies in `[-1, 1]`. -/
theorem decodeWAV_normalized (fuel : Nat) (data : List Nat) (res : List ℚ)
    (hbytes : ∀ b ∈ data, b < 256) (hch : uint16At data 22 ≠ 2)
    (hok : decodeWAV fuel data = some (.ok res)) :
    (uint16At data 34 = 16 → ∀ k, k < res.length →
      ∃ raw : Int, -32768 ≤ raw ∧ raw ≤ 32767 ∧
        (raw - ((data.getD (44 + 2 * k) 0 : Int) +
          256 * (data.getD (44 + 2 * k + 1) 0 : Int))) % 65536 = 0 ∧
        res.getD k 0 = (raw : ℚ) / 32768) ∧
    (uint16At data 34 = 8 → ∀ k, k < res.length →
      res.getD k 0 = ((data.getD (44 + k) 0 : ℚ) - 128) / 128) ∧
    (∀ x ∈ res, -1 ≤ x ∧ x ≤ 1) := by
  obtain ⟨_, _, _, hloop⟩ := decodeWAV_ok fuel data res hok
  have hfuel : fuel ≠ 0 := by
    intro h0
    rw [h0] at hloop
    simp [wavLoop] at hloop
  obtain ⟨n, rfl⟩ : ∃ n, fuel = n + 1 := ⟨fuel - 1, by omega⟩
  have hb : ([] : List ℚ).length < sampleBudget := by
    simp [sampleBudget, SampleRate, MaxDurationSec]
  have hfmt : uint16At data 20 = 1 := by
    by_contra hne
    rw [wavLoop_succ, if_pos hb, if_neg hne] at hloop
    simp [finishWAV, WindowSize] at hloop
  rw [hfmt] at hloop
  have h16 : uint16At data 34 = 16 → ∃ m, res = (List.range m).map fun k =>
      sample16 (data.getD (44 + 2 * k) 0) (data.getD (44 + 2 * k + 1) 0) := by
    intro hbits
    rw [hbits] at hloop
    obtain ⟨m, hm⟩ := wavLoop_mono16 _ hch _ _ _ _ hloop
    refine ⟨m, ?_⟩
    rw [hm, List.nil_append]
    apply List.map_congr_left
    intro k _
    rw [getD_drop, getD_drop, Nat.add_assoc]
  have h8 : uint16At data 34 = 8 → ∃ m, res = (List.range m).map fun k =>
      sample8 (data.getD (44 + k) 0) := by
    intro hbits
    rw [hbits] at hloop
    obtain ⟨m, hm⟩ := wavLoop_mono8_ok _ hch _ _ _ _ hloop
    refine ⟨m, ?_⟩
    rw [hm, List.nil_append]
    apply List.map_congr_left
    intro k _
    rw [getD_drop]
  refine ⟨?_, ?_, ?_⟩
  · intro hbits k hk
    obtain ⟨m, hm⟩ := h16 hbits
    rw [hm, List.length_map, List.length_range] at hk
    obtain ⟨hlo, hhi, hcong⟩ := int16LE_spec (data.getD (44 + 2 * k) 0)
      (data.getD (44 + 2 * k + 1) 0) (getD_lt_256 data hbytes _) (getD_lt_256 data hbytes _)
    refine ⟨int16LE (data.getD (44 + 2 * k) 0) (data.getD (44 + 2 * k + 1) 0), hlo, hhi,
      hcong, ?_⟩
    rw [hm, getD_map_range _ m k hk]
    rfl
  · intro hbits k hk
    obtain ⟨m, hm⟩ := h8 hbits
    rw [hm, List.length_map, List.length_range] at hk
    rw [hm, getD_map_range _ m k hk]
    rfl
  · intro x hx
    by_cases hbits16 : uint16At data 34 = 16
    · obtain ⟨m, hm⟩ := h16 hbits16
      rw [hm] at hx
      obtain ⟨k, _, rfl⟩ := List.mem_map.mp hx
      exact sample16_range _ _ (getD_lt_256 data hbytes _) (getD_lt_256 data hbytes _)
    · by_cases hbits8 : uint16At data 34 = 8
      · obtain ⟨m, hm⟩ := h8 hbits8
        rw [hm] at hx
        obtain ⟨k, _, rfl⟩ := List.mem_map.mp hx
        exact sample8_range _ (getD_lt_256 data hbytes _)
      · rw [wavLoop_stuck _ _ hbits8 hbits16 _ _ _ hb] at hloop
        simp at hloop

/-- The loop on an 8-bit mono payload of `n` bytes of value 128, `n` at least a
window: `n` zeros, cut at the sample budget. -/
theorem decodeWAV_mono8_silence (fuel n : Nat) (hfuel : n < fuel) (hn : WindowSize ≤ n) :
    decodeWAV fuel (wavHeader 1 1 8 ++ List.replicate n 128)
      = some (.ok (List.replicate (min sampleBudget n) 0)) := by
  rw [decodeWAV_wavHeader, wavLoop_mono8 1 (by decide) fuel _ []
    (by rw [List.length_replicate]; exact hfuel)]
  have e : sample8 128 = 0 := by norm_num [sample8]
  have hb : sampleBudget - ([] : List ℚ).length = sampleBudget := Nat.sub_zero _
  rw [hb, List.take_replicate, List.map_replicate, e, List.nil_append, finishWAV_long]
  rw [List.length_replicate]
  have h2 : WindowSize ≤ sampleBudget := by decide
  exact le_min h2 hn

theorem wavHeader_mono8_bytes : ∀ b ∈ wavHeader 1 1 8, b < 256 := by
  unfold wavHeader riffTag waveTag
  simp

/-- The loop on a 16-bit mono payload of `n` equal byte pairs within the
budget: `n` times the sample of the pair. -/
theorem wavLoop_mono16_pairs (b0 b1 n : Nat) (fuel : Nat) (samples : List ℚ)
    (hfuel : n < fuel) (hbudget : samples.length + n ≤ sampleBudget) :
    wavLoop 1 1 16 fuel (List.replicate n [b0, b1]).flatten samples =
      some (finishWAV (samples ++ List.replicate n (sample16 b0 b1))) := by
  induction n generalizing fuel samples with
  | zero =>
    obtain ⟨f, rfl⟩ : ∃ f, fuel = f + 1 := ⟨fuel - 1, by omega⟩
    rw [wavLoop_succ, List.replicate_zero, List.flatten_nil, List.replicate_zero, List.append_nil,
      if_pos rfl, if_pos rfl]
    split_ifs <;> rfl
  | succ n ih =>
    obtain ⟨f, rfl⟩ : ∃ f, fuel = f + 1 := ⟨fuel - 1, by omega⟩
    have hb : samples.length < sampleBudget := by omega
    rw [wavLoop_succ, if_pos hb, if_pos rfl, if_pos rfl, List.replicate_succ, List.flatten_cons]
    show (if (1 : Nat) = 2 then _ else
      wavLoop 1 1 16 f (List.replicate n [b0, b1]).flatten (samples ++ [sample16 b0 b1])) = _
    rw [if_neg (by decide), ih f (samples ++ [sample16 b0 b1]) (by omega)
      (by rw [List.length_append, List.length_singleton]; omega), List.append_assoc,
      List.singleton_append, ← List.replicate_succ]

/-- The 16-bit mono stream of `n` byte pairs `00 80`, `n` at least a window and
at most the budget, decodes to `n` samples of value -1. -/
theorem decodeWAV_mono16_floor (fuel n : Nat) (hfuel : n < fuel) (hn : WindowSize ≤ n)
    (hbudget : n ≤ sampleBudget) :
    decodeWAV fuel (wavHeader 1 1 16 ++ (List.replicate n [0, 128]).flatten)
      = some (.ok (List.replicate n (-1))) := by
  have e : sample16 0 128 = -1 := by norm_num [sample16, int16LE]
  rw [decodeWAV_wavHeader, wavLoop_mono16_pairs 0 128 n fuel [] hfuel
    (by rw [List.length_nil, Nat.zero_add]; exact hbudget), e, List.nil_append, finishWAV_long]
  rw [List.length_replicate]
  exact hn

theorem wavHeader_mono16_bytes : ∀ b ∈ wavHeader 1 1 16, b < 256 := by
  unfold wavHeader riffTag waveTag
  simp

/-- C14 at the mono 8-bit stream of 2048 bytes of value 128, which decodes to
2048 samples of value 0, and at the mono 16-bit stream of 2048 byte pairs
`00 80` (the word 0x8000, read as -32768), which decodes to 2048 samples of
value -1. -/
theorem decodeWAV_normalized_witness :
    ((∀ b ∈ wavHeader 1 1 8 ++ List.replicate 2048 128, b < 256) ∧
      uint16At (wavHeader 1 1 8 ++ List.replicate 2048 128) 22 ≠ 2 ∧
      uint16At (wavHeader 1 1 8 ++ List.replicate 2048 128) 34 = 8 ∧
      decodeWAV 2049 (wavHeader 1 1 8 ++ List.replicate 2048 128)
        = some (.ok (List.replicate 2048 0)) ∧
      (∀ k, k < (List.replicate 2048 (0 : ℚ)).length →
          (List.replicate 2048 (0 : ℚ)).getD k 0 =
            (((wavHeader 1 1 8 ++ List.replicate 2048 128).getD (44 + k) 0 : ℚ) - 128) / 128) ∧
      (∀ x ∈ List.replicate 2048 (0 : ℚ), -1 ≤ x ∧ x ≤ 1)) ∧
    ((∀ b ∈ wavHeader 1 1 16 ++ (List.replicate 2048 [0, 128]).flatten, b < 256) ∧
      uint16At (wavHeader 1 1 16 ++ (List.replicate 2048 [0, 128]).flatten) 22 ≠ 2 ∧
      uint16At (wavHeader 1 1 16 ++ (List.replicate 2048 [0, 128]).flatten) 34 = 16 ∧
      decodeWAV 2049 (wavHeader 1 1 16 ++ (List.replicate 2048 [0, 128]).flatten)
        = some (.ok (List.replicate 2048 (-1))) ∧
      (∀ k, k < (List.replicate 2048 (-1 : ℚ)).length →
        ∃ raw : Int, -32768 ≤ raw ∧ raw ≤ 32767 ∧
          (raw - (((wavHeader 1 1 16 ++ (List.replicate 2048 [0, 128]).flatten).getD
              (44 + 2 * k) 0 : Int) +
            256 * ((wavHeader 1 1 16 ++ (List.replicate 2048 [0, 128]).flatten).getD
              (44 + 2 * k + 1) 0 : Int))) % 65536 = 0 ∧
          (List.replicate 2048 (-1 : ℚ)).getD k 0 = (raw : ℚ) / 32768) ∧
      (∀ x ∈ List.replicate 2048 (-1 : ℚ), -1 ≤ x ∧ x ≤ 1)) :=
  have hbytes8 : ∀ b ∈ wavHeader 1 1 8 ++ List.replicate 2048 128, b < 256 := by
    intro b hb
    rcases List.mem_append.mp hb with h | h
    · exact wavHeader_mono8_bytes b h
    · rw [(List.mem_replicate.mp h).2]
      decide
  have hfield : ∀ (bits i v : Nat) (payload : List Nat), i + 1 < 44 →
      uint16At (wavHeader 1 1 bits) i = v →
      uint16At (wavHeader 1 1 bits ++ payload) i = v := by
    intro bits i v payload hi hv
    have hl : (wavHeader 1 1 bits).length = 44 := rfl
    unfold uint16At at hv ⊢
    rw [List.getD_append _ _ _ _ (by omega), List.getD_append _ _ _ _ (by omega)]
    exact hv
  have hch8 : uint16At (wavHeader 1 1 8 ++ List.replicate 2048 128) 22 ≠ 2 := by
    rw [hfield 8 22 1 _ (by decide) (by decide)]
    decide
  have hbits8 : uint16At (wavHeader 1 1 8 ++ List.replicate 2048 128) 34 = 8 :=
    hfield 8 34 8 _ (by decide) (by decide)
  have hok8 : decodeWAV 2049 (wavHeader 1 1 8 ++ List.replicate 2048 128)
      = some (.ok (List.replicate 2048 0)) := by
    have h := decodeWAV_mono8_silence 2049 2048 (by decide) (by decide)
    have e : min sampleBudget 2048 = 2048 := by decide
    rw [e] at h
    exact h
  have h8 := decodeWAV_normalized 2049 (wavHeader 1 1 8 ++ List.replicate 2048 128)
    (List.replicate 2048 0) hbytes8 hch8 hok8
  have hbytes16 : ∀ b ∈ wavHeader 1 1 16 ++ (List.replicate 2048 [0, 128]).flatten,
      b < 256 := by
    intro b hb
    rcases List.mem_append.mp hb with h | h
    · exact wavHeader_mono16_bytes b h
    · obtain ⟨l, hl, hbl⟩ := List.mem_flatten.mp h
      rw [(List.mem_replicate.mp hl).2] at hbl
      rcases List.mem_cons.mp hbl with h0 | h1
      · rw [h0]
        decide
      · rw [List.mem_singleton.mp h1]
        decide
  have hch16 : uint16At (wavHeader 1 1 16 ++ (List.replicate 2048 [0, 128]).flatten) 22 ≠ 2 := by
    rw [hfield 16 22 1 _ (by decide) (by decide)]
    decide
  have hbits16 : uint16At (wavHeader 1 1 16 ++ (List.replicate 2048 [0, 128]).flatten) 34 = 16 :=
    hfield 16 34 16 _ (by decide) (by decide)
  have hok16 : decodeWAV 2049 (wavHeader 1 1 16 ++ (List.replicate 2048 [0, 128]).flatten)
      = some (.ok (List.replicate 2048 (-1))) :=
    decodeWAV_mono16_floor 2049 2048 (by decide) (by decide) (by decide)
  have h16 := decodeWAV_normalized 2049
    (wavHeader 1 1 16 ++ (List.replicate 2048 [0, 128]).flatten)
    (List.replicate 2048 (-1)) hbytes16 hch16 hok16
  ⟨⟨hbytes8, hch8, hbits8, hok8, h8.2.1 hbits8, h8.2.2⟩,
    ⟨hbytes16, hch16, hbits16, hok16, h16.1 hbits16, h16.2.2⟩⟩

/-- C15 fails on the code: a mono 8-bit stream of 900000 payload bytes (more
than 20 seconds at 44100 samples per second) is cut at 882000 samples, twice
the `SampleRate * MaxDurationSec = 441000` that the maximum duration allows. -/
theorem decodeWAV_budget_twice :
    decodeWAV 900001 (wavHeader 1 1 8 ++ List.replicate 900000 128)
        = some (.ok (List.replicate 882000 0)) ∧
      SampleRate * MaxDurationSec = 441000 ∧
      (List.replicate 882000 (0 : ℚ)).length = 882000 := by
  refine ⟨?_, by decide, List.length_replicate _ _⟩
  have h := decodeWAV_mono8_silence 900001 900000 (by decide) (by decide)
  have e : min sampleBudget 900000 = 882000 := by decide
  rw [e] at h
  exact h

/-! ## float64 rounding -/

theorem log2Floor_spec (fuel n : Nat) (h1 : 1 ≤ n) (hf : n ≤ fuel) :
    2 ^ log2Floor fuel n ≤ n ∧ n < 2 ^ (log2Floor fuel n + 1) := by
  induction fuel generalizing n with
  | zero => omega
  | succ fuel ih =>
    rw [log2Floor]
    split_ifs with h2
    · obtain ⟨ha, hb⟩ := ih (n / 2) (by omega) (by omega)
      rw [pow_succ] at hb ⊢
      rw [pow_succ, pow_succ]
      omega
    · rw [pow_zero, Nat.zero_add, pow_one]
      omega

/-- The rounded quotient is within one half of the quotient. -/
theorem roundHalfEven_spec (n d : Nat) (hd : 0 < d) :
    2 * (roundHalfEven n d * d) ≤ 2 * n + d ∧ 2 * n ≤ 2 * (roundHalfEven n d * d) + d := by
  have hdiv := Nat.div_add_mod n d
  have hmod := Nat.mod_lt n hd
  have hmul : d * (n / d) = n / d * d := Nat.mul_comm _ _
  have hsucc : (n / d + 1) * d = n / d * d + d := Nat.succ_mul _ _
  unfold roundHalfEven
  simp only
  split_ifs with c1 c2 c3
  · omega
  · rw [hsucc]
    omega
  · omega
  · rw [hsucc]
    omega

/-- Rounding a quotient that lies between `2 ^ 52` and `2 ^ 53` gives a
significand between `2 ^ 52` and `2 ^ 53` within one half of it. -/
theorem roundHalfEven_significand (n d : Nat) (hd : 0 < d)
    (hlo : (2 : ℚ) ^ 52 ≤ (n : ℚ) / d) (hhi : (n : ℚ) / d < 2 ^ 53) :
    2 ^ 52 ≤ roundHalfEven n d ∧ roundHalfEven n d ≤ 2 ^ 53 ∧
      |((roundHalfEven n d : Nat) : ℚ) - (n : ℚ) / d| ≤ 1 / 2 := by
  obtain ⟨h1, h2⟩ := roundHalfEven_spec n d hd
  have hdq : (0 : ℚ) < (d : ℚ) := by exact_mod_cast hd
  have h1q : 2 * (((roundHalfEven n d : Nat) : ℚ) * d) ≤ 2 * (n : ℚ) + d := by
    exact_mod_cast h1
  have h2q : 2 * (n : ℚ) ≤ 2 * (((roundHalfEven n d : Nat) : ℚ) * d) + d := by
    exact_mod_cast h2
  have hn : (n : ℚ) = (n : ℚ) / d * d := by field_simp
  generalize (n : ℚ) / d = y at hlo hhi hn ⊢
  rw [hn] at h1q h2q
  have hup : ((roundHalfEven n d : Nat) : ℚ) ≤ y + 1 / 2 := by
    have : 2 * ((roundHalfEven n d : Nat) : ℚ) * d ≤ (2 * y + 1) * d := by nlinarith
    have := le_of_mul_le_mul_right this hdq
    linarith
  have hdown : y ≤ ((roundHalfEven n d : Nat) : ℚ) + 1 / 2 := by
    have : 2 * y * d ≤ (2 * ((roundHalfEven n d : Nat) : ℚ) + 1) * d := by nlinarith
    have := le_of_mul_le_mul_right this hdq
    linarith
  refine ⟨?_, ?_, abs_le.mpr ⟨by linarith, by linarith⟩⟩
  · by_contra hcon
    have h3 : roundHalfEven n d + 1 ≤ 2 ^ 52 := by omega
    have h4 : ((roundHalfEven n d : Nat) : ℚ) + 1 ≤ 2 ^ 52 := by exact_mod_cast h3
    linarith
  · by_contra hcon
    have h3 : 2 ^ 53 + 1 ≤ roundHalfEven n d := by omega
    have h4 : (2 : ℚ) ^ 53 + 1 ≤ ((roundHalfEven n d : Nat) : ℚ) := by exact_mod_cast h3
    linarith

/-- `float64Round` rounds to nearest at 53 bits: for a positive `x` with
`2 ^ e ≤ x < 2 ^ (e + 1)` the result is `m * 2 ^ (e - 52)` with a significand
`m` between `2 ^ 52` and `2 ^ 53`, and it differs from `x` by at most half a
unit in the last place, `2 ^ (e - 53)`. -/
theorem float64Round_nearest (x : ℚ) (hx : 0 < x) :
    ∃ (e : Int) (m : Nat), (2 : ℚ) ^ e ≤ x ∧ x < (2 : ℚ) ^ (e + 1) ∧
      2 ^ 52 ≤ m ∧ m ≤ 2 ^ 53 ∧ float64Round x = (m : ℚ) * (2 : ℚ) ^ (e - 52) ∧
      |float64Round x - x| ≤ (2 : ℚ) ^ (e - 53) := by
  have hnum : 0 < x.num := Rat.num_pos.mpr hx
  have hn1 : 1 ≤ x.num.natAbs := by omega
  have hd1 : 1 ≤ x.den := x.den_pos
  have hxn : x = (x.num.natAbs : ℚ) / (x.den : ℚ) := by
    have h := Rat.num_div_den x
    have hc : ((x.num.natAbs : Nat) : ℚ) = ((x.num : Int) : ℚ) := by
      have h1 : ((x.num.natAbs : Nat) : Int) = x.num := Int.natAbs_of_nonneg (le_of_lt hnum)
      rw [← Int.cast_natCast, h1]
    rw [hc]
    exact h.symm
  obtain ⟨hk1, hk2⟩ := log2Floor_spec x.num.natAbs x.num.natAbs hn1 (le_refl _)
  obtain ⟨hl1, hl2⟩ := log2Floor_spec x.den x.den hd1 (le_refl _)
  unfold float64Round
  rw [if_neg (ne_of_gt hnum)]
  simp only
  rw [if_neg (not_lt.mpr (le_of_lt hx))]
  generalize x.num.natAbs = n at hn1 hxn hk1 hk2 ⊢
  generalize x.den = d at hd1 hxn hl1 hl2 ⊢
  generalize log2Floor n n = k at hk1 hk2 ⊢
  generalize log2Floor d d = l at hl1 hl2 ⊢
  have hnq : (0 : ℚ) < (n : ℚ) := by exact_mod_cast hn1
  have hdq : (0 : ℚ) < (d : ℚ) := by exact_mod_cast hd1
  have hA : (0 : ℚ) < (2 : ℚ) ^ k := by positivity
  have hB : (0 : ℚ) < (2 : ℚ) ^ l := by positivity
  have hk1q : (2 : ℚ) ^ k ≤ (n : ℚ) := by exact_mod_cast hk1
  have hk2q : (n : ℚ) < (2 : ℚ) ^ k * 2 := by
    have : n < 2 ^ k * 2 := by rw [← pow_succ]; exact hk2
    exact_mod_cast this
  have hl1q : (2 : ℚ) ^ l ≤ (d : ℚ) := by exact_mod_cast hl1
  have hl2q : (d : ℚ) < (2 : ℚ) ^ l * 2 := by
    have : d < 2 ^ l * 2 := by rw [← pow_succ]; exact hl2
    exact_mod_cast this
  have hkl : (2 : ℚ) ^ ((k : Int) - (l : Int)) = (2 : ℚ) ^ k / (2 : ℚ) ^ l := by
    rw [zpow_sub₀ two_ne_zero, zpow_natCast, zpow_natCast]
  -- the exponent and the bracket
  obtain ⟨e, he, hlo, hhi⟩ : ∃ e : Int,
      e = (k : Int) - (l : Int) - (if n * 2 ^ l < d * 2 ^ k then 1 else 0) ∧
      (2 : ℚ) ^ e ≤ x ∧ x < (2 : ℚ) ^ (e + 1) := by
    refine ⟨_, rfl, ?_⟩
    by_cases c : n * 2 ^ l < d * 2 ^ k
    · have cq : (n : ℚ) * (2 : ℚ) ^ l < (d : ℚ) * (2 : ℚ) ^ k := by exact_mod_cast c
      rw [if_pos c, sub_add_cancel, zpow_sub₀ two_ne_zero, hkl, zpow_one, hxn]
      constructor
      · rw [div_div, div_le_div_iff₀ (by positivity) hdq]
        nlinarith
      · rw [div_lt_div_iff₀ hdq hB]
        linarith
    · have cq : (d : ℚ) * (2 : ℚ) ^ k ≤ (n : ℚ) * (2 : ℚ) ^ l := by
        exact_mod_cast not_lt.mp c
      rw [if_neg c, sub_zero, zpow_add_one₀ two_ne_zero, hkl, hxn]
      constructor
      · rw [div_le_div_iff₀ hB hdq]
        linarith
      · rw [div_mul_eq_mul_div, div_lt_div_iff₀ hdq hB]
        nlinarith
  rw [← he]
  have hhalf : (2 : ℚ) ^ (e - 53) = (2 : ℚ) ^ (e - 52) / 2 := by
    have : e - 53 = e - 52 - 1 := by ring
    rw [this, zpow_sub₀ two_ne_zero, zpow_one]
  have hu : (0 : ℚ) < (2 : ℚ) ^ (e - 52) := by positivity
  have hfinish : ∀ (sig : Nat) (y r : ℚ), r = (sig : ℚ) * (2 : ℚ) ^ (e - 52) →
      x = y * (2 : ℚ) ^ (e - 52) → |(sig : ℚ) - y| ≤ 1 / 2 →
      |r - x| ≤ (2 : ℚ) ^ (e - 53) := by
    intro sig y r hr hy habs
    rw [hr, hy, ← sub_mul, abs_mul, abs_of_pos hu, hhalf]
    have := mul_le_mul_of_nonneg_right habs (le_of_lt hu)
    linarith
  have hbr : (2 : ℚ) ^ 52 ≤ x / (2 : ℚ) ^ (e - 52) ∧ x / (2 : ℚ) ^ (e - 52) < (2 : ℚ) ^ 53 := by
    have e1 : (2 : ℚ) ^ e = (2 : ℚ) ^ 52 * (2 : ℚ) ^ (e - 52) := by
      rw [← zpow_natCast (2 : ℚ) 52, ← zpow_add₀ two_ne_zero]
      congr 1
      ring
    have e2 : (2 : ℚ) ^ (e + 1) = (2 : ℚ) ^ 53 * (2 : ℚ) ^ (e - 52) := by
      rw [← zpow_natCast (2 : ℚ) 53, ← zpow_add₀ two_ne_zero]
      congr 1
      ring
    rw [e1] at hlo
    rw [e2] at hhi
    exact ⟨(le_div_iff₀ hu).mpr hlo, (div_lt_iff₀ hu).mpr hhi⟩
  by_cases h52 : e ≤ 52
  · rw [if_pos h52]
    obtain ⟨s, hs⟩ : ∃ s : Nat, (s : Int) = 52 - e := ⟨(52 - e).toNat, by omega⟩
    have hst : (52 - e).toNat = s := by omega
    rw [hst]
    have hu2 : (2 : ℚ) ^ (e - 52) = 1 / (2 : ℚ) ^ s := by
      have : e - 52 = -(s : Int) := by omega
      rw [this, zpow_neg, zpow_natCast, one_div]
    have hP : (0 : ℚ) < (2 : ℚ) ^ s := by positivity
    have hy : ((n * 2 ^ s : Nat) : ℚ) / (d : ℚ) = x / (2 : ℚ) ^ (e - 52) := by
      rw [hu2, hxn]
      push_cast
      field_simp
    obtain ⟨hm1, hm2, hm3⟩ := roundHalfEven_significand (n * 2 ^ s) d hd1
      (by rw [hy]; exact hbr.1) (by rw [hy]; exact hbr.2)
    have hr : ((roundHalfEven (n * 2 ^ s) d : Nat) : ℚ) / ((2 ^ s : Nat) : ℚ) =
        ((roundHalfEven (n * 2 ^ s) d : Nat) : ℚ) * (2 : ℚ) ^ (e - 52) := by
      rw [hu2]
      push_cast
      ring
    refine ⟨e, roundHalfEven (n * 2 ^ s) d, hlo, hhi, hm1, hm2, hr, ?_⟩
    refine hfinish _ (x / (2 : ℚ) ^ (e - 52)) _ hr ?_ (by rw [← hy]; exact hm3)
    field_simp
  · rw [if_neg h52]
    obtain ⟨t, ht⟩ : ∃ t : Nat, (t : Int) = e - 52 := ⟨(e - 52).toNat, by omega⟩
    have htt : (e - 52).toNat = t := by omega
    rw [htt]
    have hu2 : (2 : ℚ) ^ (e - 52) = (2 : ℚ) ^ t := by
      rw [← ht, zpow_natCast]
    have hP : (0 : ℚ) < (2 : ℚ) ^ t := by positivity
    have hy : ((n : Nat) : ℚ) / ((d * 2 ^ t : Nat) : ℚ) = x / (2 : ℚ) ^ (e - 52) := by
      rw [hu2, hxn]
      push_cast
      field_simp
    obtain ⟨hm1, hm2, hm3⟩ := roundHalfEven_significand n (d * 2 ^ t)
      (Nat.mul_pos hd1 (Nat.two_pow_pos t))
      (by rw [hy]; exact hbr.1) (by rw [hy]; exact hbr.2)
    have hr : ((roundHalfEven n (d * 2 ^ t) * 2 ^ t : Nat) : ℚ) =
        ((roundHalfEven n (d * 2 ^ t) : Nat) : ℚ) * (2 : ℚ) ^ (e - 52) := by
      rw [hu2]
      push_cast
      ring
    refine ⟨e, roundHalfEven n (d * 2 ^ t), hlo, hhi, hm1, hm2, hr, ?_⟩
    refine hfinish _ (x / (2 : ℚ) ^ (e - 52)) _ hr ?_ (by rw [← hy]; exact hm3)
    field_simp


/-- A float64 value below the float64 rounding of `x` is not above `x`: no
float64 value lies strictly between `x` and its rounding. -/
theorem le_of_lt_float64Round (x v : ℚ) (hx : 0 < x) (hv : float64Round v = v)
    (hlt : v < float64Round x) : v ≤ x := by
  by_contra hcon
  have hxv : x < v := not_le.mp hcon
  have hv0 : 0 < v := lt_trans hx hxv
  obtain ⟨e, m, hlo, hhi, hm1, hm2, hr, habs⟩ := float64Round_nearest x hx
  obtain ⟨ev, mv, hvlo, hvhi, -, -, hvr, -⟩ := float64Round_nearest v hv0
  rw [hv] at hvr
  have hu : (0 : ℚ) < (2 : ℚ) ^ (e - 52) := by positivity
  have hm2q : (m : ℚ) ≤ (2 : ℚ) ^ 53 := by exact_mod_cast hm2
  have htop : float64Round x ≤ (2 : ℚ) ^ (e + 1) := by
    have e2 : (2 : ℚ) ^ (e + 1) = (2 : ℚ) ^ 53 * (2 : ℚ) ^ (e - 52) := by
      rw [← zpow_natCast (2 : ℚ) 53, ← zpow_add₀ two_ne_zero]
      congr 1
      ring
    rw [hr, e2]
    exact mul_le_mul_of_nonneg_right hm2q (le_of_lt hu)
  have h2 : (1 : ℚ) < 2 := by norm_num
  have hev : ev = e := by
    have h3 : (2 : ℚ) ^ ev < (2 : ℚ) ^ (e + 1) :=
      lt_of_le_of_lt hvlo (lt_of_lt_of_le hlt htop)
    have h4 : (2 : ℚ) ^ e < (2 : ℚ) ^ (ev + 1) :=
      lt_of_le_of_lt hlo (lt_trans hxv hvhi)
    have h5 := (zpow_lt_zpow_iff_right₀ h2).mp h3
    have h6 := (zpow_lt_zpow_iff_right₀ h2).mp h4
    omega
  rw [hev] at hvr
  have hmlt : mv < m := by
    have h3 : (mv : ℚ) * (2 : ℚ) ^ (e - 52) < (m : ℚ) * (2 : ℚ) ^ (e - 52) := by
      rw [← hvr, ← hr]
      exact hlt
    have h4 : (mv : ℚ) < (m : ℚ) := lt_of_mul_lt_mul_right h3 (le_of_lt hu)
    exact_mod_cast h4
  have hstep : (mv : ℚ) + 1 ≤ (m : ℚ) := by exact_mod_cast hmlt
  have hhalf : (2 : ℚ) ^ (e - 53) = (2 : ℚ) ^ (e - 52) / 2 := by
    have : e - 53 = e - 52 - 1 := by ring
    rw [this, zpow_sub₀ two_ne_zero, zpow_one]
  have h7 : float64Round x - x ≤ (2 : ℚ) ^ (e - 52) / 2 := by
    rw [← hhalf]
    exact le_trans (le_abs_self _) habs
  have h8 : v + (2 : ℚ) ^ (e - 52) ≤ float64Round x := by
    rw [hr, hvr]
    have := mul_le_mul_of_nonneg_right hstep (le_of_lt hu)
    linarith
  linarith

/-- On a spectrum of float64 values a bin that passes the test of the code
also qualifies in exact arithmetic. -/
theorem qualifiesExact_of_qualifies (fftResult : List ℚ) (binSize : Int) (bin : Nat)
    (hfloat : ∀ v ∈ fftResult, float64Round v = v)
    (h : Qualifies fftResult binSize bin) : QualifiesExact fftResult binSize bin := by
  obtain ⟨h1, h2, h3, h4, h5⟩ := h
  have hfloor : (1 : ℚ) / 1000 < peakFloor := by
    unfold peakFloor
    norm_num
  have hmag : (0 : ℚ) < fftResult.getD bin 0 := by
    have : (0 : ℚ) < 1 / 1000 := by norm_num
    linarith
  have hdom : (0 : ℚ) < dominance ∧ dominance < 95 / 100 := by
    unfold dominance
    constructor <;> norm_num
  refine ⟨h1, h2, h3, lt_trans hfloor h4, ?_⟩
  intro j hj hne hlo hhi
  have hmem : fftResult.getD j 0 ∈ fftResult := by
    rw [List.getD_eq_getElem?_getD, List.getElem?_eq_getElem hj, Option.getD_some]
    exact List.getElem_mem hj
  have hle := le_of_lt_float64Round (fftResult.getD bin 0 * dominance) (fftResult.getD j 0)
    (mul_pos hmag hdom.1) (hfloat _ hmem) (h5 j hj hne hlo hhi)
  have : fftResult.getD bin 0 * dominance < fftResult.getD bin 0 * (95 / 100) :=
    mul_lt_mul_of_pos_left hdom.2 hmag
  linarith

/-! ## extractPeaks: selection and frequency values -/


/-- The inner sort loop moves a peak of greatest magnitude to the front and keeps
the peaks. -/
theorem sortInner_spec (pivot : Peak) (xs : List Peak) :
    ((sortInner pivot xs).1 :: (sortInner pivot xs).2).Perm (pivot :: xs) ∧
      pivot.magnitude ≤ (sortInner pivot xs).1.magnitude ∧
      ∀ y ∈ (sortInner pivot xs).2, y.magnitude ≤ (sortInner pivot xs).1.magnitude := by
  induction xs generalizing pivot with
  | nil => simp [sortInner]
  | cons x xs ih =>
    rw [sortInner]
    split_ifs with h
    · obtain ⟨hp, hle, hall⟩ := ih x
      refine ⟨?_, ?_, ?_⟩
      · have h1 : ((sortInner x xs).1 :: pivot :: (sortInner x xs).2).Perm
            (pivot :: (sortInner x xs).1 :: (sortInner x xs).2) := List.Perm.swap _ _ _
        exact h1.trans (List.Perm.cons pivot hp)
      · exact le_trans (le_of_lt h) hle
      · intro y hy
        rcases List.mem_cons.mp hy with h1 | h1
        · rw [h1]
          exact le_trans (le_of_lt h) hle
        · exact hall y h1
    · obtain ⟨hp, hle, hall⟩ := ih pivot
      refine ⟨?_, hle, ?_⟩
      · have h1 : ((sortInner pivot xs).1 :: x :: (sortInner pivot xs).2).Perm
            (x :: (sortInner pivot xs).1 :: (sortInner pivot xs).2) := List.Perm.swap _ _ _
        exact h1.trans ((List.Perm.cons x hp).trans (List.Perm.swap _ _ _))
      · intro y hy
        rcases List.mem_cons.mp hy with h1 | h1
        · rw [h1]
          exact le_trans (le_of_not_lt h) hle
        · exact hall y h1

/-- The exchange sort keeps the peaks and orders them by non-increasing
magnitude. -/
theorem sortFrom_spec (n : Nat) (peaks : List Peak) (hn : peaks.length ≤ n) :
    (sortFrom n peaks).Perm peaks ∧
      (sortFrom n peaks).Pairwise (fun a b => b.magnitude ≤ a.magnitude) := by
  induction n generalizing peaks with
  | zero =>
    have : peaks = [] := List.length_eq_zero.mp (Nat.le_zero.mp hn)
    subst this
    simp [sortFrom]
  | succ n ih =>
    cases peaks with
    | nil => simp [sortFrom]
    | cons p rest =>
      rw [sortFrom]
      obtain ⟨hp, _, hall⟩ := sortInner_spec p rest
      have hlen : (sortInner p rest).2.length ≤ n := by
        have := hp.length_eq
        simp only [List.length_cons] at this hn
        omega
      obtain ⟨hp2, hs2⟩ := ih (sortInner p rest).2 hlen
      refine ⟨(List.Perm.cons _ hp2).trans hp, ?_⟩
      rw [List.pairwise_cons]
      exact ⟨fun y hy => hall y (hp2.mem_iff.mp hy), hs2⟩

theorem sortPeaks_spec (peaks : List Peak) :
    (sortPeaks peaks).Perm peaks ∧
      (sortPeaks peaks).Pairwise (fun a b => b.magnitude ≤ a.magnitude) :=
  sortFrom_spec peaks.length peaks (le_refl _)


theorem scanBins_nat (fftResult : List ℚ) (binSize minBin maxBin : Int) :
    scanBins fftResult binSize minBin maxBin =
      (List.range (min maxBin (fftResult.length : Int) - minBin).toNat).filterMap
        fun k : Nat =>
          if fftResult.getD (minBin + (k : Int)).toNat 0 > peakFloor ∧
              dominated fftResult (minBin + (k : Int))
                (fftResult.getD (minBin + (k : Int)).toNat 0) = false then
            some { freq := ((minBin + (k : Int)) * binSize % 2 ^ 32).toNat,
                   magnitude := fftResult.getD (minBin + (k : Int)).toNat 0 }
          else none := by
  unfold scanBins
  generalize (min maxBin (fftResult.length : Int) - minBin).toNat = n
  induction (List.range n) with
  | nil => rfl
  | cons a l ih =>
    show List.filterMap _ ((a : Int) :: (do let a ← l; pure (a : Int))) = _
    rw [List.filterMap_cons, List.filterMap_cons, ih]

/-- The neighbour loop finds nothing exactly when every other bin within three
positions, inside the spectrum, stays below the float64 product `mag*0.95`. -/
theorem dominated_false_iff (fftResult : List ℚ) (bin : Nat) (mag : ℚ) :
    dominated fftResult (bin : Int) mag = false ↔
      ∀ j, j < fftResult.length → j ≠ bin → bin ≤ j + 3 → j ≤ bin + 3 →
        fftResult.getD j 0 < float64Mul mag dominance := by
  unfold dominated
  rw [List.any_eq_false]
  constructor
  · intro h j hj hne hlo hhi
    have hk : j + 3 - bin ∈ List.range 7 := by
      rw [List.mem_range]
      omega
    have h1 := h (j + 3 - bin) hk
    have ej : (bin : Int) - 3 + ((j + 3 - bin : Nat) : Int) = (j : Int) := by omega
    simp only [ej, Int.toNat_ofNat] at h1
    have hc : ((j : Int) ≥ 0 ∧ (j : Int) < (fftResult.length : Int) ∧ (j : Int) ≠ (bin : Int)) := by
      refine ⟨by omega, by omega, ?_⟩
      intro he
      exact hne (by omega)
    simp only [Bool.and_eq_true, decide_eq_true_eq, not_and] at h1
    exact lt_of_not_le (h1 hc)
  · intro h k hk
    rw [List.mem_range] at hk
    simp only [Bool.and_eq_true, decide_eq_true_eq, not_and]
    intro hc
    obtain ⟨h0, hlen, hne⟩ := hc
    obtain ⟨j, hj⟩ : ∃ j : Nat, (bin : Int) - 3 + (k : Int) = (j : Int) :=
      ⟨((bin : Int) - 3 + (k : Int)).toNat, by omega⟩
    rw [hj] at hlen hne ⊢
    rw [Int.toNat_ofNat]
    have := h j (by omega) (by intro he; apply hne; rw [he]) (by omega) (by omega)
    exact not_le_of_lt this

theorem band_nonneg (binSize : Int) (hb : 0 < binSize) :
    0 ≤ Int.tdiv (MinFreq : Int) binSize :=
  Int.tdiv_nonneg (by decide) (le_of_lt hb)

theorem band_below (binSize : Int) (hb : 0 < binSize) (bin : Nat)
    (h : (bin : Int) < Int.tdiv (MaxFreq : Int) binSize) :
    (bin : Int) * binSize < 2 ^ 32 := by
  rw [Int.tdiv_eq_ediv (by decide) (le_of_lt hb)] at h
  have h1 : (bin : Int) + 1 ≤ (MaxFreq : Int) / binSize := h
  have h2 := (Int.le_ediv_iff_mul_le hb).mp h1
  have h3 : ((MaxFreq : Nat) : Int) = 12000 := rfl
  nlinarith

/-- The frequency of the peak appended for a bin of the band is
`bin * binSize`. -/
theorem peakOfBin_freq (fftResult : List ℚ) (binSize : Int) (hb : 0 < binSize) (bin : Nat)
    (h : (bin : Int) < Int.tdiv (MaxFreq : Int) binSize) :
    (peakOfBin fftResult binSize bin).freq = bin * binSize.toNat := by
  have h1 := band_below binSize hb bin h
  have h0 : 0 ≤ (bin : Int) * binSize := Int.mul_nonneg (Int.ofNat_nonneg _) (le_of_lt hb)
  unfold peakOfBin
  simp only
  rw [Int.emod_eq_of_lt h0 h1]
  obtain ⟨s, hs⟩ : ∃ s : Nat, binSize = (s : Int) := ⟨binSize.toNat, by omega⟩
  subst hs
  rw [Int.toNat_ofNat, ← Int.natCast_mul, Int.toNat_ofNat]

/-- The bin loop appends a peak per bin once: the bins read back from the
frequencies are distinct and are exactly the qualifying bins. -/
theorem scanBins_bins (fftResult : List ℚ) (binSize : Int) (hb : 0 < binSize) :
    ∃ bins : List Nat,
      scanBins fftResult binSize (Int.tdiv (MinFreq : Int) binSize)
          (Int.tdiv (MaxFreq : Int) binSize) = bins.map (peakOfBin fftResult binSize) ∧
        bins.Nodup ∧ ∀ bin, bin ∈ bins ↔ Qualifies fftResult binSize bin := by
  have hmin := band_nonneg binSize hb
  refine ⟨(List.range (min (Int.tdiv (MaxFreq : Int) binSize) (fftResult.length : Int) -
      Int.tdiv (MinFreq : Int) binSize).toNat).filterMap fun k : Nat =>
        if fftResult.getD (Int.tdiv (MinFreq : Int) binSize + (k : Int)).toNat 0 > peakFloor ∧
            dominated fftResult (Int.tdiv (MinFreq : Int) binSize + (k : Int))
              (fftResult.getD (Int.tdiv (MinFreq : Int) binSize + (k : Int)).toNat 0) = false
        then some (Int.tdiv (MinFreq : Int) binSize + (k : Int)).toNat else none, ?_, ?_, ?_⟩
  · rw [scanBins_nat, List.map_filterMap]
    apply List.filterMap_congr
    intro k _
    obtain ⟨bin, hbin⟩ : ∃ bin : Nat, Int.tdiv (MinFreq : Int) binSize + (k : Int) = (bin : Int) :=
      ⟨(Int.tdiv (MinFreq : Int) binSize + (k : Int)).toNat, by omega⟩
    simp only [hbin, Int.toNat_ofNat]
    split_ifs
    · rfl
    · rfl
  · apply List.Nodup.filterMap _ (List.nodup_range _)
    intro a a2 p h1 h2
    simp only [Option.mem_def] at h1 h2
    split_ifs at h1 h2 with c1 c2
    have e1 := Option.some.inj h1
    have e2 := Option.some.inj h2
    omega
  · intro bin
    rw [List.mem_filterMap]
    constructor
    · rintro ⟨k, hk, hF⟩
      rw [List.mem_range] at hk
      split_ifs at hF with hc
      have e := Option.some.inj hF
      have hbin : Int.tdiv (MinFreq : Int) binSize + (k : Int) = (bin : Int) := by omega
      rw [hbin, Int.toNat_ofNat] at hc
      exact ⟨by omega, by omega, by omega, hc.1, (dominated_false_iff fftResult bin _).mp hc.2⟩
    · rintro ⟨h1, h2, h3, h4, h5⟩
      refine ⟨(bin - (Int.tdiv (MinFreq : Int) binSize).toNat), ?_, ?_⟩
      · rw [List.mem_range]
        omega
      · have hbin : Int.tdiv (MinFreq : Int) binSize +
            ((bin - (Int.tdiv (MinFreq : Int) binSize).toNat : Nat) : Int) = (bin : Int) := by
          omega
        rw [hbin, Int.toNat_ofNat, if_pos ⟨h4, (dominated_false_iff fftResult bin _).mpr h5⟩]

theorem band_empty_of_neg (binSize : Int) (hb : binSize < 0) :
    Int.tdiv (MaxFreq : Int) binSize ≤ Int.tdiv (MinFreq : Int) binSize := by
  obtain ⟨c, hc⟩ : ∃ c : Int, binSize = -c := ⟨-binSize, by omega⟩
  subst hc
  have hc0 : 0 ≤ c := by omega
  rw [Int.tdiv_neg, Int.tdiv_neg, Int.tdiv_eq_ediv (by decide) hc0,
    Int.tdiv_eq_ediv (by decide) hc0]
  have : (MinFreq : Int) / c ≤ (MaxFreq : Int) / c :=
    Int.ediv_le_ediv (by omega) (by decide)
  omega

/-- The sorted peak list read back as bins: for a non-zero bin width the list
that `extractPeaks` sorts consists of the peaks of the qualifying bins, each
once, in non-increasing order of magnitude. -/
theorem sortPeaks_bins (fftResult : List ℚ) (binSize : Int) (hb : binSize ≠ 0) :
    ∃ bins : List Nat,
      sortPeaks (scanBins fftResult binSize (Int.tdiv (MinFreq : Int) binSize)
          (Int.tdiv (MaxFreq : Int) binSize)) = bins.map (peakOfBin fftResult binSize) ∧
        bins.Perm (qualifyingBins fftResult binSize) ∧
        bins.Pairwise (fun a b => fftResult.getD b 0 ≤ fftResult.getD a 0) := by
  rcases lt_or_gt_of_ne hb with hneg | hpos
  · have hband := band_empty_of_neg binSize hneg
    refine ⟨[], ?_, ?_, List.Pairwise.nil⟩
    · unfold scanBins
      have h0 : (min (Int.tdiv (MaxFreq : Int) binSize) (fftResult.length : Int) -
          Int.tdiv (MinFreq : Int) binSize).toNat = 0 := by omega
      rw [h0]
      rfl
    · unfold qualifyingBins
      rw [List.filter_eq_nil_iff.mpr]
      intro bin _
      rw [decide_eq_true_eq]
      rintro ⟨h1, h2, _⟩
      omega
  · obtain ⟨bins0, hscan, hnodup, hmem⟩ := scanBins_bins fftResult binSize hpos
    obtain ⟨hperm, hsorted⟩ := sortPeaks_spec (scanBins fftResult binSize
      (Int.tdiv (MinFreq : Int) binSize) (Int.tdiv (MaxFreq : Int) binSize))
    rw [hscan] at hperm hsorted ⊢
    generalize sortPeaks (List.map (peakOfBin fftResult binSize) bins0) = sorted at hperm hsorted ⊢
    have hs : 0 < binSize.toNat := by omega
    have hback : ∀ bin ∈ bins0,
        (peakOfBin fftResult binSize bin).freq / binSize.toNat = bin := by
      intro bin hbin
      rw [peakOfBin_freq fftResult binSize hpos bin ((hmem bin).mp hbin).2.1]
      exact Nat.mul_div_cancel bin hs
    have hmap0 : (bins0.map (peakOfBin fftResult binSize)).map
        (fun p => p.freq / binSize.toNat) = bins0 := by
      rw [List.map_map]
      conv_rhs => rw [← List.map_id bins0]
      exact List.map_congr_left fun bin hbin => hback bin hbin
    have hbins : (sorted.map fun p => p.freq / binSize.toNat).Perm bins0 := by
      have := hperm.map (fun p => p.freq / binSize.toNat)
      rw [hmap0] at this
      exact this
    refine ⟨sorted.map fun p => p.freq / binSize.toNat, ?_, ?_, ?_⟩
    · rw [List.map_map]
      conv_lhs => rw [← List.map_id sorted]
      apply List.map_congr_left
      intro p hp
      obtain ⟨bin, hbin, rfl⟩ := List.mem_map.mp (hperm.subset hp)
      simp only [Function.comp, id, hback bin hbin]
    · refine hbins.trans ((List.perm_ext_iff_of_nodup hnodup ?_).mpr ?_)
      · exact (List.nodup_range _).filter _
      · intro bin
        unfold qualifyingBins
        rw [hmem, List.mem_filter, List.mem_range, decide_eq_true_eq]
        exact ⟨fun h => ⟨h.2.2.1, h⟩, fun h => h.2⟩
    · rw [List.pairwise_map]
      refine hsorted.imp_of_mem ?_
      intro p q hp hq hle
      obtain ⟨a, ha, rfl⟩ := List.mem_map.mp (hperm.subset hp)
      obtain ⟨b, hb2, rfl⟩ := List.mem_map.mp (hperm.subset hq)
      rw [hback a ha, hback b hb2]
      exact hle

theorem mem_qualifyingBins (fftResult : List ℚ) (binSize : Int) (bin : Nat) :
    bin ∈ qualifyingBins fftResult binSize ↔ Qualifies fftResult binSize bin := by
  unfold qualifyingBins
  rw [List.mem_filter, List.mem_range, decide_eq_true_eq]
  exact ⟨fun h => h.2, fun h => ⟨h.2.2.1, h⟩⟩

theorem extractPeaks_some (fftResult : List ℚ) (sampleRate : Int) (hlen : fftResult ≠ [])
    (hb : Int.tdiv sampleRate (fftResult.length : Int) ≠ 0) :
    extractPeaks fftResult sampleRate =
      some (peaksOfBinSize fftResult (Int.tdiv sampleRate (fftResult.length : Int))) := by
  unfold extractPeaks
  rw [if_neg (fun h => hlen (List.length_eq_zero.mp h))]
  simp only
  rw [if_neg hb]

theorem spectrumNearTie_length : spectrumNearTie.length = 1024 := by
  simp only [spectrumNearTie, List.length_append, List.length_replicate, List.length_cons,
    List.length_nil]

theorem spectrumNearTie_getD (k : Nat) :
    spectrumNearTie.getD k 0 =
      if k = 24 then 3 else if k = 25 then 1604407367250739 / 562949953421312 else 0 := by
  unfold spectrumNearTie
  rw [List.getD_eq_getElem?_getD, List.append_assoc, List.getElem?_append]
  by_cases h1 : k < 24
  · rw [if_pos (by rw [List.length_replicate]; exact h1), List.getElem?_replicate, if_pos h1,
      if_neg (by omega), if_neg (by omega)]
    rfl
  · rw [if_neg (by rw [List.length_replicate]; exact h1), List.length_replicate]
    by_cases h2 : k = 24
    · subst h2
      rw [if_pos rfl, Nat.sub_self, List.cons_append, List.getElem?_cons_zero, Option.getD_some]
    · by_cases h3 : k = 25
      · subst h3
        have e : 25 - 24 = 0 + 1 := rfl
        rw [if_neg h2, if_pos rfl, e, List.cons_append, List.cons_append,
          List.getElem?_cons_succ, List.getElem?_cons_zero, Option.getD_some]
      · rw [if_neg h2, if_neg h3]
        obtain ⟨m, hm⟩ : ∃ m, k - 24 = m + 2 := ⟨k - 26, by omega⟩
        rw [hm, List.cons_append, List.cons_append, List.nil_append, List.getElem?_cons_succ,
          List.getElem?_cons_succ, List.getElem?_replicate]
        split_ifs <;> rfl

/-- Every magnitude of `spectrumNearTie` is a float64 value. -/
theorem spectrumNearTie_float64 : ∀ v ∈ spectrumNearTie, float64Round v = v := by
  intro v hv
  unfold spectrumNearTie at hv
  simp only [List.mem_append, List.mem_replicate, List.mem_cons, List.mem_singleton,
    List.not_mem_nil, or_false] at hv
  rcases hv with (⟨-, h⟩ | h | h) | ⟨-, h⟩ <;> subst h <;> apply le_antisymm <;>
    with_unfolding_all decide

/-- The float64 constants of `extractPeaks` are the roundings of 1/1000 and
95/100, and the float64 product `3.0 * 0.95` is 2.8499999999999996. -/
theorem float64_constants :
    float64Round (1 / 1000) = peakFloor ∧ float64Round (95 / 100) = dominance ∧
      float64Mul 3 dominance = 1604407367250739 / 562949953421312 := by
  refine ⟨?_, ?_, ?_⟩ <;> apply le_antisymm <;> with_unfolding_all decide

set_option maxRecDepth 4000 in
/-- C18 fails as stated.  In the 1024-bin spectrum that holds 3.0 in bin 24,
2.8499999999999996 in bin 25 and 0 elsewhere, bin 24 is the one bin that
qualifies in exact arithmetic (2.8499999999999996 is below 95% of 3.0, which
is 2.85), every magnitude is a float64 value, but the float64 product `3.0*0.95` is 2.8499999999999996, so the
code finds bin 24 dominated and returns no frequency at all. -/
theorem extractPeaks_misses_near_tie :
    spectrumNearTie.length = 1024 ∧ (∀ v ∈ spectrumNearTie, float64Round v = v) ∧
      extractPeaks spectrumNearTie 44100 = some [] ∧
      QualifiesExact spectrumNearTie (Int.tdiv 44100 1024) 24 ∧
      (∀ bin, QualifiesExact spectrumNearTie (Int.tdiv 44100 1024) bin → bin = 24) := by
  refine ⟨spectrumNearTie_length, spectrumNearTie_float64, ?_, ?_, ?_⟩
  · unfold extractPeaks peaksOfBinSize scanBins dominated
    simp only [spectrumNearTie_length, spectrumNearTie_getD]
    with_unfolding_all decide
  · unfold QualifiesExact
    rw [spectrumNearTie_length, spectrumNearTie_getD, if_pos rfl]
    refine ⟨by decide, by decide, by decide, by norm_num, ?_⟩
    intro j _ hj _ _
    rw [spectrumNearTie_getD, if_neg hj]
    split_ifs <;> norm_num
  · intro bin hq
    unfold QualifiesExact at hq
    obtain ⟨_, _, _, hmag, hdom⟩ := hq
    rw [spectrumNearTie_getD] at hmag
    by_cases h24 : bin = 24
    · exact h24
    · rw [if_neg h24] at hmag
      by_cases h25 : bin = 25
      · subst h25
        have h := hdom 24 (by rw [spectrumNearTie_length]; decide) (by decide) (by decide)
          (by decide)
        rw [spectrumNearTie_getD, spectrumNearTie_getD, if_pos rfl, if_neg (by decide),
          if_pos rfl] at h
        norm_num at h
      · rw [if_neg h25] at hmag
        norm_num at hmag

/-- C18, amended.  Peak selection: whenever `extractPeaks` returns (a
non-empty spectrum and a non-zero bin width), the returned list is the list of
frequencies `bin * binSize` of distinct qualifying bins, in non-increasing
order of the bins' magnitudes; it holds `min 8 q` bins when `q` bins qualify,
so every qualifying bin when at most 8 qualify, and every qualifying bin that
is left out has a magnitude no greater than that of each returned bin.  A bin
qualifies (`Qualifies`) iff it lies in the bin range of the band, its
magnitude exceeds the float64 constant `0.001`, and no other bin within three
positions inside the spectrum has a magnitude of at least the float64 product
`mag*0.95` of its magnitude.  On a spectrum of float64 values every returned
bin also qualifies in exact arithmetic (`QualifiesExact`: magnitude above
1/1000, every other bin within three positions below 95% of it). -/
theorem extractPeaks_selection (fftResult : List ℚ) (sampleRate : Int)
    (hlen : fftResult ≠ [])
    (hb : Int.tdiv sampleRate (fftResult.length : Int) ≠ 0) :
    ∃ bins : List Nat,
      extractPeaks fftResult sampleRate = some (bins.map fun bin : Nat =>
          ((bin : Int) * Int.tdiv sampleRate (fftResult.length : Int)).toNat) ∧
        bins.Nodup ∧
        (∀ bin ∈ bins, Qualifies fftResult (Int.tdiv sampleRate (fftResult.length : Int)) bin) ∧
        bins.Pairwise (fun a b => fftResult.getD b 0 ≤ fftResult.getD a 0) ∧
        bins.length = min TopFrequencies
          (qualifyingBins fftResult (Int.tdiv sampleRate (fftResult.length : Int))).length ∧
        ((qualifyingBins fftResult (Int.tdiv sampleRate (fftResult.length : Int))).length ≤
            TopFrequencies →
          ∀ bin, Qualifies fftResult (Int.tdiv sampleRate (fftResult.length : Int)) bin →
            bin ∈ bins) ∧
        (∀ bin, Qualifies fftResult (Int.tdiv sampleRate (fftResult.length : Int)) bin →
          bin ∉ bins → ∀ c ∈ bins, fftResult.getD bin 0 ≤ fftResult.getD c 0) ∧
        ((∀ v ∈ fftResult, float64Round v = v) →
          ∀ bin ∈ bins,
            QualifiesExact fftResult (Int.tdiv sampleRate (fftResult.length : Int)) bin) := by
  rw [extractPeaks_some fftResult sampleRate hlen hb]
  generalize Int.tdiv sampleRate (fftResult.length : Int) = binSize at hb ⊢
  obtain ⟨all, hall, hperm, hsorted⟩ := sortPeaks_bins fftResult binSize hb
  have hnodup : all.Nodup := hperm.nodup_iff.mpr ((List.nodup_range _).filter _)
  have hq : ∀ bin, bin ∈ all ↔ Qualifies fftResult binSize bin := fun bin =>
    (hperm.mem_iff).trans (mem_qualifyingBins fftResult binSize bin)
  have hsplit : all.take TopFrequencies ++ all.drop TopFrequencies = all :=
    List.take_append_drop _ _
  refine ⟨all.take TopFrequencies, ?_, ?_, ?_, ?_, ?_, ?_, ?_, ?_⟩
  · unfold peaksOfBinSize
    simp only
    rw [hall]
    have hcut : (if (all.map (peakOfBin fftResult binSize)).length > TopFrequencies then
        (all.map (peakOfBin fftResult binSize)).take TopFrequencies
        else all.map (peakOfBin fftResult binSize)) =
        (all.take TopFrequencies).map (peakOfBin fftResult binSize) := by
      rw [List.map_take]
      split_ifs with h
      · rfl
      · exact (List.take_of_length_le (not_lt.mp h)).symm
    rw [hcut, List.map_map]
    congr 1
    apply List.map_congr_left
    intro bin hbin
    have hqual := (hq bin).mp (List.mem_of_mem_take hbin)
    simp only [Function.comp]
    unfold peakOfBin
    simp only
    have hpos : 0 < binSize := by
      rcases lt_or_gt_of_ne hb with hneg | hpos
      · have := band_empty_of_neg binSize hneg
        have h1 := hqual.1
        have h2 := hqual.2.1
        omega
      · exact hpos
    rw [Int.emod_eq_of_lt (Int.mul_nonneg (Int.ofNat_nonneg _) (le_of_lt hpos))
      (band_below binSize hpos bin hqual.2.1)]
  · exact hnodup.sublist (List.take_sublist _ _)
  · intro bin hbin
    exact (hq bin).mp (List.mem_of_mem_take hbin)
  · exact hsorted.sublist (List.take_sublist _ _)
  · rw [List.length_take, hperm.length_eq]
  · intro hle bin hqual
    have hfew : all.length ≤ TopFrequencies := by
      rw [hperm.length_eq]
      exact hle
    rw [List.take_of_length_le hfew]
    exact (hq bin).mpr hqual
  · intro bin hqual hout c hc
    have hin : bin ∈ all.take TopFrequencies ++ all.drop TopFrequencies := by
      rw [hsplit]
      exact (hq bin).mpr hqual
    have hdrop : bin ∈ all.drop TopFrequencies := by
      rcases List.mem_append.mp hin with h | h
      · exact absurd h hout
      · exact h
    rw [← hsplit] at hsorted
    exact (List.pairwise_append.mp hsorted).2.2 c hc bin hdrop
  · intro hfloat bin hbin
    exact qualifiesExact_of_qualifies fftResult binSize bin hfloat
      ((hq bin).mp (List.mem_of_mem_take hbin))

theorem extractPeaks_selection_witness :
    ([0, 0, 0, 0, 1, 0, 0, 0] : List ℚ) ≠ [] ∧
      Int.tdiv 800 (([0, 0, 0, 0, 1, 0, 0, 0] : List ℚ).length : Int) ≠ 0 ∧
      ∃ bins : List Nat,
        extractPeaks [0, 0, 0, 0, 1, 0, 0, 0] 800 = some (bins.map fun bin : Nat =>
            ((bin : Int) * Int.tdiv 800 (([0, 0, 0, 0, 1, 0, 0, 0] : List ℚ).length : Int)).toNat) ∧
          bins.Nodup ∧
          (∀ bin ∈ bins, Qualifies [0, 0, 0, 0, 1, 0, 0, 0]
            (Int.tdiv 800 (([0, 0, 0, 0, 1, 0, 0, 0] : List ℚ).length : Int)) bin) ∧
          bins.Pairwise (fun a b => ([0, 0, 0, 0, 1, 0, 0, 0] : List ℚ).getD b 0 ≤
            ([0, 0, 0, 0, 1, 0, 0, 0] : List ℚ).getD a 0) ∧
          bins.length = min TopFrequencies (qualifyingBins [0, 0, 0, 0, 1, 0, 0, 0]
            (Int.tdiv 800 (([0, 0, 0, 0, 1, 0, 0, 0] : List ℚ).length : Int))).length ∧
          ((qualifyingBins [0, 0, 0, 0, 1, 0, 0, 0]
              (Int.tdiv 800 (([0, 0, 0, 0, 1, 0, 0, 0] : List ℚ).length : Int))).length ≤
              TopFrequencies →
            ∀ bin, Qualifies [0, 0, 0, 0, 1, 0, 0, 0]
              (Int.tdiv 800 (([0, 0, 0, 0, 1, 0, 0, 0] : List ℚ).length : Int)) bin →
              bin ∈ bins) ∧
          (∀ bin, Qualifies [0, 0, 0, 0, 1, 0, 0, 0]
            (Int.tdiv 800 (([0, 0, 0, 0, 1, 0, 0, 0] : List ℚ).length : Int)) bin →
            bin ∉ bins → ∀ c ∈ bins, ([0, 0, 0, 0, 1, 0, 0, 0] : List ℚ).getD bin 0 ≤
              ([0, 0, 0, 0, 1, 0, 0, 0] : List ℚ).getD c 0) ∧
          ((∀ v ∈ ([0, 0, 0, 0, 1, 0, 0, 0] : List ℚ), float64Round v = v) →
            ∀ bin ∈ bins, QualifiesExact [0, 0, 0, 0, 1, 0, 0, 0]
              (Int.tdiv 800 (([0, 0, 0, 0, 1, 0, 0, 0] : List ℚ).length : Int)) bin) :=
  ⟨by decide, by decide,
    extractPeaks_selection [0, 0, 0, 0, 1, 0, 0, 0] 800 (by decide) (by decide)⟩

/-- The selection on an 8-bin spectrum at sample rate 800: the single
qualifying bin 4 is returned as frequency 400. -/
theorem extractPeaks_selection_example :
    extractPeaks [0, 0, 0, 0, 1, 0, 0, 0] 800 = some [400] ∧
      qualifyingBins [0, 0, 0, 0, 1, 0, 0, 0] (Int.tdiv 800 8) = [4] := by
  with_unfolding_all decide

theorem spectrumBin24_length : spectrumBin24.length = 1024 := by
  simp only [spectrumBin24, List.length_append, List.length_replicate, List.length_singleton]

theorem spectrumBin24_getD (k : Nat) : spectrumBin24.getD k 0 = if k = 24 then 1 else 0 :=
  getD_single_bin 24 999 k

set_option maxRecDepth 4000 in
/-- C19 fails as stated: with sample rate 44100 a 1024-bin spectrum whose only
energy is in bin 24 yields the frequency 1032 (24 times the bin width 43),
while the floor of 24 × 44100 / 1024 is 1033. -/
theorem extractPeaks_frequency_not_floor :
    spectrumBin24.length = 1024 ∧ extractPeaks spectrumBin24 44100 = some [1032] ∧
      24 * 44100 / 1024 = 1033 ∧ Int.tdiv 44100 1024 = 43 := by
  refine ⟨spectrumBin24_length, ?_, by decide, by decide⟩
  unfold extractPeaks peaksOfBinSize scanBins dominated
  simp only [spectrumBin24_length, spectrumBin24_getD]
  with_unfolding_all decide

/-- C19, amended: whenever `extractPeaks` returns (a non-empty spectrum and a
non-zero bin width), every returned frequency is `i * binSize` for a
qualifying bin `i`, where `binSize` is the integer quotient of the sample rate
by the spectrum length; the bin is recovered as `f / binSize`. -/
theorem extractPeaks_frequency (fftResult : List ℚ) (sampleRate : Int)
    (hlen : fftResult ≠ [])
    (hb : Int.tdiv sampleRate (fftResult.length : Int) ≠ 0) :
    ∃ res, extractPeaks fftResult sampleRate = some res ∧
      ∀ f ∈ res, ∃ bin : Nat,
        Qualifies fftResult (Int.tdiv sampleRate (fftResult.length : Int)) bin ∧
          (f : Int) = (bin : Int) * Int.tdiv sampleRate (fftResult.length : Int) ∧
          (f : Int) / Int.tdiv sampleRate (fftResult.length : Int) = (bin : Int) := by
  refine ⟨_, extractPeaks_some fftResult sampleRate hlen hb, ?_⟩
  generalize Int.tdiv sampleRate (fftResult.length : Int) = binSize at hb ⊢
  intro f hf
  obtain ⟨all, hall, hperm, -⟩ := sortPeaks_bins fftResult binSize hb
  unfold peaksOfBinSize at hf
  simp only at hf
  rw [hall] at hf
  obtain ⟨p, hp, rfl⟩ := List.mem_map.mp hf
  have hp2 : p ∈ all.map (peakOfBin fftResult binSize) := by
    split_ifs at hp
    · exact List.mem_of_mem_take hp
    · exact hp
  obtain ⟨bin, hbin, rfl⟩ := List.mem_map.mp hp2
  have hqual := (mem_qualifyingBins fftResult binSize bin).mp (hperm.mem_iff.mp hbin)
  have hpos : 0 < binSize := by
    rcases lt_or_gt_of_ne hb with hneg | hpos
    · have := band_empty_of_neg binSize hneg
      have h1 := hqual.1
      have h2 := hqual.2.1
      omega
    · exact hpos
  have hfreq : ((peakOfBin fftResult binSize bin).freq : Int) = (bin : Int) * binSize := by
    rw [peakOfBin_freq fftResult binSize hpos bin hqual.2.1, Int.natCast_mul,
      Int.toNat_of_nonneg (le_of_lt hpos)]
  refine ⟨bin, hqual, hfreq, ?_⟩
  rw [hfreq]
  exact Int.mul_ediv_cancel _ (ne_of_gt hpos)

theorem extractPeaks_frequency_witness :
    ([0, 0, 0, 0, 1, 0, 0, 0, 0] : List ℚ) ≠ [] ∧
      Int.tdiv 950 (([0, 0, 0, 0, 1, 0, 0, 0, 0] : List ℚ).length : Int) ≠ 0 ∧
      ∃ res, extractPeaks [0, 0, 0, 0, 1, 0, 0, 0, 0] 950 = some res ∧
        ∀ f ∈ res, ∃ bin : Nat,
          Qualifies [0, 0, 0, 0, 1, 0, 0, 0, 0]
            (Int.tdiv 950 (([0, 0, 0, 0, 1, 0, 0, 0, 0] : List ℚ).length : Int)) bin ∧
            (f : Int) = (bin : Int) *
              Int.tdiv 950 (([0, 0, 0, 0, 1, 0, 0, 0, 0] : List ℚ).length : Int) ∧
            (f : Int) / Int.tdiv 950 (([0, 0, 0, 0, 1, 0, 0, 0, 0] : List ℚ).length : Int) =
              (bin : Int) :=
  ⟨by decide, by decide,
    extractPeaks_frequency [0, 0, 0, 0, 1, 0, 0, 0, 0] 950 (by decide) (by decide)⟩

/-! ## Windowing in the two generators -/

theorem getD_windowed (hannWindow : Nat → Nat → ℚ) (samples : List ℚ) (start i : Nat)
    (hi : i < WindowSize) :
    ((List.range WindowSize).map fun i : Nat =>
      samples.getD (start + i) 0 * hannWindow i WindowSize).getD i 0 =
      samples.getD (start + i) 0 * hannWindow i WindowSize := by
  rw [List.getD_eq_getElem?_getD, List.getElem?_map, List.getElem?_range hi]
  rfl

/-- The caller's samples after one frame of the custom path: the same length,
and entry 0 is rewritten by frame 0 only. -/
theorem rewindow_head (window samples : List ℚ) (start : Nat) (hw : window.length = WindowSize)
    (hstop : start + WindowSize ≤ samples.length) :
    (samples.take start ++ window ++ samples.drop (start + WindowSize)).length =
        samples.length ∧
      (0 < start → (samples.take start ++ window ++ samples.drop (start + WindowSize)).getD 0 0 =
        samples.getD 0 0) := by
  constructor
  · rw [List.length_append, List.length_append, List.length_take, List.length_drop, hw]
    omega
  · intro hpos
    rw [List.append_assoc, List.getD_append _ _ _ _ (by rw [List.length_take]; omega),
      List.getD_eq_getElem?_getD, List.getD_eq_getElem?_getD, List.getElem?_take_of_lt hpos]

theorem customFrames_head (hannWindow : Nat → Nat → ℚ) (performFFT : List ℚ → List ℚ)
    (hperf : ∀ w : List ℚ, w.length = WindowSize →
      performFFT w ≠ [] ∧ (performFFT w).length ≤ SampleRate)
    (frames : List Nat) (hpos : ∀ f ∈ frames, 1 ≤ f) (samples : List ℚ) (st : FrameState) :
    ∃ p, customFrames hannWindow performFFT frames (samples, st) = some p ∧
      p.1.length = samples.length ∧ p.1.getD 0 0 = samples.getD 0 0 := by
  induction frames generalizing samples st with
  | nil => exact ⟨(samples, st), rfl, rfl, rfl⟩
  | cons frame rest ih =>
    simp only [customFrames]
    split_ifs with hstop
    · exact ⟨(samples, st), rfl, rfl, rfl⟩
    · obtain ⟨hne, hlen⟩ := hperf
        ((List.range WindowSize).map fun i =>
          samples.getD (frame * HopSize + i) 0 * hannWindow i WindowSize) (by simp)
      rw [extractPeaks_eq _ _ hne (by exact_mod_cast hlen)]
      have hf : 1 ≤ frame := hpos frame (List.mem_cons_self _ _)
      have hstart : 0 < frame * HopSize := Nat.mul_pos hf (by decide)
      obtain ⟨hl, h0⟩ := rewindow_head
        ((List.range WindowSize).map fun i =>
          samples.getD (frame * HopSize + i) 0 * hannWindow i WindowSize) samples
        (frame * HopSize) (by simp) (not_lt.mp hstop)
      obtain ⟨p, hp, hpl, hp0⟩ := ih (fun f hfm => hpos f (List.mem_cons_of_mem _ hfm))
        (samples.take (frame * HopSize) ++
          ((List.range WindowSize).map fun i =>
            samples.getD (frame * HopSize + i) 0 * hannWindow i WindowSize) ++
          samples.drop (frame * HopSize + WindowSize))
        (frameStep st (peaksOfBinSize _ _) frame)
      exact ⟨p, hp, hpl.trans hl, hp0.trans (h0 hstart)⟩

theorem range_numFrames (samples : List ℚ) :
    List.range (numFramesOf samples) =
      0 :: (List.range (numFramesOf samples - 1)).map Nat.succ := by
  have h1 : numFramesOf samples = (numFramesOf samples - 1) + 1 := by
    unfold numFramesOf
    split_ifs <;> omega
  conv_lhs => rw [h1]
  exact List.range_succ_eq_map _

theorem gofftWindows_getD (hannWindow : Nat → Nat → ℚ) (samples : List ℚ) (frames : List Nat)
    (k : Nat) (hk : k < (gofftWindows hannWindow samples frames).length) :
    k < frames.length ∧
      (gofftWindows hannWindow samples frames).getD k [] =
        (List.range WindowSize).map fun i : Nat =>
          samples.getD (frames.getD k 0 * HopSize + i) 0 * hannWindow i WindowSize := by
  induction frames generalizing k with
  | nil => exact absurd hk (Nat.not_lt_zero _)
  | cons frame rest ih =>
    rw [gofftWindows] at hk ⊢
    simp only at hk ⊢
    split_ifs at hk ⊢ with hstop
    · exact absurd hk (Nat.not_lt_zero _)
    · cases k with
      | zero => exact ⟨Nat.succ_pos _, by rw [List.getD_cons_zero, List.getD_cons_zero]⟩
      | succ k =>
        obtain ⟨h1, h2⟩ := ih k (Nat.lt_of_succ_lt_succ hk)
        refine ⟨Nat.succ_lt_succ h1, ?_⟩
        rw [List.getD_cons_succ, List.getD_cons_succ]
        exact h2

/-- C20 fails on the code for `generateFingerprintCustomFFT`, and holds for its
sibling `generateFingerprintGofft`.  For every sample sequence `s` of at least
`WindowSize` samples the custom path returns with the caller's samples
rewritten: entry 0 is `s[0] * hann(0, 2048)` (which is 0 for the cosine
window); and from 3072 samples on, the window handed to the transform for
frame 1 is `s[512 + i] * hann(512 + i, 2048) * hann(i, 2048)` for `i < 1536`,
not `s[512 + i] * hann(i, 2048)`.  On the default path every window handed to
the transform is `s[512 * k + i] * hann(i, 2048)`. -/
theorem customFFT_rewrites_samples (hannWindow : Nat → Nat → ℚ) (perform : List ℚ → List ℚ)
    (samples : List ℚ)
    (hperf : ∀ w : List ℚ, w.length = WindowSize →
      perform w ≠ [] ∧ (perform w).length ≤ SampleRate)
    (hlen : WindowSize ≤ samples.length) :
    (∃ hs smp, generateFingerprintCustomFFT hannWindow perform samples = some (hs, smp) ∧
      smp.length = samples.length ∧
      smp.getD 0 0 = samples.getD 0 0 * hannWindow 0 WindowSize) ∧
    (WindowSize + 2 * HopSize ≤ samples.length → ∀ i, i < WindowSize - HopSize →
      ((customWindows hannWindow (List.range (numFramesOf samples)) samples).getD 1 []).getD i 0 =
        samples.getD (HopSize + i) 0 * hannWindow (HopSize + i) WindowSize *
          hannWindow i WindowSize) ∧
    (∀ k, k < (gofftWindows hannWindow samples (List.range (numFramesOf samples))).length →
      ∀ i, i < WindowSize →
        ((gofftWindows hannWindow samples (List.range (numFramesOf samples))).getD k []).getD i 0 =
          samples.getD (HopSize * k + i) 0 * hannWindow i WindowSize) := by
  have hstop : ¬ 0 * HopSize + WindowSize > samples.length := by
    rw [Nat.zero_mul, Nat.zero_add]
    exact not_lt.mpr hlen
  refine ⟨?_, ?_, ?_⟩
  · unfold generateFingerprintCustomFFT
    rw [range_numFrames, customFrames]
    simp only
    rw [if_neg hstop]
    obtain ⟨hne, hspec⟩ := hperf
      ((List.range WindowSize).map fun i =>
        samples.getD (0 * HopSize + i) 0 * hannWindow i WindowSize) (by simp)
    rw [extractPeaks_eq _ _ hne (by exact_mod_cast hspec)]
    obtain ⟨hl, -⟩ := rewindow_head
      ((List.range WindowSize).map fun i =>
        samples.getD (0 * HopSize + i) 0 * hannWindow i WindowSize) samples
      (0 * HopSize) (by simp) (not_lt.mp hstop)
    simp only
    generalize frameStep _ _ _ = st1
    obtain ⟨p, hp, hpl, hp0⟩ := customFrames_head hannWindow perform hperf
      ((List.range (numFramesOf samples - 1)).map Nat.succ)
      (by
        intro f hf
        obtain ⟨a, _, rfl⟩ := List.mem_map.mp hf
        exact Nat.succ_pos a)
      (samples.take (0 * HopSize) ++
        ((List.range WindowSize).map fun i =>
          samples.getD (0 * HopSize + i) 0 * hannWindow i WindowSize) ++
        samples.drop (0 * HopSize + WindowSize))
      st1
    refine ⟨p.2.hashes, p.1, ?_, hpl.trans hl, ?_⟩
    · rw [hp]
      rfl
    · rw [hp0, Nat.zero_mul, List.take_zero, List.nil_append,
        List.getD_append _ _ _ _ (by simp [WindowSize]),
        getD_windowed hannWindow samples 0 0 (by decide)]
  · intro hlong i hi
    have hframes : numFramesOf samples - 1 = (numFramesOf samples - 2) + 1 := by
      have h2 : 2 ≤ (samples.length - WindowSize) / HopSize := by
        rw [Nat.le_div_iff_mul_le (by decide)]
        omega
      unfold numFramesOf
      split_ifs <;> omega
    have hi2 : i < WindowSize := by omega
    have hi3 : HopSize + i < WindowSize := by
      unfold WindowSize HopSize at hi ⊢
      omega
    rw [range_numFrames, hframes, List.range_succ_eq_map, List.map_cons, customWindows]
    simp only
    rw [if_neg hstop, List.getD_cons_succ, customWindows]
    simp only
    have hl := (rewindow_head
      ((List.range WindowSize).map fun i =>
        samples.getD (0 * HopSize + i) 0 * hannWindow i WindowSize) samples
      (0 * HopSize) (by simp) (not_lt.mp hstop)).1
    rw [hl, if_neg (by
      unfold WindowSize HopSize at hlong ⊢
      omega), List.getD_cons_zero, getD_windowed hannWindow _ _ i hi2]
    rw [Nat.zero_mul, List.take_zero, List.nil_append, Nat.one_mul,
      List.getD_append _ _ _ _ (by rw [List.length_map, List.length_range]; exact hi3),
      getD_windowed hannWindow samples 0 (HopSize + i) hi3, Nat.zero_add]
  · intro k hk i hi
    obtain ⟨hk2, hw⟩ := gofftWindows_getD hannWindow samples _ k hk
    rw [List.length_range] at hk2
    have hframe : (List.range (numFramesOf samples)).getD k 0 = k := by
      rw [List.getD_eq_getElem?_getD, List.getElem?_range hk2]
      rfl
    rw [hw, getD_windowed hannWindow samples _ i hi, hframe, Nat.mul_comm]

/-- C20 on the custom path at 3072 samples of value 1, the constant window 1/2
and a transform that returns the one-bin spectrum `[0]`: the caller's entry 0
is 1/2 afterwards. -/
theorem customFFT_rewrites_samples_witness :
    (∀ w : List ℚ, w.length = WindowSize →
        (fun _ : List ℚ => [(0 : ℚ)]) w ≠ [] ∧
          ((fun _ : List ℚ => [(0 : ℚ)]) w).length ≤ SampleRate) ∧
      WindowSize ≤ (List.replicate 3072 (1 : ℚ)).length ∧
      ∃ hs smp, generateFingerprintCustomFFT (fun _ _ => 1 / 2) (fun _ => [0])
          (List.replicate 3072 1) = some (hs, smp) ∧
        smp.length = (List.replicate 3072 (1 : ℚ)).length ∧
        smp.getD 0 0 = (List.replicate 3072 (1 : ℚ)).getD 0 0 * (1 / 2) :=
  have hperf : ∀ w : List ℚ, w.length = WindowSize →
      (fun _ : List ℚ => [(0 : ℚ)]) w ≠ [] ∧
        ((fun _ : List ℚ => [(0 : ℚ)]) w).length ≤ SampleRate := by
    intro w _
    exact ⟨by simp, by simp [SampleRate]⟩
  have hlen : WindowSize ≤ (List.replicate 3072 (1 : ℚ)).length := by
    rw [List.length_replicate]
    decide
  ⟨hperf, hlen,
    (customFFT_rewrites_samples (fun _ _ => 1 / 2) (fun _ => [0]) (List.replicate 3072 1)
      hperf hlen).1⟩

/-! ## CooleyTukeyFFT -/

theorem revBits_lt (bits n : Nat) : revBits bits n < 2 ^ bits := by
  induction bits generalizing n with
  | zero => simp [revBits]
  | succ b ih =>
    rw [revBits, pow_succ]
    have h1 := ih (n / 2)
    have h2 : n % 2 < 2 := Nat.mod_lt _ (by decide)
    have h3 : n % 2 * 2 ^ b ≤ 1 * 2 ^ b := Nat.mul_le_mul_right _ (by omega)
    omega

theorem reverseBitsLoop_eq (count n result : Nat) :
    reverseBitsLoop count n result = result * 2 ^ count + revBits count n := by
  induction count generalizing n result with
  | zero => simp [reverseBitsLoop, revBits]
  | succ c ih =>
    rw [reverseBitsLoop, ih, revBits]
    have h1 : n >>> 1 = n / 2 := by
      rw [Nat.shiftRight_eq_div_pow]
    have h2 : (result <<< 1) ||| (n &&& 1) = 2 * result + n % 2 := by
      rw [Nat.shiftLeft_eq, Nat.and_one_is_mod, pow_one, mul_comm]
      rcases Nat.mod_two_eq_zero_or_one n with h | h
      · rw [h]
        simp
      · rw [h]
        apply Nat.eq_of_testBit_eq
        intro i
        rw [Nat.testBit_lor]
        cases i with
        | zero => simp [Nat.testBit_zero, Nat.add_mod]
        | succ i =>
          simp [Nat.testBit_succ]
          congr 1
          omega
    rw [h1, h2, pow_succ]
    ring

theorem reverseBits_eq (n bits : Nat) : reverseBits n bits = revBits bits n := by
  rw [reverseBits, reverseBitsLoop_eq, Nat.zero_mul, Nat.zero_add]

theorem testBit_revBits (bits n i : Nat) :
    (revBits bits n).testBit i = (decide (i < bits) && n.testBit (bits - 1 - i)) := by
  induction bits generalizing n i with
  | zero => simp [revBits]
  | succ b ih =>
    rw [revBits, Nat.mul_comm, Nat.testBit_mul_pow_two_add _ (revBits_lt b (n / 2))]
    split_ifs with h
    · rw [ih]
      have e : b + 1 - 1 - i = (b - 1 - i) + 1 := by omega
      rw [e, Nat.testBit_succ]
      simp [h]
      omega
    · by_cases h2 : i = b
      · subst h2
        simp [Nat.testBit_zero]
      · have e : i - b = (i - b - 1) + 1 := by omega
        rw [e, Nat.testBit_succ]
        have h4 : n % 2 / 2 = 0 := by omega
        rw [h4]
        simp
        omega

theorem revBits_revBits (bits n : Nat) (hn : n < 2 ^ bits) :
    revBits bits (revBits bits n) = n := by
  apply Nat.eq_of_testBit_eq
  intro i
  rw [testBit_revBits, testBit_revBits]
  by_cases h : i < bits
  · have e : bits - 1 - (bits - 1 - i) = i := by omega
    have h2 : bits - 1 - i < bits := by omega
    simp [h, h2, e]
  · have : n.testBit i = false := Nat.testBit_lt_two_pow
      (lt_of_lt_of_le hn (Nat.pow_le_pow_right (by decide) (not_lt.mp h)))
    simp [h, this]

theorem revBits_double (bits b : Nat) :
    revBits (bits + 1) (2 * b) = revBits bits b ∧
      revBits (bits + 1) (2 * b + 1) = 2 ^ bits + revBits bits b := by
  constructor
  · rw [revBits]
    have h1 : 2 * b % 2 = 0 := by omega
    have h2 : 2 * b / 2 = b := by omega
    rw [h1, h2, Nat.zero_mul, Nat.zero_add]
  · rw [revBits]
    have h1 : (2 * b + 1) % 2 = 1 := by omega
    have h2 : (2 * b + 1) / 2 = b := by omega
    rw [h1, h2, Nat.one_mul]

/-- The loop that doubles `nextPow2` ends, at the first power of two that is
at least `n`. -/
theorem nextPow2Loop_spec (n fuel p : Nat) (hfuel : n + 1 ≤ fuel + 2 ^ p) (h1 : 1 ≤ fuel)
    (hlow : p = 0 ∨ 2 ^ (p - 1) < n) :
    ∃ L, nextPow2Loop n fuel (2 ^ p) = some (2 ^ L) ∧ n ≤ 2 ^ L ∧ (L = 0 ∨ 2 ^ (L - 1) < n) := by
  induction fuel generalizing p with
  | zero => exact absurd h1 (by decide)
  | succ fuel ih =>
    rw [nextPow2Loop]
    split_ifs with h
    · have e : 2 ^ p * 2 = 2 ^ (p + 1) := (pow_succ 2 p).symm
      have hp1 : 1 ≤ 2 ^ p := Nat.one_le_two_pow
      rw [e]
      apply ih (p + 1)
      · rw [pow_succ]
        omega
      · omega
      · right
        exact h
    · exact ⟨p, rfl, not_lt.mp h, hlow⟩

theorem getD_set {R : Type} (l : List R) (i j : Nat) (a d : R) :
    (l.set i a).getD j d = if j = i ∧ i < l.length then a else l.getD j d := by
  rw [List.getD_eq_getElem?_getD, List.getD_eq_getElem?_getD, List.getElem?_set]
  by_cases h : i = j
  · subst h
    by_cases h2 : i < l.length
    · simp [h2]
    · simp [h2, List.getElem?_eq_none (not_lt.mp h2)]
  · have h3 : ¬ j = i := fun e => h e.symm
    simp [h, h3]

theorem revBits_zero (bits : Nat) : revBits bits 0 = 0 := by
  induction bits with
  | zero => rfl
  | succ b ih => simp [revBits, ih]

/-- The swap loop of `bitReverse` after the indices `1 .. c`: the entries whose
index or mirror index is at most `c` have been exchanged with their mirror. -/
theorem bitReverse_loop {R : Type} [Zero R] (L : Nat) (data : List R)
    (hlen : data.length = 2 ^ L) (c : Nat) (hc : c ≤ 2 ^ L - 1) :
    ((List.range c).foldl (fun (data : List R) (k : Nat) =>
        if revBits L (k + 1) > k + 1 then
          (data.set (k + 1) (data.getD (revBits L (k + 1)) 0)).set (revBits L (k + 1))
            (data.getD (k + 1) 0)
        else data) data).length = 2 ^ L ∧
      ∀ idx, idx < 2 ^ L →
        ((List.range c).foldl (fun (data : List R) (k : Nat) =>
          if revBits L (k + 1) > k + 1 then
            (data.set (k + 1) (data.getD (revBits L (k + 1)) 0)).set (revBits L (k + 1))
              (data.getD (k + 1) 0)
          else data) data).getD idx 0 =
          if idx ≤ c ∨ revBits L idx ≤ c then data.getD (revBits L idx) 0
          else data.getD idx 0 := by
  induction c with
  | zero =>
    refine ⟨hlen, ?_⟩
    intro idx hidx
    rw [List.range_zero, List.foldl_nil]
    split_ifs with h
    · have h0 : idx = 0 := by
        rcases h with h | h
        · omega
        · have := revBits_revBits L idx hidx
          rw [Nat.le_zero.mp h, revBits_zero] at this
          exact this.symm
      rw [h0, revBits_zero]
    · rfl
  | succ c ih =>
    obtain ⟨ihl, ihv⟩ := ih (by omega)
    rw [List.range_succ, List.foldl_append, List.foldl_cons, List.foldl_nil]
    generalize (List.range c).foldl (fun (data : List R) (k : Nat) =>
        if revBits L (k + 1) > k + 1 then
          (data.set (k + 1) (data.getD (revBits L (k + 1)) 0)).set (revBits L (k + 1))
            (data.getD (k + 1) 0)
        else data) data = d at ihl ihv ⊢
    have hi : c + 1 < 2 ^ L := by omega
    have hj : revBits L (c + 1) < 2 ^ L := revBits_lt L (c + 1)
    have hrr : revBits L (revBits L (c + 1)) = c + 1 := revBits_revBits L (c + 1) hi
    by_cases hgt : revBits L (c + 1) > c + 1
    · rw [if_pos hgt]
      refine ⟨by rw [List.length_set, List.length_set, ihl], ?_⟩
      intro idx hidx
      rw [getD_set, getD_set, List.length_set, ihl, ihv _ hi, ihv _ hj, hrr]
      by_cases e1 : idx = revBits L (c + 1)
      · rw [if_pos ⟨e1, hj⟩, if_neg (by omega), e1, hrr, if_pos (Or.inr (le_refl _))]
      · rw [if_neg (fun h => e1 h.1)]
        by_cases e2 : idx = c + 1
        · rw [if_pos ⟨e2, hi⟩, if_neg (by omega), e2, if_pos (Or.inl (le_refl _))]
        · rw [if_neg (fun h => e2 h.1), ihv _ hidx]
          have e3 : revBits L idx ≠ c + 1 := by
            intro h
            apply e1
            rw [← h, revBits_revBits L idx hidx]
          have hiff : (idx ≤ c ∨ revBits L idx ≤ c) ↔ (idx ≤ c + 1 ∨ revBits L idx ≤ c + 1) := by
            omega
          simp only [hiff]
    · rw [if_neg hgt]
      refine ⟨ihl, ?_⟩
      intro idx hidx
      rw [ihv _ hidx]
      by_cases e2 : idx = c + 1
      · subst e2
        rw [if_pos (Or.inl (le_refl _))]
        split_ifs with h
        · rfl
        · have : revBits L (c + 1) = c + 1 := by omega
          rw [this]
      · by_cases e3 : revBits L idx = c + 1
        · have e4 : idx = revBits L (c + 1) := by
            rw [← e3, revBits_revBits L idx hidx]
          rw [if_pos (Or.inr (le_of_eq e3)), if_pos (Or.inl (by omega))]
        · have hiff : (idx ≤ c ∨ revBits L idx ≤ c) ↔ (idx ≤ c + 1 ∨ revBits L idx ≤ c + 1) := by
            omega
          simp only [hiff]

/-- `bitReverse` on a slice of length `2 ^ L` puts the entry of index
`revBits L i` at index `i`. -/
theorem bitReverse_spec {R : Type} [Zero R] (L : Nat) (data : List R)
    (hlen : data.length = 2 ^ L) :
    (bitReverse data).length = 2 ^ L ∧
      ∀ i, i < 2 ^ L → (bitReverse data).getD i 0 = data.getD (revBits L i) 0 := by
  have hlog : Nat.log2 (2 ^ L) = L := Nat.log2_two_pow
  have h := bitReverse_loop L data hlen (2 ^ L - 1) (le_refl _)
  unfold bitReverse
  simp only [hlen, hlog, reverseBits_eq]
  refine ⟨h.1, ?_⟩
  intro i hi
  rw [h.2 i hi, if_pos (Or.inl (by omega))]

/-- The butterfly loop after `J` of its `h` iterations on the block at `i`. -/
theorem butterflies_loop {R : Type} [CommRing R] (wLen : R) (i h : Nat) (p : List R)
    (hin : i + 2 * h ≤ p.length) (J : Nat) (hJ : J ≤ h) :
    ((List.range J).foldl (fun (st : List R × R) (j : Nat) =>
        ((st.1.set (i + j) (st.1.getD (i + j) 0 + st.2 * st.1.getD (i + j + h) 0)).set
          (i + j + h) (st.1.getD (i + j) 0 - st.2 * st.1.getD (i + j + h) 0),
          st.2 * wLen)) (p, 1)).2 = wLen ^ J ∧
      ((List.range J).foldl (fun (st : List R × R) (j : Nat) =>
        ((st.1.set (i + j) (st.1.getD (i + j) 0 + st.2 * st.1.getD (i + j + h) 0)).set
          (i + j + h) (st.1.getD (i + j) 0 - st.2 * st.1.getD (i + j + h) 0),
          st.2 * wLen)) (p, 1)).1.length = p.length ∧
      ∀ idx,
        ((List.range J).foldl (fun (st : List R × R) (j : Nat) =>
          ((st.1.set (i + j) (st.1.getD (i + j) 0 + st.2 * st.1.getD (i + j + h) 0)).set
            (i + j + h) (st.1.getD (i + j) 0 - st.2 * st.1.getD (i + j + h) 0),
            st.2 * wLen)) (p, 1)).1.getD idx 0 =
          if i ≤ idx ∧ idx < i + J then p.getD idx 0 + wLen ^ (idx - i) * p.getD (idx + h) 0
          else if i + h ≤ idx ∧ idx < i + h + J then
            p.getD (idx - h) 0 - wLen ^ (idx - h - i) * p.getD idx 0
          else p.getD idx 0 := by
  induction J with
  | zero =>
    refine ⟨by simp, by simp, ?_⟩
    intro idx
    rw [List.range_zero, List.foldl_nil, if_neg (by omega), if_neg (by omega)]
  | succ J ih =>
    obtain ⟨ihw, ihl, ihv⟩ := ih (by omega)
    rw [List.range_succ, List.foldl_append, List.foldl_cons, List.foldl_nil]
    generalize (List.range J).foldl (fun (st : List R × R) (j : Nat) =>
        ((st.1.set (i + j) (st.1.getD (i + j) 0 + st.2 * st.1.getD (i + j + h) 0)).set
          (i + j + h) (st.1.getD (i + j) 0 - st.2 * st.1.getD (i + j + h) 0),
          st.2 * wLen)) (p, 1) = st at ihw ihl ihv ⊢
    refine ⟨by simp only [ihw, pow_succ], by simp only [List.length_set, ihl], ?_⟩
    intro idx
    simp only
    have hu : st.1.getD (i + J) 0 = p.getD (i + J) 0 := by
      rw [ihv (i + J), if_neg (by omega), if_neg (by omega)]
    have hv : st.1.getD (i + J + h) 0 = p.getD (i + J + h) 0 := by
      rw [ihv (i + J + h), if_neg (by omega), if_neg (by omega)]
    rw [getD_set, getD_set, List.length_set, ihl, hu, hv, ihw]
    by_cases e1 : idx = i + J + h
    · subst e1
      rw [if_pos ⟨rfl, by omega⟩, if_neg (by omega), if_pos (by omega)]
      have e2 : i + J + h - h = i + J := by omega
      have e3 : i + J - i = J := by omega
      rw [e2, e3]
    · rw [if_neg (fun hh => e1 hh.1)]
      by_cases e2 : idx = i + J
      · subst e2
        rw [if_pos ⟨rfl, by omega⟩, if_pos (by omega)]
        have e3 : i + J - i = J := by omega
        rw [e3]
      · rw [if_neg (fun hh => e2 hh.1), ihv idx]
        have h1 : (i ≤ idx ∧ idx < i + J) ↔ (i ≤ idx ∧ idx < i + (J + 1)) := by omega
        have h2 : (i + h ≤ idx ∧ idx < i + h + J) ↔ (i + h ≤ idx ∧ idx < i + h + (J + 1)) := by
          omega
        simp only [h1, h2]

/-- The butterfly loop on the block at `i = b * (2 * h)`: the block is replaced
by its stage values, the rest of the slice is unchanged. -/
theorem butterflies_spec {R : Type} [CommRing R] (wLen : R) (b h : Nat) (p : List R)
    (hin : b * (2 * h) + 2 * h ≤ p.length) :
    (butterflies wLen (b * (2 * h)) h p).length = p.length ∧
      ∀ idx, (butterflies wLen (b * (2 * h)) h p).getD idx 0 =
        if b * (2 * h) ≤ idx ∧ idx < b * (2 * h) + 2 * h then
          stageFn wLen h (fun k => p.getD k 0) idx
        else p.getD idx 0 := by
  obtain ⟨-, hl, hv⟩ := butterflies_loop wLen (b * (2 * h)) h p hin h (le_refl _)
  unfold butterflies
  refine ⟨hl, ?_⟩
  intro idx
  rw [hv idx]
  unfold stageFn
  by_cases c1 : b * (2 * h) ≤ idx ∧ idx < b * (2 * h) + h
  · have hmod : idx % (2 * h) = idx - b * (2 * h) := by
      have e : idx = (idx - b * (2 * h)) + b * (2 * h) := by omega
      conv_lhs => rw [e]
      rw [Nat.add_mul_mod_self_right, Nat.mod_eq_of_lt (by omega)]
    rw [if_pos c1, if_pos ⟨c1.1, by omega⟩, hmod, if_pos (by omega)]
  · rw [if_neg c1]
    by_cases c2 : b * (2 * h) + h ≤ idx ∧ idx < b * (2 * h) + h + h
    · have hmod : idx % (2 * h) = idx - b * (2 * h) := by
        have e : idx = (idx - b * (2 * h)) + b * (2 * h) := by omega
        conv_lhs => rw [e]
        rw [Nat.add_mul_mod_self_right, Nat.mod_eq_of_lt (by omega)]
      rw [if_pos c2, if_pos ⟨by omega, by omega⟩, hmod, if_neg (by omega)]
      have e2 : idx - h - b * (2 * h) = idx - b * (2 * h) - h := by omega
      rw [e2]
    · rw [if_neg c2, if_neg (by omega)]

theorem block_bound (b S idx : Nat) (hS : 0 < S) (h1 : (b + 1) * S ≤ idx) :
    (b + 1) * S + idx % S ≤ idx := by
  have h2 : b + 1 ≤ idx / S := (Nat.le_div_iff_mul_le hS).mpr h1
  have h3 : (b + 1) * S ≤ idx / S * S := Nat.mul_le_mul_right S h2
  have h4 := Nat.div_add_mod idx S
  rw [Nat.mul_comm] at h4
  omega

/-- The block loop ends and replaces every entry from the current block on by
its stage value. -/
theorem blocks_spec {R : Type} [CommRing R] (wLen : R) (h B : Nat) (hh : 0 < h)
    (fuel b : Nat) (p : List R) (hlen : p.length = B * (2 * h)) (hb : b ≤ B)
    (hfuel : B - b < fuel) :
    ∃ out, blocks wLen (B * (2 * h)) (2 * h) fuel (b * (2 * h)) p = some out ∧
      out.length = p.length ∧
      ∀ idx, out.getD idx 0 =
        if b * (2 * h) ≤ idx ∧ idx < B * (2 * h) then stageFn wLen h (fun k => p.getD k 0) idx
        else p.getD idx 0 := by
  induction fuel generalizing b p with
  | zero => exact absurd hfuel (Nat.not_lt_zero _)
  | succ fuel ih =>
    rw [blocks]
    have hS : 0 < 2 * h := by omega
    by_cases hlt : b < B
    · have hi : b * (2 * h) < B * (2 * h) := Nat.mul_lt_mul_of_pos_right hlt hS
      have hnext : (b + 1) * (2 * h) ≤ B * (2 * h) := Nat.mul_le_mul_right _ hlt
      have hsucc : (b + 1) * (2 * h) = b * (2 * h) + 2 * h := Nat.succ_mul _ _
      have hhalf : 2 * h / 2 = h := by omega
      rw [if_pos hi, hhalf, ← hsucc]
      obtain ⟨hl1, hv1⟩ := butterflies_spec wLen b h p (by omega)
      obtain ⟨out, hout, hl, hv⟩ := ih (b + 1) (butterflies wLen (b * (2 * h)) h p)
        (hl1.trans hlen) hlt (by omega)
      refine ⟨out, hout, hl.trans hl1, ?_⟩
      intro idx
      rw [hv idx]
      by_cases c1 : (b + 1) * (2 * h) ≤ idx ∧ idx < B * (2 * h)
      · rw [if_pos c1, if_pos ⟨by omega, c1.2⟩]
        have hbound := block_bound b (2 * h) idx hS c1.1
        unfold stageFn
        simp only
        by_cases c2 : idx % (2 * h) < h
        · rw [if_pos c2, if_pos c2, hv1 idx, hv1 (idx + h), if_neg (by omega), if_neg (by omega)]
        · rw [if_neg c2, if_neg c2, hv1 idx, hv1 (idx - h), if_neg (by omega), if_neg (by omega)]
      · rw [if_neg c1, hv1 idx]
        by_cases c3 : b * (2 * h) ≤ idx ∧ idx < b * (2 * h) + 2 * h
        · rw [if_pos c3, if_pos ⟨c3.1, by omega⟩]
        · rw [if_neg c3, if_neg (by omega)]
    · have hbB : b = B := by omega
      subst hbB
      rw [if_neg (lt_irrefl _)]
      refine ⟨p, rfl, rfl, ?_⟩
      intro idx
      rw [if_neg (by omega)]

theorem sum_even_odd {R : Type} [CommRing R] (g : Nat → R) (s : Nat) :
    Finset.sum (Finset.range (2 * s)) g =
      Finset.sum (Finset.range s) (fun m => g (2 * m)) +
        Finset.sum (Finset.range s) (fun m => g (2 * m + 1)) := by
  induction s with
  | zero => simp
  | succ s ih =>
    have e : 2 * (s + 1) = 2 * s + 1 + 1 := by ring
    rw [e, Finset.sum_range_succ, Finset.sum_range_succ, ih, Finset.sum_range_succ,
      Finset.sum_range_succ]
    ring

/-- The decimation-in-time identity behind one stage: two transforms of length
`s` over the even and the odd entries combine to one of length `2 * s`. -/
theorem dit_step {R : Type} [CommRing R] (x : Nat → R) (ω ω2 : R) (s M r k : Nat)
    (hsq : ω2 ^ 2 = ω) (hneg : ω2 ^ s = -1) :
    (Finset.sum (Finset.range s) (fun m => x (m * (2 * M) + r) * ω ^ (k * m)) +
        ω2 ^ k * Finset.sum (Finset.range s) (fun m => x (m * (2 * M) + (M + r)) * ω ^ (k * m)) =
      Finset.sum (Finset.range (2 * s)) (fun m => x (m * M + r) * ω2 ^ (k * m))) ∧
    (Finset.sum (Finset.range s) (fun m => x (m * (2 * M) + r) * ω ^ (k * m)) -
        ω2 ^ k * Finset.sum (Finset.range s) (fun m => x (m * (2 * M) + (M + r)) * ω ^ (k * m)) =
      Finset.sum (Finset.range (2 * s)) (fun m => x (m * M + r) * ω2 ^ ((k + s) * m))) := by
  have e1 : ∀ m, ω2 ^ (k * (2 * m)) = ω ^ (k * m) := by
    intro m
    rw [← hsq, ← pow_mul]
    congr 1
    ring
  have e2 : ∀ m, ω2 ^ (k * (2 * m + 1)) = ω2 ^ k * ω ^ (k * m) := by
    intro m
    rw [← hsq, ← pow_mul, ← pow_add]
    congr 1
    ring
  have e3 : ∀ m, ω2 ^ ((k + s) * (2 * m)) = ω ^ (k * m) := by
    intro m
    have : (k + s) * (2 * m) = k * (2 * m) + s * (2 * m) := by ring
    have hs : ω2 ^ (s * (2 * m)) = 1 := by
      rw [pow_mul, hneg, pow_mul]
      simp
    rw [this, pow_add, e1, hs, mul_one]
  have e4 : ∀ m, ω2 ^ ((k + s) * (2 * m + 1)) = -(ω2 ^ k * ω ^ (k * m)) := by
    intro m
    have : (k + s) * (2 * m + 1) = k * (2 * m + 1) + s * (2 * m + 1) := by ring
    have hs : ω2 ^ (s * (2 * m + 1)) = -1 := by
      rw [pow_mul, hneg, pow_succ, pow_mul]
      simp
    rw [this, pow_add, e2, hs, mul_neg, mul_one]
  have i1 : ∀ m, 2 * m * M + r = m * (2 * M) + r := by
    intro m
    ring
  have i2 : ∀ m, (2 * m + 1) * M + r = m * (2 * M) + (M + r) := by
    intro m
    ring
  constructor
  · rw [sum_even_odd, Finset.mul_sum]
    congr 1
    · apply Finset.sum_congr rfl
      intro m _
      rw [i1, e1]
    · apply Finset.sum_congr rfl
      intro m _
      rw [i2, e2]
      ring
  · rw [sum_even_odd, Finset.mul_sum, sub_eq_add_neg, ← Finset.sum_neg_distrib]
    congr 1
    · apply Finset.sum_congr rfl
      intro m _
      rw [i1, e3]
    · apply Finset.sum_congr rfl
      intro m _
      rw [i2, e4]
      ring

/-- One stage turns the transforms of length `2 ^ p` of the `2 ^ (q + 1)`
blocks into the transforms of length `2 ^ (p + 1)` of the `2 ^ q` blocks. -/
theorem stageFn_step {R : Type} [CommRing R] (x A : Nat → R) (ω ω2 : R) (p q : Nat)
    (hsq : ω2 ^ 2 = ω) (hneg : ω2 ^ 2 ^ p = -1)
    (hA : ∀ b, b < 2 ^ (q + 1) → ∀ k, k < 2 ^ p →
      A (b * 2 ^ p + k) =
        Finset.sum (Finset.range (2 ^ p))
          (fun m => x (m * 2 ^ (q + 1) + revBits (q + 1) b) * ω ^ (k * m)))
    (b : Nat) (hb : b < 2 ^ q) (k : Nat) (hk : k < 2 ^ (p + 1)) :
    stageFn ω2 (2 ^ p) A (b * 2 ^ (p + 1) + k) =
      Finset.sum (Finset.range (2 ^ (p + 1)))
        (fun m => x (m * 2 ^ q + revBits q b) * ω2 ^ (k * m)) := by
  have hs : 0 < 2 ^ p := Nat.two_pow_pos p
  have hp2 : 2 ^ (p + 1) = 2 * 2 ^ p := by rw [pow_succ, mul_comm]
  have hq2 : 2 ^ (q + 1) = 2 * 2 ^ q := by rw [pow_succ, mul_comm]
  have hmod : (b * 2 ^ (p + 1) + k) % (2 * 2 ^ p) = k := by
    rw [← hp2, Nat.add_comm, Nat.add_mul_mod_self_right, Nat.mod_eq_of_lt hk]
  obtain ⟨hr0, hr1⟩ := revBits_double q b
  have hb0 : 2 * b < 2 ^ (q + 1) := by omega
  have hb1 : 2 * b + 1 < 2 ^ (q + 1) := by omega
  unfold stageFn
  rw [hmod]
  by_cases hlow : k < 2 ^ p
  · rw [if_pos hlow]
    have i0 : b * 2 ^ (p + 1) + k = 2 * b * 2 ^ p + k := by rw [hp2]; ring
    have i1 : b * 2 ^ (p + 1) + k + 2 ^ p = (2 * b + 1) * 2 ^ p + k := by rw [hp2]; ring
    rw [i1, i0, hA (2 * b) hb0 k hlow, hA (2 * b + 1) hb1 k hlow, hr0, hr1, hq2, hp2]
    exact (dit_step x ω ω2 (2 ^ p) (2 ^ q) (revBits q b) k hsq hneg).1
  · rw [if_neg hlow]
    obtain ⟨k0, hk0⟩ : ∃ k0, k = k0 + 2 ^ p := ⟨k - 2 ^ p, by omega⟩
    subst hk0
    have hk1 : k0 < 2 ^ p := by omega
    have i0 : b * 2 ^ (p + 1) + (k0 + 2 ^ p) - 2 ^ p = 2 * b * 2 ^ p + k0 := by
      rw [hp2]
      have : b * (2 * 2 ^ p) = 2 * b * 2 ^ p := by ring
      omega
    have i1 : b * 2 ^ (p + 1) + (k0 + 2 ^ p) = (2 * b + 1) * 2 ^ p + k0 := by rw [hp2]; ring
    have i2 : k0 + 2 ^ p - 2 ^ p = k0 := by omega
    rw [i0, i1, i2, hA (2 * b) hb0 k0 hk1, hA (2 * b + 1) hb1 k0 hk1, hr0, hr1, hq2, hp2]
    exact (dit_step x ω ω2 (2 ^ p) (2 ^ q) (revBits q b) k0 hsq hneg).2

theorem wLen_half_turn {R : Type} [CommRing R] (wLenOf : Nat → R) (h2 : wLenOf 2 = -1)
    (hsq : ∀ p, wLenOf (2 ^ (p + 1)) ^ 2 = wLenOf (2 ^ p)) (p : Nat) :
    wLenOf (2 ^ (p + 1)) ^ 2 ^ p = -1 := by
  induction p with
  | zero => simpa using h2
  | succ p ih =>
    have e : 2 ^ (p + 1) = 2 * 2 ^ p := by rw [pow_succ, mul_comm]
    conv_lhs => rw [e, pow_mul, hsq (p + 1)]
    exact ih

/-- The stage loop, entered at block size `2 ^ (p + 1)` on a slice that holds
the transforms of length `2 ^ p` of its `2 ^ q` blocks, ends with the transform
of length `2 ^ (p + q)`. -/
theorem stages_spec {R : Type} [CommRing R] (wLenOf : Nat → R) (h2 : wLenOf 2 = -1)
    (hsq : ∀ p, wLenOf (2 ^ (p + 1)) ^ 2 = wLenOf (2 ^ p)) (x : Nat → R)
    (N blockFuel q : Nat) (hbf : N ≤ blockFuel) (p fuel : Nat) (padded : List R)
    (hN : N = 2 ^ (p + q)) (hlen : padded.length = N) (hfuel : q < fuel)
    (hinv : ∀ b, b < 2 ^ q → ∀ k, k < 2 ^ p →
      padded.getD (b * 2 ^ p + k) 0 =
        Finset.sum (Finset.range (2 ^ p))
          (fun m => x (m * 2 ^ q + revBits q b) * wLenOf (2 ^ p) ^ (k * m))) :
    ∃ out, stages wLenOf N blockFuel fuel (2 ^ (p + 1)) padded = some out ∧
      out.length = N ∧
      ∀ k, k < N → out.getD k 0 =
        Finset.sum (Finset.range N) (fun m => x m * wLenOf N ^ (k * m)) := by
  induction q generalizing p fuel padded with
  | zero =>
    obtain ⟨fuel, rfl⟩ : ∃ f, fuel = f + 1 := ⟨fuel - 1, by omega⟩
    rw [Nat.add_zero] at hN
    have hsz : ¬ 2 ^ (p + 1) ≤ N := by
      rw [hN, pow_succ]
      have := Nat.two_pow_pos p
      omega
    rw [stages, if_neg hsz]
    refine ⟨padded, rfl, hlen, ?_⟩
    intro k hk
    have h0 := hinv 0 (by decide) k (by rw [← hN]; exact hk)
    rw [Nat.zero_mul, Nat.zero_add] at h0
    rw [h0, hN]
    apply Finset.sum_congr rfl
    intro m _
    simp [revBits]
  | succ q ih =>
    obtain ⟨fuel, rfl⟩ : ∃ f, fuel = f + 1 := ⟨fuel - 1, by omega⟩
    have hp2 : 2 ^ (p + 1) = 2 * 2 ^ p := by rw [pow_succ, mul_comm]
    have hNB : N = 2 ^ q * (2 * 2 ^ p) := by
      rw [hN, ← hp2, ← pow_add]
      congr 1
      omega
    have hN1 : N = 2 ^ (p + 1 + q) := by
      rw [hN]
      congr 1
      omega
    have hsz : 2 ^ (p + 1) ≤ N := by
      rw [hN]
      exact Nat.pow_le_pow_right (by decide) (by omega)
    have hB : 2 ^ q < N := by
      rw [hN]
      exact Nat.pow_lt_pow_right (by decide) (by omega)
    rw [stages, if_pos hsz]
    have hBf : 2 ^ q - 0 < blockFuel := by
      rw [Nat.sub_zero]
      exact lt_of_lt_of_le hB hbf
    obtain ⟨out1, hout1, hl1, hv1⟩ := blocks_spec (wLenOf (2 ^ (p + 1))) (2 ^ p) (2 ^ q)
      (Nat.two_pow_pos p) blockFuel 0 padded (hlen.trans hNB) (Nat.zero_le _) hBf
    rw [Nat.zero_mul, ← hNB, ← hp2] at hout1
    rw [hout1]
    simp only
    have e2 : 2 ^ (p + 1) * 2 = 2 ^ (p + 1 + 1) := (pow_succ 2 (p + 1)).symm
    rw [e2]
    apply ih (p + 1) fuel out1 hN1 (hl1.trans hlen) (by omega)
    intro b hb k hk
    have hidx : b * 2 ^ (p + 1) + k < 2 ^ q * (2 * 2 ^ p) := by
      rw [← hp2]
      have : (b + 1) * 2 ^ (p + 1) ≤ 2 ^ q * 2 ^ (p + 1) := Nat.mul_le_mul_right _ hb
      rw [Nat.succ_mul] at this
      omega
    rw [hv1, if_pos ⟨by rw [Nat.zero_mul]; exact Nat.zero_le _, hidx⟩]
    exact stageFn_step x (fun k => padded.getD k 0) (wLenOf (2 ^ p)) (wLenOf (2 ^ (p + 1))) p q
      (hsq p) (wLen_half_turn wLenOf h2 hsq p) hinv b hb k hk

theorem getD_padded {R : Type} [Zero R] (input : List R) (c m : Nat) :
    (input ++ List.replicate c (0 : R)).getD m 0 = input.getD m 0 := by
  rw [List.getD_eq_getElem?_getD, List.getD_eq_getElem?_getD, List.getElem?_append]
  split_ifs with h
  · rfl
  · rw [List.getElem?_eq_none (not_lt.mp h), List.getElem?_replicate]
    split_ifs <;> rfl

/-- `CooleyTukeyFFT` in a commutative ring: for an input of at least two
entries and twiddle factors with `wLenOf 2 = -1` and
`wLenOf (2 * s) ^ 2 = wLenOf s` on the powers of two, the result has the
length `2 ^ L` of the first power of two from the input length on and holds the
transform of the zero-padded input with root `wLenOf (2 ^ L)`. -/
theorem CooleyTukeyFFT_ring {R : Type} [CommRing R] (wLenOf : Nat → R) (h2 : wLenOf 2 = -1)
    (hsq : ∀ p, wLenOf (2 ^ (p + 1)) ^ 2 = wLenOf (2 ^ p)) (fuel : Nat) (input : List R)
    (hn : 2 ≤ input.length) (hfuel : 2 * input.length ≤ fuel) :
    ∃ L out, CooleyTukeyFFT wLenOf fuel input = some out ∧ out.length = 2 ^ L ∧
      input.length ≤ 2 ^ L ∧ 2 ^ L < 2 * input.length ∧
      ∀ k, k < 2 ^ L → out.getD k 0 =
        Finset.sum (Finset.range (2 ^ L))
          (fun m => input.getD m 0 * wLenOf (2 ^ L) ^ (k * m)) := by
  obtain ⟨L, hL, hge, hmin⟩ := nextPow2Loop_spec input.length fuel 0
    (by rw [pow_zero]; omega) (by omega) (Or.inl rfl)
  rw [pow_zero] at hL
  have hlt : 2 ^ L < 2 * input.length := by
    rcases hmin with h | h
    · rw [h, pow_zero]
      omega
    · obtain ⟨L0, rfl⟩ : ∃ L0, L = L0 + 1 := ⟨L - 1, by
        rcases Nat.eq_zero_or_pos L with h0 | h0
        · rw [h0, pow_zero] at hge
          omega
        · omega⟩
      rw [Nat.add_sub_cancel] at h
      rw [pow_succ]
      omega
  have hplen : (input ++ List.replicate (2 ^ L - input.length) (0 : R)).length = 2 ^ L := by
    rw [List.length_append, List.length_replicate]
    omega
  obtain ⟨hbl, hbv⟩ := bitReverse_spec L _ hplen
  have hLlt : L < 2 ^ L := Nat.lt_two_pow L
  obtain ⟨out, hout, hol, hov⟩ := stages_spec wLenOf h2 hsq (fun m => input.getD m 0)
    (2 ^ L) fuel L (by omega) 0 fuel
    (bitReverse (input ++ List.replicate (2 ^ L - input.length) (0 : R)))
    (by rw [Nat.zero_add]) hbl (by omega)
    (by
      intro b hb k hk
      rw [pow_zero] at hk
      have hk0 : k = 0 := by omega
      subst hk0
      rw [pow_zero, Nat.mul_one, Nat.add_zero, hbv b hb, getD_padded]
      simp)
  refine ⟨L, out, ?_, hol, hge, hlt, hov⟩
  unfold CooleyTukeyFFT
  simp only
  rw [if_neg (by omega), hL]
  simp only
  rw [← hout]
  rfl

/-- The twiddle factor `complex(math.Cos(angle), math.Sin(angle))` with
`angle = -2 * math.Pi / float64(size)` is `e^{-2πi/size}`. -/
theorem wLen_eq_exp (size : Nat) :
    (⟨Real.cos (-2 * Real.pi / size), Real.sin (-2 * Real.pi / size)⟩ : ℂ) =
      Complex.exp (((-2 * Real.pi / size : ℝ) : ℂ) * Complex.I) := by
  rw [Complex.exp_mul_I, ← Complex.ofReal_cos, ← Complex.ofReal_sin, Complex.mk_eq_add_mul_I]

/-- C17. `CooleyTukeyFFT` in exact complex arithmetic, with the twiddle factors
`complex(cos(-2π/size), sin(-2π/size))` of the code.  An input of at most one
entry is returned as it is.  For an input of `n ≥ 2` entries (and fuel for the
loops) the function returns a sequence of length `2 ^ L`, the smallest power
of two that is at least `n`, whose entry `k` is the discrete Fourier transform
`Σ_{m < 2^L} x[m]·e^{-2πi·k·m/2^L}` of the input padded with zeros
(`input.getD m 0`). -/
theorem CooleyTukeyFFT_correct (fuel : Nat) (input : List ℂ) :
    (input.length ≤ 1 →
      CooleyTukeyFFT (fun size : Nat =>
        (⟨Real.cos (-2 * Real.pi / size), Real.sin (-2 * Real.pi / size)⟩ : ℂ))
        fuel input = some input) ∧
    (2 ≤ input.length → 2 * input.length ≤ fuel →
      ∃ L out, CooleyTukeyFFT (fun size : Nat =>
          (⟨Real.cos (-2 * Real.pi / size), Real.sin (-2 * Real.pi / size)⟩ : ℂ))
          fuel input = some out ∧
        out.length = 2 ^ L ∧ input.length ≤ 2 ^ L ∧
        (∀ q, input.length ≤ 2 ^ q → 2 ^ L ≤ 2 ^ q) ∧
        ∀ k, k < 2 ^ L → out.getD k 0 =
          Finset.sum (Finset.range (2 ^ L)) (fun m => input.getD m 0 *
            Complex.exp (-2 * Real.pi * Complex.I * k * m / 2 ^ L))) := by
  generalize hWdef : (fun size : Nat =>
    (⟨Real.cos (-2 * Real.pi / size), Real.sin (-2 * Real.pi / size)⟩ : ℂ)) = W
  have hW : ∀ size : Nat, W size =
      Complex.exp (((-2 * Real.pi / size : ℝ) : ℂ) * Complex.I) := by
    intro size
    rw [← hWdef]
    exact wLen_eq_exp size
  constructor
  · intro h1
    unfold CooleyTukeyFFT
    simp only
    rw [if_pos h1]
  · intro hn hfuel
    have h2 : W 2 = -1 := by
      rw [hW]
      have e : ((-2 * Real.pi / (2 : Nat) : ℝ) : ℂ) * Complex.I = -(Real.pi * Complex.I) := by
        push_cast
        ring
      rw [e, Complex.exp_neg, Complex.exp_pi_mul_I]
      norm_num
    have hsq : ∀ p, W (2 ^ (p + 1)) ^ 2 = W (2 ^ p) := by
      intro p
      rw [hW, hW, ← Complex.exp_nat_mul]
      congr 1
      push_cast
      have hp : (2 : ℂ) ^ p ≠ 0 := pow_ne_zero p two_ne_zero
      field_simp
      ring
    obtain ⟨L, out, hout, hlen, hge, hlt, hval⟩ :=
      CooleyTukeyFFT_ring W h2 hsq fuel input hn hfuel
    refine ⟨L, out, hout, hlen, hge, ?_, ?_⟩
    · intro q hq
      apply Nat.pow_le_pow_right (by decide)
      by_contra hcon
      have h1 : q + 1 ≤ L := by omega
      have h3 : 2 ^ (q + 1) ≤ 2 ^ L := Nat.pow_le_pow_right (by decide) h1
      rw [pow_succ] at h3
      omega
    · intro k hk
      rw [hval k hk]
      apply Finset.sum_congr rfl
      intro m _
      congr 1
      rw [hW, ← Complex.exp_nat_mul]
      congr 1
      push_cast
      ring

/-- C17 at the two-entry input `[1, 0]` with fuel 4. -/
theorem CooleyTukeyFFT_correct_witness :
    2 ≤ ([1, 0] : List ℂ).length ∧ 2 * ([1, 0] : List ℂ).length ≤ 4 ∧
      ∃ L out, CooleyTukeyFFT (fun size : Nat =>
          (⟨Real.cos (-2 * Real.pi / size), Real.sin (-2 * Real.pi / size)⟩ : ℂ))
          4 [1, 0] = some out ∧
        out.length = 2 ^ L ∧ ([1, 0] : List ℂ).length ≤ 2 ^ L ∧
        (∀ q, ([1, 0] : List ℂ).length ≤ 2 ^ q → 2 ^ L ≤ 2 ^ q) ∧
        ∀ k, k < 2 ^ L → out.getD k 0 =
          Finset.sum (Finset.range (2 ^ L)) (fun m => ([1, 0] : List ℂ).getD m 0 *
            Complex.exp (-2 * Real.pi * Complex.I * k * m / 2 ^ L)) :=
  ⟨by simp, by simp, (CooleyTukeyFFT_correct 4 [1, 0]).2 (by simp) (by simp)⟩

/-- The transform of the repository is quiet on silence: in exact complex
arithmetic, with the twiddle factors of the code, `CooleyTukeyFFT` on `n ≥ 2`
zeros returns a sequence of at least `n` entries, all of them zero, so that
every magnitude `cmplx.Abs` that `performFFT` takes of it is zero. -/
theorem CooleyTukeyFFT_of_zeros (n fuel : Nat) (hn : 2 ≤ n) (hfuel : 2 * n ≤ fuel) :
    ∃ out, CooleyTukeyFFT (fun size : Nat =>
        (⟨Real.cos (-2 * Real.pi / size), Real.sin (-2 * Real.pi / size)⟩ : ℂ))
        fuel (List.replicate n 0) = some out ∧
      n ≤ out.length ∧ ∀ x ∈ out, Complex.abs x = 0 := by
  generalize hWdef : (fun size : Nat =>
    (⟨Real.cos (-2 * Real.pi / size), Real.sin (-2 * Real.pi / size)⟩ : ℂ)) = W
  have hW : ∀ size : Nat, W size =
      Complex.exp (((-2 * Real.pi / size : ℝ) : ℂ) * Complex.I) := by
    intro size
    rw [← hWdef]
    exact wLen_eq_exp size
  have h2 : W 2 = -1 := by
    rw [hW]
    have e : ((-2 * Real.pi / (2 : Nat) : ℝ) : ℂ) * Complex.I = -(Real.pi * Complex.I) := by
      push_cast
      ring
    rw [e, Complex.exp_neg, Complex.exp_pi_mul_I]
    norm_num
  have hsq : ∀ p, W (2 ^ (p + 1)) ^ 2 = W (2 ^ p) := by
    intro p
    rw [hW, hW, ← Complex.exp_nat_mul]
    congr 1
    push_cast
    have hp : (2 : ℂ) ^ p ≠ 0 := pow_ne_zero p two_ne_zero
    field_simp
    ring
  have hlen : (List.replicate n (0 : ℂ)).length = n := List.length_replicate _ _
  obtain ⟨L, out, hout, hol, hge, -, hval⟩ :=
    CooleyTukeyFFT_ring W h2 hsq fuel (List.replicate n (0 : ℂ)) (by rw [hlen]; exact hn)
      (by rw [hlen]; exact hfuel)
  refine ⟨out, hout, by rw [hol]; rw [hlen] at hge; exact hge, ?_⟩
  intro x hx
  obtain ⟨k, hk, rfl⟩ := List.getElem_of_mem hx
  have hk2 : k < 2 ^ L := by rw [← hol]; exact hk
  have hv := hval k hk2
  rw [List.getD_eq_getElem?_getD, List.getElem?_eq_getElem hk, Option.getD_some] at hv
  rw [hv]
  have hz : ∀ m, (List.replicate n (0 : ℂ)).getD m 0 = 0 := by
    intro m
    rw [List.getD_eq_getElem?_getD, List.getElem?_replicate]
    split_ifs <;> rfl
  simp only [hz, zero_mul, Finset.sum_const_zero, map_zero]

/-! ## decodeWAV: termination -/

/-- With an audio format other than 1, or a bit depth of 8 or 16, the loop
ends within one iteration more than there are bytes left: every iteration but
the last takes at least one byte. -/
theorem wavLoop_returns (audioFormat numChannels bitsPerSample : Nat)
    (hsup : audioFormat ≠ 1 ∨ bitsPerSample = 8 ∨ bitsPerSample = 16) (fuel : Nat)
    (data : List Nat) (samples : List ℚ) (hfuel : data.length < fuel) :
    ∃ r, wavLoop audioFormat numChannels bitsPerSample fuel data samples = some r := by
  induction fuel generalizing data samples with
  | zero => exact absurd hfuel (Nat.not_lt_zero _)
  | succ fuel ih =>
    rw [wavLoop_succ]
    by_cases hb : samples.length < sampleBudget
    · rw [if_pos hb]
      by_cases hfmt : audioFormat = 1
      · rw [if_pos hfmt]
        by_cases h16 : bitsPerSample = 16
        · rw [if_pos h16]
          match data, hfuel with
          | [], _ => exact ⟨_, rfl⟩
          | [_], _ => exact ⟨_, rfl⟩
          | b0 :: b1 :: rest, hfuel =>
            have hrest : rest.length < fuel := by
              simp only [List.length_cons] at hfuel
              omega
            by_cases hch : numChannels = 2
            · simp only [if_pos hch]
              match rest, hrest with
              | [], _ => exact ⟨_, rfl⟩
              | [_], _ => exact ⟨_, rfl⟩
              | _ :: _ :: rest2, hrest =>
                exact ih rest2 _ (by
                  simp only [List.length_cons] at hrest
                  omega)
            · simp only [if_neg hch]
              exact ih rest _ hrest
        · rw [if_neg h16]
          have h8 : bitsPerSample = 8 := by
            rcases hsup with h | h | h
            · exact absurd hfmt h
            · exact h
            · exact absurd h h16
          rw [if_pos h8]
          match data, hfuel with
          | [], _ => exact ⟨_, rfl⟩
          | b :: rest, hfuel =>
            have hrest : rest.length < fuel := by
              simp only [List.length_cons] at hfuel
              omega
            by_cases hch : numChannels = 2
            · simp only [if_pos hch]
              match rest, hrest with
              | [], _ => exact ⟨_, rfl⟩
              | _ :: rest2, hrest =>
                exact ih rest2 _ (by
                  simp only [List.length_cons] at hrest
                  omega)
            · simp only [if_neg hch]
              exact ih rest _ hrest
      · rw [if_neg hfmt]
        exact ⟨_, rfl⟩
    · rw [if_neg hb]
      exact ⟨_, rfl⟩

/-- C21 fails on the code.  On a stream with a whole RIFF/WAVE header, audio
format 1 and a bit depth other than 8 and 16 (24-bit PCM, say) the loop of
`decodeWAV` reads nothing, appends nothing and does not break: it is still
running after any number of iterations, so `decodeWAV` does not return.  On
every other stream `decodeWAV` returns a sample sequence or an error, within
one loop iteration more than the stream has payload bytes. -/
theorem decodeWAV_hangs_on_bit_depth (data : List Nat) :
    (44 ≤ data.length → data.take 4 = riffTag → (data.drop 8).take 4 = waveTag →
      uint16At data 20 = 1 → uint16At data 34 ≠ 8 → uint16At data 34 ≠ 16 →
      ∀ fuel, decodeWAV fuel data = none) ∧
    (data.length < 44 ∨ data.take 4 ≠ riffTag ∨ (data.drop 8).take 4 ≠ waveTag ∨
        uint16At data 20 ≠ 1 ∨ uint16At data 34 = 8 ∨ uint16At data 34 = 16 →
      ∀ fuel, data.length - 44 < fuel → ∃ r, decodeWAV fuel data = some r) := by
  constructor
  · intro hlen hriff hwave hfmt h8 h16 fuel
    rw [decodeWAV_payload fuel data hlen hriff hwave, hfmt]
    have hb : ([] : List ℚ).length < sampleBudget := by
      simp [sampleBudget, SampleRate, MaxDurationSec]
    exact wavLoop_stuck _ _ h8 h16 fuel _ [] hb
  · intro hcase fuel hfuel
    by_cases hlen : data.length < 44
    · unfold decodeWAV
      rw [if_pos hlen]
      exact ⟨_, rfl⟩
    · by_cases htags : data.take 4 ≠ riffTag ∨ (data.drop 8).take 4 ≠ waveTag
      · unfold decodeWAV
        rw [if_neg hlen, if_pos htags]
        exact ⟨_, rfl⟩
      · push_neg at htags
        rw [decodeWAV_payload fuel data (not_lt.mp hlen) htags.1 htags.2]
        apply wavLoop_returns
        · rcases hcase with h | h | h | h | h | h
          · exact absurd h hlen
          · exact absurd htags.1 h
          · exact absurd htags.2 h
          · exact Or.inl h
          · exact Or.inr (Or.inl h)
          · exact Or.inr (Or.inr h)
        · rw [List.length_drop]
          exact hfuel

/-- C21 at the header of a 24-bit PCM stream, where `decodeWAV` does not
return, and at an 8-bit stream of three payload bytes, where it does. -/
theorem decodeWAV_hangs_on_bit_depth_witness :
    (44 ≤ (wavHeader 1 1 24).length ∧ (wavHeader 1 1 24).take 4 = riffTag ∧
        ((wavHeader 1 1 24).drop 8).take 4 = waveTag ∧ uint16At (wavHeader 1 1 24) 20 = 1 ∧
        uint16At (wavHeader 1 1 24) 34 ≠ 8 ∧ uint16At (wavHeader 1 1 24) 34 ≠ 16) ∧
      (∀ fuel, decodeWAV fuel (wavHeader 1 1 24) = none) ∧
      uint16At (wavHeader 1 1 8 ++ [1, 2, 3]) 34 = 8 ∧
      (wavHeader 1 1 8 ++ [1, 2, 3]).length - 44 < 4 ∧
      ∃ r, decodeWAV 4 (wavHeader 1 1 8 ++ [1, 2, 3]) = some r :=
  ⟨⟨by decide, by decide, by decide, by decide, by decide, by decide⟩,
    (decodeWAV_hangs_on_bit_depth (wavHeader 1 1 24)).1 (by decide) (by decide) (by decide)
      (by decide) (by decide) (by decide),
    by decide, by decide,
    (decodeWAV_hangs_on_bit_depth (wavHeader 1 1 8 ++ [1, 2, 3])).2
      (Or.inr (Or.inr (Or.inr (Or.inr (Or.inl (by decide)))))) 4 (by decide)⟩

/-! ## Fingerprints: when the hash set is empty -/

/-- A spectrum without a magnitude above the peak floor has no peak. -/
theorem scanBins_quiet (fftResult : List ℚ) (binSize minBin maxBin : Int)
    (hq : ∀ m ∈ fftResult, m ≤ peakFloor) : scanBins fftResult binSize minBin maxBin = [] := by
  unfold scanBins
  rw [List.filterMap_eq_nil_iff]
  intro k _
  have hle : fftResult.getD (minBin + (k : Int)).toNat 0 ≤ peakFloor := by
    rw [List.getD_eq_getElem?_getD]
    cases h : fftResult[(minBin + (k : Int)).toNat]? with
    | none =>
      simp only [Option.getD_none]
      unfold peakFloor
      norm_num
    | some m => exact hq m (List.getElem?_mem h)
  simp only
  rw [if_neg]
  intro hc
  exact absurd hc.1 (not_lt.mpr hle)

theorem extractPeaks_quiet (fftResult : List ℚ) (sampleRate : Int) (hne : fftResult ≠ [])
    (hs : (fftResult.length : Int) ≤ sampleRate) (hq : ∀ m ∈ fftResult, m ≤ peakFloor) :
    extractPeaks fftResult sampleRate = some [] := by
  rw [extractPeaks_eq fftResult sampleRate hne hs]
  unfold peaksOfBinSize
  simp only [scanBins_quiet fftResult _ _ _ hq]
  rfl

theorem band_below_max (binSize : Int) (hb : 0 < binSize) (bin : Nat)
    (h : (bin : Int) < Int.tdiv (MaxFreq : Int) binSize) :
    bin * binSize.toNat < 12000 := by
  rw [Int.tdiv_eq_ediv (by decide) (le_of_lt hb)] at h
  have h1 : (bin : Int) + 1 ≤ (MaxFreq : Int) / binSize := h
  have h2 := (Int.le_ediv_iff_mul_le hb).mp h1
  have h3 : ((MaxFreq : Nat) : Int) = 12000 := rfl
  obtain ⟨s, hs⟩ : ∃ s : Nat, binSize = (s : Int) := ⟨binSize.toNat, by omega⟩
  subst hs
  rw [Int.toNat_ofNat]
  have h4 : ((bin * s : Nat) : Int) < 12000 := by
    rw [Int.natCast_mul]
    nlinarith
  exact_mod_cast h4

/-- What `extractPeaks` returns on a non-empty spectrum of at most `sampleRate`
bins: distinct frequencies below 12000. -/
theorem extractPeaks_distinct (fftResult : List ℚ) (sampleRate : Int) (hne : fftResult ≠ [])
    (hs : (fftResult.length : Int) ≤ sampleRate) :
    ∃ peaks, extractPeaks fftResult sampleRate = some peaks ∧ peaks.Nodup ∧
      ∀ p ∈ peaks, p < 12000 := by
  have hlen : fftResult.length ≠ 0 := fun h => hne (List.length_eq_zero.mp h)
  have hpos := binSize_pos fftResult.length sampleRate hlen hs
  refine ⟨_, extractPeaks_eq fftResult sampleRate hne hs, ?_⟩
  generalize Int.tdiv sampleRate (fftResult.length : Int) = binSize at hpos ⊢
  obtain ⟨all, hall, hperm, -⟩ := sortPeaks_bins fftResult binSize (ne_of_gt hpos)
  have hnodup : all.Nodup := hperm.nodup_iff.mpr ((List.nodup_range _).filter _)
  have hq : ∀ bin ∈ all, (bin : Int) < Int.tdiv (MaxFreq : Int) binSize := fun bin hbin =>
    ((mem_qualifyingBins fftResult binSize bin).mp (hperm.mem_iff.mp hbin)).2.1
  have hs0 : 0 < binSize.toNat := by omega
  have hcut : peaksOfBinSize fftResult binSize =
      (all.take TopFrequencies).map fun bin : Nat => bin * binSize.toNat := by
    unfold peaksOfBinSize
    simp only
    rw [hall]
    have hc : (if (all.map (peakOfBin fftResult binSize)).length > TopFrequencies then
        (all.map (peakOfBin fftResult binSize)).take TopFrequencies
        else all.map (peakOfBin fftResult binSize)) =
        (all.take TopFrequencies).map (peakOfBin fftResult binSize) := by
      rw [List.map_take]
      split_ifs with h
      · rfl
      · exact (List.take_of_length_le (not_lt.mp h)).symm
    rw [hc, List.map_map]
    apply List.map_congr_left
    intro bin hbin
    exact peakOfBin_freq fftResult binSize hpos bin (hq bin (List.mem_of_mem_take hbin))
  rw [hcut]
  constructor
  · apply List.Nodup.map_on _ (hnodup.sublist (List.take_sublist _ _))
    intro a _ b _ hab
    exact Nat.eq_of_mul_eq_mul_right hs0 hab
  · intro p hp
    obtain ⟨bin, hbin, rfl⟩ := List.mem_map.mp hp
    exact band_below_max binSize hpos bin (hq bin (List.mem_of_mem_take hbin))

/-- The hash of two or more distinct peaks below `2 ^ 16` is not the sentinel 0. -/
theorem hashPeaks_ne_zero (peaks prevPeaks : List Nat) (frame : Int) (hlen : 2 ≤ peaks.length)
    (hnodup : peaks.Nodup) (hsmall : ∀ p ∈ peaks, p < 12000) :
    hashPeaks peaks prevPeaks frame ≠ 0 := by
  obtain ⟨p0, p1, rest, rfl⟩ : ∃ p0 p1 rest, peaks = p0 :: p1 :: rest := by
    match peaks, hlen with
    | p0 :: p1 :: rest, _ => exact ⟨p0, p1, rest, rfl⟩
  have h0 : p0 < 2 ^ 16 := by
    have := hsmall p0 (by simp)
    omega
  have h1 : p1 < 2 ^ 16 := by
    have := hsmall p1 (by simp)
    omega
  have hne : p0 ≠ p1 := by
    intro h
    rw [h] at hnodup
    simp at hnodup
  intro hz
  have hw : ∀ c d : Nat, c < 2 ^ 16 →
      (p0 <<< 48) % 2 ^ 64 ||| (p1 <<< 32) % 2 ^ 64 ||| (c <<< 16) % 2 ^ 64 ||| d % 2 ^ 16 = 0 →
      False := by
    intro c d hc h
    have e0 := word_bits_63_48 p0 p1 c d h1 hc
    have e1 := word_bits_47_32 p0 p1 c d hc
    rw [h] at e0 e1
    rw [Nat.mod_eq_of_lt h0] at e0
    rw [Nat.mod_eq_of_lt h1] at e1
    simp at e0 e1
    omega
  rw [hashPeaks_eq _ _ _ hlen] at hz
  simp only [List.getD_cons_zero, List.getD_cons_succ] at hz
  split_ifs at hz with c1 c2
  · exact hw _ _ (frame_mask_lt frame) hz
  · refine hw ((p0 :: p1 :: rest).getD 2 0) 0 ?_ hz
    have hmem : (p0 :: p1 :: rest).getD 2 0 ∈ p0 :: p1 :: rest := by
      match rest, c2 with
      | r :: rest2, _ => simp
    have := hsmall _ hmem
    omega
  · exact hw 0 0 (by norm_num) hz

theorem mapInsert_ne_nil (hashes : List Nat) (hash : Nat) : mapInsert hashes hash ≠ [] := by
  unfold mapInsert
  split_ifs with h
  · exact List.ne_nil_of_mem h
  · simp

/-- A frame leaves the hash set empty exactly when the set was empty and the
frame has fewer than two peaks. -/
theorem frameStep_empty_iff (st : FrameState) (peaks : List Nat) (frame : Nat)
    (hnodup : peaks.Nodup) (hsmall : ∀ p ∈ peaks, p < 12000) :
    (frameStep st peaks frame).hashes = [] ↔ st.hashes = [] ∧ peaks.length < 2 := by
  unfold frameStep
  by_cases h0 : peaks.length > 0
  · rw [if_pos h0]
    simp only
    by_cases h2 : 2 ≤ peaks.length
    · rw [if_pos (hashPeaks_ne_zero peaks st.prevFreqs (frame : Int) h2 hnodup hsmall)]
      constructor
      · intro h
        exact absurd h (mapInsert_ne_nil _ _)
      · intro h
        omega
    · have hz : hashPeaks peaks st.prevFreqs (frame : Int) = 0 := by
        unfold hashPeaks
        rw [if_pos (by omega)]
      rw [if_neg (by rw [hz]; exact fun h => h rfl)]
      exact ⟨fun h => ⟨h, by omega⟩, fun h => h.1⟩
  · rw [if_neg h0]
    exact ⟨fun h => ⟨h, by omega⟩, fun h => h.1⟩

/-- The frame loop of the default path on the frames `a, a + 1, ..`: it
returns, and its hash set is empty exactly when it started empty and every
frame that fits into the samples has fewer than two peaks. -/
theorem gofftFrames_empty_iff (hannWindow : Nat → Nat → ℚ) (perform : List ℚ → List ℚ)
    (samples : List ℚ)
    (hperf : ∀ w : List ℚ, w.length = WindowSize →
      perform w ≠ [] ∧ (perform w).length ≤ SampleRate)
    (n a : Nat) (st : FrameState) :
    ∃ st1, gofftFrames hannWindow perform samples (List.range' a n) st = some st1 ∧
      (st1.hashes = [] ↔ st.hashes = [] ∧
        ∀ k, a ≤ k → k < a + n → k * HopSize + WindowSize ≤ samples.length →
          ∀ peaks, extractPeaks (perform ((List.range WindowSize).map fun i : Nat =>
            samples.getD (k * HopSize + i) 0 * hannWindow i WindowSize)) (SampleRate : Int)
              = some peaks → peaks.length < 2) := by
  induction n generalizing a st with
  | zero =>
    refine ⟨st, rfl, ?_⟩
    exact ⟨fun h => ⟨h, fun k h1 h2 => by omega⟩, fun h => h.1⟩
  | succ n ih =>
    rw [List.range'_succ, gofftFrames]
    simp only
    by_cases hstop : a * HopSize + WindowSize > samples.length
    · rw [if_pos hstop]
      refine ⟨st, rfl, ?_⟩
      refine ⟨fun h => ⟨h, fun k h1 _ h3 => ?_⟩, fun h => h.1⟩
      have : a * HopSize ≤ k * HopSize := Nat.mul_le_mul_right _ h1
      omega
    · rw [if_neg hstop]
      obtain ⟨hne, hlen⟩ := hperf
        ((List.range WindowSize).map fun i : Nat =>
          samples.getD (a * HopSize + i) 0 * hannWindow i WindowSize) (by simp)
      obtain ⟨peaks, hpeaks, hnodup, hsmall⟩ := extractPeaks_distinct _ (SampleRate : Int) hne
        (by exact_mod_cast hlen)
      rw [hpeaks]
      simp only
      obtain ⟨st1, hst1, hiff⟩ := ih (a + 1) (frameStep st peaks a)
      refine ⟨st1, hst1, ?_⟩
      rw [hiff, frameStep_empty_iff st peaks a hnodup hsmall]
      constructor
      · rintro ⟨⟨h1, h2⟩, h3⟩
        refine ⟨h1, fun k hk1 hk2 hk3 pk hpk => ?_⟩
        by_cases hka : k = a
        · subst hka
          rw [hpeaks] at hpk
          rw [← Option.some.inj hpk]
          exact h2
        · exact h3 k (by omega) (by omega) hk3 pk hpk
      · rintro ⟨h1, h2⟩
        refine ⟨⟨h1, h2 a (le_refl _) (by omega) (not_lt.mp hstop) peaks hpeaks⟩, ?_⟩
        intro k hk1 hk2 hk3 pk hpk
        exact h2 k (by omega) (by omega) hk3 pk hpk

/-- The frame loop of the custom path: it returns, and its hash set is empty
exactly when it started empty and every window handed to the transform has
fewer than two peaks. -/
theorem customFrames_empty_iff (hannWindow : Nat → Nat → ℚ) (perform : List ℚ → List ℚ)
    (hperf : ∀ w : List ℚ, w.length = WindowSize →
      perform w ≠ [] ∧ (perform w).length ≤ SampleRate)
    (frames : List Nat) (samples : List ℚ) (st : FrameState) :
    ∃ p, customFrames hannWindow perform frames (samples, st) = some p ∧
      (p.2.hashes = [] ↔ st.hashes = [] ∧
        ∀ w ∈ customWindows hannWindow frames samples,
          ∀ peaks, extractPeaks (perform w) (SampleRate : Int) = some peaks →
            peaks.length < 2) := by
  induction frames generalizing samples st with
  | nil =>
    refine ⟨(samples, st), rfl, ?_⟩
    rw [customWindows]
    exact ⟨fun h => ⟨h, fun w hw => absurd hw (List.not_mem_nil w)⟩, fun h => h.1⟩
  | cons frame rest ih =>
    rw [customFrames, customWindows]
    simp only
    by_cases hstop : frame * HopSize + WindowSize > samples.length
    · rw [if_pos hstop, if_pos hstop]
      refine ⟨(samples, st), rfl, ?_⟩
      exact ⟨fun h => ⟨h, fun w hw => absurd hw (List.not_mem_nil w)⟩, fun h => h.1⟩
    · rw [if_neg hstop, if_neg hstop]
      obtain ⟨hne, hlen⟩ := hperf
        ((List.range WindowSize).map fun i : Nat =>
          samples.getD (frame * HopSize + i) 0 * hannWindow i WindowSize) (by simp)
      obtain ⟨peaks, hpeaks, hnodup, hsmall⟩ := extractPeaks_distinct _ (SampleRate : Int) hne
        (by exact_mod_cast hlen)
      rw [hpeaks]
      simp only
      obtain ⟨p, hp, hiff⟩ := ih
        (samples.take (frame * HopSize) ++
          ((List.range WindowSize).map fun i : Nat =>
            samples.getD (frame * HopSize + i) 0 * hannWindow i WindowSize) ++
          samples.drop (frame * HopSize + WindowSize))
        (frameStep st peaks frame)
      refine ⟨p, hp, ?_⟩
      rw [hiff, frameStep_empty_iff st peaks frame hnodup hsmall]
      constructor
      · rintro ⟨⟨h1, h2⟩, h3⟩
        refine ⟨h1, fun w hw pk hpk => ?_⟩
        rcases List.mem_cons.mp hw with hw1 | hw1
        · rw [hw1, hpeaks] at hpk
          rw [← Option.some.inj hpk]
          exact h2
        · exact h3 w hw1 pk hpk
      · rintro ⟨h1, h2⟩
        exact ⟨⟨h1, h2 _ (List.mem_cons_self _ _) peaks hpeaks⟩,
          fun w hw pk hpk => h2 w (List.mem_cons_of_mem _ hw) pk hpk⟩

/-- A window cut from all-zero samples is the all-zero window. -/
theorem window_of_silence (hannWindow : Nat → Nat → ℚ) (samples : List ℚ)
    (hz : ∀ x ∈ samples, x = 0) (start : Nat) :
    ((List.range WindowSize).map fun i : Nat =>
      samples.getD (start + i) 0 * hannWindow i WindowSize) = List.replicate WindowSize 0 := by
  rw [List.eq_replicate_iff]
  refine ⟨by rw [List.length_map, List.length_range], ?_⟩
  intro b hb
  obtain ⟨i, _, rfl⟩ := List.mem_map.mp hb
  have h0 : samples.getD (start + i) 0 = 0 := by
    rw [List.getD_eq_getElem?_getD]
    cases h : samples[start + i]? with
    | none => rfl
    | some x => exact hz x (List.getElem?_mem h)
  rw [h0, zero_mul]

/-- On all-zero samples every window that the custom path hands to the
transform is the all-zero window. -/
theorem customWindows_of_silence (hannWindow : Nat → Nat → ℚ) (frames : List Nat)
    (samples : List ℚ) (hz : ∀ x ∈ samples, x = 0) :
    ∀ w ∈ customWindows hannWindow frames samples, w = List.replicate WindowSize 0 := by
  induction frames generalizing samples with
  | nil =>
    intro w hw
    rw [customWindows] at hw
    exact absurd hw (List.not_mem_nil w)
  | cons frame rest ih =>
    intro w hw
    rw [customWindows] at hw
    simp only at hw
    split_ifs at hw with hstop
    · exact absurd hw (List.not_mem_nil w)
    · rcases List.mem_cons.mp hw with h1 | h1
      · rw [h1]
        exact window_of_silence hannWindow samples hz _
      · refine ih _ ?_ w h1
        intro x hx
        rw [window_of_silence hannWindow samples hz] at hx
        rcases List.mem_append.mp hx with h2 | h2
        · rcases List.mem_append.mp h2 with h3 | h3
          · exact hz x (List.mem_of_mem_take h3)
          · exact (List.mem_replicate.mp h3).2
        · exact hz x (List.mem_of_mem_drop h2)

theorem toneSpectrum_length (v : ℚ) : (toneSpectrum v).length = 1024 := by
  simp only [toneSpectrum, List.length_append, List.length_replicate, List.length_singleton]

theorem getD_zeros_append (a : Nat) (l : List ℚ) (k : Nat) :
    (List.replicate a (0 : ℚ) ++ l).getD k 0 = if k < a then 0 else l.getD (k - a) 0 := by
  rw [List.getD_eq_getElem?_getD, List.getD_eq_getElem?_getD, List.getElem?_append,
    List.length_replicate]
  split_ifs with h
  · rw [List.getElem?_replicate, if_pos h]
    rfl
  · rfl

theorem getD_zeros (a k : Nat) : (List.replicate a (0 : ℚ)).getD k 0 = 0 := by
  rw [List.getD_eq_getElem?_getD, List.getElem?_replicate]
  split_ifs <;> rfl

theorem toneSpectrum_getD (v : ℚ) (k : Nat) :
    (toneSpectrum v).getD k 0 = if k = 24 then v else if k = 40 then v / 2 else 0 := by
  have e : toneSpectrum v = List.replicate 24 0 ++
      (v :: (List.replicate 15 0 ++ (v / 2 :: List.replicate 983 0))) := by
    unfold toneSpectrum
    simp only [List.append_assoc, List.singleton_append, List.cons_append, List.nil_append]
  rw [e, getD_zeros_append]
  by_cases c1 : k < 24
  · rw [if_pos c1, if_neg (by omega), if_neg (by omega)]
  · rw [if_neg c1]
    by_cases h24 : k = 24
    · subst h24
      rw [if_pos rfl, Nat.sub_self, List.getD_cons_zero]
    · rw [if_neg h24]
      obtain ⟨m, hm⟩ : ∃ m, k - 24 = m + 1 := ⟨k - 25, by omega⟩
      rw [hm, List.getD_cons_succ, getD_zeros_append]
      by_cases c2 : m < 15
      · rw [if_pos c2, if_neg (by omega)]
      · rw [if_neg c2]
        by_cases h40 : k = 40
        · have hm15 : m - 15 = 0 := by omega
          rw [if_pos h40, hm15, List.getD_cons_zero]
        · obtain ⟨m2, hm2⟩ : ∃ m2, m - 15 = m2 + 1 := ⟨m - 16, by omega⟩
          rw [if_neg h40, hm2, List.getD_cons_succ, getD_zeros]

theorem toneSpectrum_zero_quiet : ∀ m ∈ toneSpectrum 0, m ≤ peakFloor := by
  intro m hm
  simp only [toneSpectrum, List.mem_append, List.mem_replicate, List.mem_singleton] at hm
  have h0 : m = 0 := by
    rcases hm with (((h | h) | h) | h) | h
    · exact h.2
    · exact h
    · exact h.2
    · rw [h]
      norm_num
    · exact h.2
  rw [h0]
  unfold peakFloor
  norm_num

set_option maxRecDepth 4000 in
/-- The spectrum with magnitude 1/2 in bin 24 and 1/4 in bin 40 has the two
peaks 1032 and 1720. -/
theorem extractPeaks_toneSpectrum :
    extractPeaks (toneSpectrum (1 / 2)) (SampleRate : Int) = some [1032, 1720] := by
  unfold extractPeaks peaksOfBinSize scanBins dominated
  simp only [toneSpectrum_length, toneSpectrum_getD]
  with_unfolding_all decide

/-- The default path: it returns, and the hash set is empty exactly when every
processed frame has fewer than two peaks. -/
theorem generateFingerprintGofft_empty_iff (hannWindow : Nat → Nat → ℚ)
    (perform : List ℚ → List ℚ) (samples : List ℚ)
    (hperf : ∀ w : List ℚ, w.length = WindowSize →
      perform w ≠ [] ∧ (perform w).length ≤ SampleRate) :
    ∃ hs, generateFingerprintGofft hannWindow perform samples = some hs ∧
      (hs = [] ↔
        ∀ k, k < numFramesOf samples → k * HopSize + WindowSize ≤ samples.length →
          ∀ peaks, extractPeaks (perform ((List.range WindowSize).map fun i : Nat =>
            samples.getD (k * HopSize + i) 0 * hannWindow i WindowSize)) (SampleRate : Int)
              = some peaks → peaks.length < 2) := by
  obtain ⟨st1, hst1, hiff⟩ := gofftFrames_empty_iff hannWindow perform samples hperf
    (numFramesOf samples) 0 { hashes := [], prevFreqs := [] }
  refine ⟨st1.hashes, ?_, ?_⟩
  · unfold generateFingerprintGofft
    rw [List.range_eq_range', hst1]
    rfl
  · rw [hiff]
    constructor
    · rintro ⟨-, h⟩ k hk1 hk2
      exact h k (Nat.zero_le _) (by omega) hk2
    · intro h
      exact ⟨rfl, fun k _ hk1 hk2 => h k (by omega) hk2⟩

/-- The custom path: it returns, and the hash set is empty exactly when every
window handed to the transform has fewer than two peaks. -/
theorem generateFingerprintCustomFFT_empty_iff (hannWindow : Nat → Nat → ℚ)
    (perform : List ℚ → List ℚ) (samples : List ℚ)
    (hperf : ∀ w : List ℚ, w.length = WindowSize →
      perform w ≠ [] ∧ (perform w).length ≤ SampleRate) :
    ∃ hs smp, generateFingerprintCustomFFT hannWindow perform samples = some (hs, smp) ∧
      (hs = [] ↔
        ∀ w ∈ customWindows hannWindow (List.range (numFramesOf samples)) samples,
          ∀ peaks, extractPeaks (perform w) (SampleRate : Int) = some peaks →
            peaks.length < 2) := by
  obtain ⟨p, hp, hiff⟩ := customFrames_empty_iff hannWindow perform hperf
    (List.range (numFramesOf samples)) samples { hashes := [], prevFreqs := [] }
  refine ⟨p.2.hashes, p.1, ?_, ?_⟩
  · unfold generateFingerprintCustomFFT
    rw [hp]
    rfl
  · rw [hiff]
    exact ⟨fun h => h.2, fun h => ⟨rfl, h⟩⟩

/-- All-zero samples give the empty hash set on both paths, for a transform
that has no magnitude above the peak floor on the all-zero window. -/
theorem fingerprint_of_zero_samples (hannWindow : Nat → Nat → ℚ)
    (perform : List ℚ → List ℚ) (samples : List ℚ)
    (hperf : ∀ w : List ℚ, w.length = WindowSize →
      perform w ≠ [] ∧ (perform w).length ≤ SampleRate)
    (hz : ∀ x ∈ samples, x = 0)
    (hquiet : ∀ m ∈ perform (List.replicate WindowSize 0), m ≤ peakFloor) :
    generateFingerprintGofft hannWindow perform samples = some [] ∧
      ∃ smp, generateFingerprintCustomFFT hannWindow perform samples = some ([], smp) := by
  obtain ⟨hne, hlen⟩ := hperf (List.replicate WindowSize 0) (List.length_replicate _ _)
  have hnone : ∀ peaks, extractPeaks (perform (List.replicate WindowSize 0)) (SampleRate : Int)
      = some peaks → peaks.length < 2 := by
    intro peaks hpeaks
    rw [extractPeaks_quiet _ _ hne (by exact_mod_cast hlen) hquiet] at hpeaks
    rw [← Option.some.inj hpeaks]
    decide
  constructor
  · obtain ⟨hs, hres, hiff⟩ := generateFingerprintGofft_empty_iff hannWindow perform samples hperf
    have hempty : hs = [] := by
      rw [hiff]
      intro k _ _ peaks hpeaks
      rw [window_of_silence hannWindow samples hz] at hpeaks
      exact hnone peaks hpeaks
    rw [hres, hempty]
  · obtain ⟨hs, smp, hres, hiff⟩ :=
      generateFingerprintCustomFFT_empty_iff hannWindow perform samples hperf
    have hempty : hs = [] := by
      rw [hiff]
      intro w hw peaks hpeaks
      rw [customWindows_of_silence hannWindow _ samples hz w hw] at hpeaks
      exact hnone peaks hpeaks
    exact ⟨smp, by rw [hres, hempty]⟩

theorem tone_hperf : ∀ w : List ℚ, w.length = WindowSize →
    (fun w : List ℚ => toneSpectrum (w.getD 1024 0)) w ≠ [] ∧
      ((fun w : List ℚ => toneSpectrum (w.getD 1024 0)) w).length ≤ SampleRate := by
  intro w _
  simp only
  constructor
  · intro h
    have := congrArg List.length h
    rw [toneSpectrum_length] at this
    exact absurd this (by decide)
  · rw [toneSpectrum_length]
    decide

theorem tone_quiet : ∀ m ∈ (fun w : List ℚ => toneSpectrum (w.getD 1024 0))
    (List.replicate WindowSize 0), m ≤ peakFloor := by
  intro m hm
  simp only at hm
  have e : (List.replicate WindowSize (0 : ℚ)).getD 1024 0 = 0 := by
    rw [List.getD_eq_getElem?_getD, List.getElem?_replicate]
    split_ifs <;> rfl
  rw [e] at hm
  exact toneSpectrum_zero_quiet m hm

/-- C16 fails: on 2048 samples of silence both generators return the empty
hash set.  The transform here puts the magnitude of sample 1024 of the window
in bin 24 and half of it in bin 40, so it is quiet on the all-zero window, as
the transform of the repository is (`CooleyTukeyFFT_of_zeros`), and gives two
peaks on a window that is not zero there; the window function is the constant
1/2. -/
theorem fingerprint_of_silence_empty :
    generateFingerprintGofft (fun _ _ => 1 / 2) (fun w => toneSpectrum (w.getD 1024 0))
        (List.replicate 2048 0) = some [] ∧
      ∃ smp, generateFingerprintCustomFFT (fun _ _ => 1 / 2)
        (fun w => toneSpectrum (w.getD 1024 0)) (List.replicate 2048 0) = some ([], smp) :=
  fingerprint_of_zero_samples (fun _ _ => 1 / 2) (fun w => toneSpectrum (w.getD 1024 0))
    (List.replicate 2048 0) tone_hperf (fun _ hx => (List.mem_replicate.mp hx).2) tone_quiet

/-- C16, amended: with transforms that give a non-empty spectrum of at most
`SampleRate` bins for a window of `WindowSize` samples, both generators return
a hash set for every sample sequence, and the set is non-empty exactly when
some processed frame yields at least two peaks (on the default path frame `k`
is processed when `k < numFrames` and `512·k + 2048 ≤ len(samples)`, and its
window is `samples[512·k + i] × hann(i, 2048)`; on the custom path the windows
are those of `customWindows`).  In particular all-zero samples give the empty
hash set, for every transform without a magnitude above the float64 constant
0.001 on the all-zero window. -/
theorem fingerprint_nonempty_iff (hannWindow : Nat → Nat → ℚ) (perform : List ℚ → List ℚ)
    (samples : List ℚ)
    (hperf : ∀ w : List ℚ, w.length = WindowSize →
      perform w ≠ [] ∧ (perform w).length ≤ SampleRate) :
    (∃ hs, generateFingerprintGofft hannWindow perform samples = some hs ∧
      (hs ≠ [] ↔
        ∃ k, k < numFramesOf samples ∧ k * HopSize + WindowSize ≤ samples.length ∧
          ∃ peaks, extractPeaks (perform ((List.range WindowSize).map fun i : Nat =>
            samples.getD (k * HopSize + i) 0 * hannWindow i WindowSize)) (SampleRate : Int)
              = some peaks ∧ 2 ≤ peaks.length)) ∧
    (∃ hs smp, generateFingerprintCustomFFT hannWindow perform samples = some (hs, smp) ∧
      (hs ≠ [] ↔
        ∃ w, w ∈ customWindows hannWindow (List.range (numFramesOf samples)) samples ∧
          ∃ peaks, extractPeaks (perform w) (SampleRate : Int) = some peaks ∧
            2 ≤ peaks.length)) ∧
    ((∀ x ∈ samples, x = 0) →
      (∀ m ∈ perform (List.replicate WindowSize 0), m ≤ peakFloor) →
      generateFingerprintGofft hannWindow perform samples = some [] ∧
        ∃ smp, generateFingerprintCustomFFT hannWindow perform samples = some ([], smp)) := by
  refine ⟨?_, ?_, ?_⟩
  · obtain ⟨hs, hres, hiff⟩ := generateFingerprintGofft_empty_iff hannWindow perform samples hperf
    refine ⟨hs, hres, ?_⟩
    rw [Ne, hiff]
    constructor
    · intro h
      by_contra hcon
      apply h
      intro k hk1 hk2 peaks hpeaks
      by_contra hlen
      exact hcon ⟨k, hk1, hk2, peaks, hpeaks, by omega⟩
    · rintro ⟨k, hk1, hk2, peaks, hpeaks, hlen⟩ h
      have := h k hk1 hk2 peaks hpeaks
      omega
  · obtain ⟨hs, smp, hres, hiff⟩ :=
      generateFingerprintCustomFFT_empty_iff hannWindow perform samples hperf
    refine ⟨hs, smp, hres, ?_⟩
    rw [Ne, hiff]
    constructor
    · intro h
      by_contra hcon
      apply h
      intro w hw peaks hpeaks
      by_contra hlen
      exact hcon ⟨w, hw, peaks, hpeaks, by omega⟩
    · rintro ⟨w, hw, peaks, hpeaks, hlen⟩ h
      have := h w hw peaks hpeaks
      omega
  · intro hz hquiet
    exact fingerprint_of_zero_samples hannWindow perform samples hperf hz hquiet

theorem numFramesOf_pos (samples : List ℚ) : 0 < numFramesOf samples := by
  unfold numFramesOf
  split_ifs <;> omega

/-- C16 amended, with the constant window 1/2 and the transform that puts the
magnitude of sample 1024 of the window in bin 24 and half of it in bin 40: 2048
samples of silence give the empty hash set on both paths, and 2048 samples of
value 1 give a hash set that is not empty. -/
theorem fingerprint_nonempty_iff_witness :
    (∀ w : List ℚ, w.length = WindowSize →
        (fun w : List ℚ => toneSpectrum (w.getD 1024 0)) w ≠ [] ∧
          ((fun w : List ℚ => toneSpectrum (w.getD 1024 0)) w).length ≤ SampleRate) ∧
      (∀ x ∈ List.replicate 2048 (0 : ℚ), x = 0) ∧
      (∀ m ∈ (fun w : List ℚ => toneSpectrum (w.getD 1024 0)) (List.replicate WindowSize 0),
        m ≤ peakFloor) ∧
      (generateFingerprintGofft (fun _ _ => 1 / 2) (fun w => toneSpectrum (w.getD 1024 0))
          (List.replicate 2048 0) = some [] ∧
        ∃ smp, generateFingerprintCustomFFT (fun _ _ => 1 / 2)
          (fun w => toneSpectrum (w.getD 1024 0)) (List.replicate 2048 0) = some ([], smp)) ∧
      ∃ hs, generateFingerprintGofft (fun _ _ => 1 / 2) (fun w => toneSpectrum (w.getD 1024 0))
        (List.replicate 2048 1) = some hs ∧ hs ≠ [] :=
  have hz : ∀ x ∈ List.replicate 2048 (0 : ℚ), x = 0 := fun _ hx => (List.mem_replicate.mp hx).2
  have hloud : ∃ hs, generateFingerprintGofft (fun _ _ => 1 / 2)
      (fun w => toneSpectrum (w.getD 1024 0)) (List.replicate 2048 1) = some hs ∧ hs ≠ [] := by
    obtain ⟨hs, hres, hiff⟩ := (fingerprint_nonempty_iff (fun _ _ => 1 / 2)
      (fun w => toneSpectrum (w.getD 1024 0)) (List.replicate 2048 1) tone_hperf).1
    refine ⟨hs, hres, hiff.mpr ⟨0, numFramesOf_pos _, ?_, [1032, 1720], ?_, by decide⟩⟩
    · rw [List.length_replicate]
      decide
    · have e : ((List.range WindowSize).map fun i : Nat =>
          (List.replicate 2048 (1 : ℚ)).getD (0 * HopSize + i) 0 *
            (fun _ _ => 1 / 2 : Nat → Nat → ℚ) i WindowSize).getD 1024 0 = 1 / 2 := by
        rw [getD_windowed (fun _ _ => 1 / 2) (List.replicate 2048 1) (0 * HopSize) 1024
          (by decide), List.getD_eq_getElem?_getD, List.getElem?_replicate,
          if_pos (by decide)]
        norm_num
      show extractPeaks (toneSpectrum (((List.range WindowSize).map fun i : Nat =>
        (List.replicate 2048 (1 : ℚ)).getD (0 * HopSize + i) 0 *
          (fun _ _ => 1 / 2 : Nat → Nat → ℚ) i WindowSize).getD 1024 0)) (SampleRate : Int) =
        some [1032, 1720]
      rw [e]
      exact extractPeaks_toneSpectrum
  ⟨tone_hperf, hz, tone_quiet,
    (fingerprint_nonempty_iff (fun _ _ => 1 / 2) (fun w => toneSpectrum (w.getD 1024 0))
      (List.replicate 2048 0) tone_hperf).2.2 hz tone_quiet,
    hloud⟩

end Sonic
